import Mathlib

/-!
Verification of the decision-tree-to-SAS translator in tree_to_sas.py.

The Python translator works line by line over the text rendering of a
binary decision tree.  We embed it shallowly: Python strings become
List Char, the per-depth occurrence dictionary becomes an
insertion-ordered association list from depth to count (Python dicts
preserve insertion order and key the dictionary by the decimal string
of the depth, which is injective, so keying by the number itself is
faithful), and the open-block stack becomes a list whose head is the
Python list tail.  Fallible operations (tuple unpacking of rsplit,
float parsing) return Option.
-/

/-- Characters treated as whitespace by the Python rstrip and rsplit
used in the translator (ASCII whitespace; the lines at hand only ever
carry spaces). -/
def pyIsSpace (c : Char) : Bool :=
  c = ' ' || c = '\t' || c = '\n' || c = '\r' || c = '\x0b' || c = '\x0c'

/-- Python line.rstrip(): remove trailing whitespace. -/
def rstripAll (s : List Char) : List Char :=
  (s.reverse.dropWhile pyIsSpace).reverse

/-- Replace every occurrence of one character by another, as the Python
single-character str.replace does. -/
def replChar (a b : Char) (s : List Char) : List Char :=
  s.map (fun c => if c = a then b else c)

/-- Line normalisation from tree_to_sas.py line 67:
line.rstrip().replace(vertical bar, space).replace(dash, space). -/
def normLine (raw : List Char) : List Char :=
  replChar '-' ' ' (replChar '|' ' ' (rstripAll raw))

/-- Leading-space count of a line, tree_to_sas.py line 68:
len(line) - len(line.lstrip(space)). -/
def nSpacesOf (s : List Char) : Nat :=
  (s.takeWhile (fun c => c = ' ')).length

/-- A run of n spaces. -/
def spacesN (n : Nat) : List Char := List.replicate n ' '

/-- Python substring membership test: pyIn pat s decides pat in s. -/
def pyIn (pat : List Char) : List Char → Bool
  | [] => pat.isEmpty
  | c :: t => pat.isPrefixOf (c :: t) || pyIn pat t

/-- Scanning loop of Python str.replace for a non-empty pattern, with
explicit fuel so that it is structurally recursive (the fuel never runs
out when it starts at the length of the string and the pattern is
non-empty, because every step consumes at least one character). -/
def pyReplaceAux (pat rep : List Char) : Nat → List Char → List Char
  | _, [] => []
  | 0, s => s
  | fuel + 1, c :: t =>
    if pat.isPrefixOf (c :: t) then rep ++ pyReplaceAux pat rep fuel ((c :: t).drop pat.length)
    else c :: pyReplaceAux pat rep fuel t

/-- Python str.replace(pat, rep): replace every non-overlapping
occurrence of pat, scanning left to right.  With an empty pattern,
Python inserts rep at every character boundary, including both ends. -/
def pyReplace (pat rep : List Char) (s : List Char) : List Char :=
  if pat.isEmpty then rep ++ s.flatMap (fun c => c :: rep)
  else pyReplaceAux pat rep s.length s

/-- Python text.split(newline). -/
def pySplitNl : List Char → List (List Char)
  | [] => [[]]
  | c :: t =>
    if c = '\n' then [] :: pySplitNl t
    else
      match pySplitNl t with
      | [] => [[c]]
      | h :: r => (c :: h) :: r

/-- Python line.rsplit(maxsplit equal 1) followed by unpacking into two
variables, as in tree_to_sas.py line 91.  Returns none exactly when the
unpacking would raise (fewer than two fields: the string is all
whitespace, is a single token, or has only whitespace before its last
token). -/
def pyRsplit1 (s : List Char) : Option (List Char × List Char) :=
  let rv := (rstripAll s).reverse
  let valRev := rv.takeWhile (fun c => !pyIsSpace c)
  let rest1 := rv.dropWhile (fun c => !pyIsSpace c)
  let rest2 := rest1.dropWhile pyIsSpace
  if valRev.isEmpty then none
  else if rest2.isEmpty then none
  else some (rest2.reverse, valRev.reverse)

/-- Decimal digit character for a value below ten. -/
def digitChar (d : Nat) : Char := Char.ofNat (48 + d)

/-- Fuel-driven digit expansion; the fuel never runs out when it
starts at the number itself. -/
def natDigitsAux : Nat → Nat → List Char
  | 0, n => [digitChar n]
  | fuel + 1, n =>
    if n < 10 then [digitChar n]
    else natDigitsAux fuel (n / 10) ++ [digitChar (n % 10)]

/-- Decimal digit string of a natural number, most significant first. -/
def natDigits (n : Nat) : List Char := natDigitsAux n n

/-- Numeric value of a digit string. -/
def natVal (ds : List Char) : Nat :=
  ds.foldl (fun a c => a * 10 + (c.toNat - 48)) 0

/-- Exact decimal value, modelling a Python float literal before binary
rounding: value is mant times ten to the exp, negated when sign is
true. -/
structure PyDec where
  sign : Bool
  mant : Nat
  exp : Int
  deriving DecidableEq, Repr

/-- Rational value of a PyDec. -/
def PyDec.val (d : PyDec) : ℚ :=
  (if d.sign then -1 else 1) * (d.mant : ℚ) * (10 : ℚ) ^ d.exp

/-- Parse of a decimal float literal, modelling Python float(s) on the
plain decimal forms (optional sign, digits with optional point,
optional exponent).  The model keeps the exact decimal value: it
ignores the rounding to binary64, which for the short literals the
renderer emits picks the double nearest the same decimal, and it does
not accept the inf, nan or underscore forms. -/
def pyFloatParse (s : List Char) : Option PyDec :=
  let (sgn, t) :=
    match s with
    | '+' :: t => (false, t)
    | '-' :: t => (true, t)
    | _ => (false, s)
  let intD := t.takeWhile Char.isDigit
  let r1 := t.dropWhile Char.isDigit
  let (fracD, r2) :=
    match r1 with
    | '.' :: u => (u.takeWhile Char.isDigit, u.dropWhile Char.isDigit)
    | _ => ([], r1)
  if intD.isEmpty && fracD.isEmpty then none
  else
    let mant := natVal (intD ++ fracD)
    let eBase : Int := -(fracD.length : Int)
    match r2 with
    | [] => some ⟨sgn, mant, eBase⟩
    | e :: u =>
      if e = 'e' || e = 'E' then
        let (esgn, u2) :=
          match u with
          | '+' :: w => (false, w)
          | '-' :: w => (true, w)
          | _ => (false, u)
        let eD := u2.takeWhile Char.isDigit
        if eD.isEmpty || !(u2.dropWhile Char.isDigit).isEmpty then none
        else
          let ev : Int := if esgn then -(natVal eD : Int) else (natVal eD : Int)
          some ⟨sgn, mant, eBase + ev⟩
      else none

/-- Rounding of m / p to the nearest integer, ties to even, as the
correctly rounded percent-g conversion does. -/
def roundHalfEven (m p : Nat) : Nat :=
  let q := m / p
  let r := m % p
  if 2 * r < p then q
  else if p < 2 * r then q + 1
  else if q % 2 = 0 then q else q + 1

/-- Fuel-driven zero stripping; the fuel never runs out when it starts
at the mantissa itself. -/
def stripZerosAux : Nat → Nat → Int → Nat × Int
  | 0, m, e => (m, e)
  | fuel + 1, m, e =>
    if m ≠ 0 ∧ m % 10 = 0 then stripZerosAux fuel (m / 10) (e + 1) else (m, e)

/-- Drop trailing decimal zeros from a mantissa, bumping the exponent. -/
def stripZeros (m : Nat) (e : Int) : Nat × Int := stripZerosAux m m e

/-- Round a positive decimal m times ten to the e to six significant
digits and normalise away trailing zeros. -/
def sig6 (m : Nat) (e : Int) : Nat × Int :=
  let nd := (natDigits m).length
  if nd ≤ 6 then stripZeros m e
  else stripZeros (roundHalfEven m (10 ^ (nd - 6))) (e + (nd - 6))

/-- Fixed-point rendering of a normalised mantissa digit string with
exponent e1. -/
def renderFixed (ds : List Char) (e1 : Int) : List Char :=
  if 0 ≤ e1 then ds ++ List.replicate e1.toNat '0'
  else
    let k := (-e1).toNat
    if k < ds.length then ds.take (ds.length - k) ++ '.' :: ds.drop (ds.length - k)
    else '0' :: '.' :: List.replicate (k - ds.length) '0' ++ ds

/-- Scientific rendering d.ddd followed by e and a signed two-or-more
digit exponent, as percent-g emits. -/
def renderSci (ds : List Char) (X : Int) : List Char :=
  let mant :=
    match ds with
    | [] => ['0']
    | d :: rest => if rest.isEmpty then [d] else d :: '.' :: rest
  let eDigits := natDigits X.natAbs
  let eDigits2 := if eDigits.length < 2 then '0' :: eDigits else eDigits
  mant ++ 'e' :: (if X < 0 then '-' else '+') :: eDigits2

/-- Formatting of an exact decimal with the Python general format
specifier of default precision six: round to six significant digits,
then use fixed-point display when the decimal exponent X of the
rounded value satisfies -4 <= X < 6 and scientific display otherwise.
Any zero renders as 0 with an optional sign. -/
def formatGdec (d : PyDec) : List Char :=
  let sgn : List Char := if d.sign then ['-'] else []
  if d.mant = 0 then sgn ++ ['0']
  else
    let p := sig6 d.mant d.exp
    let ds := natDigits p.1
    let X : Int := (ds.length : Int) - 1 + p.2
    if -4 ≤ X ∧ X < 6 then sgn ++ renderFixed ds p.2
    else sgn ++ renderSci ds X

/-- The composite numeric step of tree_to_sas.py line 93: parse the
threshold token as a float and re-emit it with the general format. -/
def pyFormatG (s : List Char) : Option (List Char) :=
  (pyFloatParse s).map formatGdec

/-- Lookup in an insertion-ordered association list. -/
def alGet : List (Nat × Nat) → Nat → Option Nat
  | [], _ => none
  | (k, v) :: t, x => if k = x then some v else alGet t x

/-- Update in an insertion-ordered association list; a missing key is
appended at the end, as a Python dict assignment does. -/
def alSet : List (Nat × Nat) → Nat → Nat → List (Nat × Nat)
  | [], x, v => [(x, v)]
  | (k, w) :: t, x, v => if k = x then (x, v) :: t else (k, w) :: alSet t x v

/-- The increment of tree_to_sas.py lines 70-73: set an absent key to
one, else add one. -/
def dIncr (d : List (Nat × Nat)) (k : Nat) : List (Nat × Nat) :=
  match alGet d k with
  | none => alSet d k 1
  | some v => alSet d k (v + 1)

/-- The decrement of tree_to_sas.py line 76. -/
def dDecr (d : List (Nat × Nat)) (k : Nat) : List (Nat × Nat) :=
  match alGet d k with
  | none => d
  | some v => alSet d k (v - 1)

/-- Count stored for a depth, zero when the depth was never seen. -/
def getCount (d : List (Nat × Nat)) (k : Nat) : Nat :=
  (alGet d k).getD 0

/-- get_front_add from tree_to_sas.py lines 105-118: an even count
yields the block terminator, a newline, n_spaces plus two spaces and
ELSE IF, an odd count yields IF. -/
def get_front_add (count n_spaces : Nat) : List Char :=
  if count % 2 = 0 then "END;\n".toList ++ spacesN (n_spaces + 2) ++ "ELSE IF ".toList
  else "IF ".toList

/-- Mutable state of one translation: the per-depth occurrence
dictionary and the open-block stack (head is the Python list end). -/
structure TState where
  dict : List (Nat × Nat)
  stack : List Nat
  deriving DecidableEq, Repr

/-- Initial translation state. -/
def initTS : TState := ⟨[], []⟩

/-- The pop loop of tree_to_sas.py lines 79-86: pop while the stack top
is strictly greater than the leading-space count, returning the
remaining stack and how many entries were popped (one terminator line
is emitted per popped entry). -/
def popEnds (n : Nat) : List Nat → List Nat × Nat
  | [] => ([], 0)
  | t :: rest =>
    if n < t then
      let p := popEnds n rest
      (p.1, p.2 + 1)
    else (t :: rest, 0)

/-- Terminator text emitted for k pops. -/
def endsFor (k : Nat) : List Char :=
  (List.replicate k "END;\n".toList).flatten

/-- Name of the synthesized prediction variable for a tree. -/
def pvName (treeId : Nat) : List Char :=
  "PREDICTED_VALUE_".toList ++ natDigits (treeId + 1)

/-- Everything one loop iteration of translate_text_to_sas computes for
a raw input line. -/
structure LineRec where
  n : Nat
  leaf : Bool
  cmp : Bool
  front : List Char
  pops : Nat
  pushed : Bool
  chunk : Option (List Char)
  deriving DecidableEq, Repr

/-- The condition-line transform of tree_to_sas.py lines 90-93: split
off the trailing numeric token, insert the role prefix after every
occurrence of the leading-space run (Python str.replace replaces all
occurrences), and append the reformatted threshold and the
block-opening suffix.  none when the rsplit unpacking or the float
conversion would raise. -/
def condTransform (n : Nat) (front line0 : List Char) : Option (List Char) :=
  match pyRsplit1 line0 with
  | none => none
  | some pv =>
    match pyFormatG pv.2 with
    | none => none
    | some g => some (pyReplace (spacesN n) (spacesN n ++ front) pv.1 ++ ' ' :: g ++ " THEN DO;".toList)

/-- The leaf-line transform of tree_to_sas.py lines 95-97: when the
line contains class, substitute the prediction-variable assignment for
the class marker and append a statement terminator. -/
def classTransform (treeId : Nat) (l : List Char) : List Char :=
  if pyIn "class".toList l then
    pyReplace "class:".toList (pvName treeId ++ " =".toList) l ++ [';']
  else l

/-- One iteration of the loop of translate_text_to_sas (tree_to_sas.py
lines 66-99), up to but excluding the final append of the fixed indent,
the chunk and a newline to the accumulator.  chunk is none exactly when
Python would raise inside the iteration (rsplit unpacking or float). -/
def processLine (treeId : Nat) (st : TState) (raw : List Char) : TState × LineRec :=
  let line0 := normLine raw
  let n := nSpacesOf line0
  let leaf := pyIn "class".toList line0
  let d1 := dIncr st.dict n
  let d2 := if leaf then dDecr d1 n else d1
  let front := get_front_add (getCount d2 n) n
  let p := popEnds n st.stack
  let pushed := pyIn "ELSE".toList front && !leaf
  let stack2 := if pushed then n :: p.1 else p.1
  let cmp := pyIn "<".toList line0 || pyIn ">".toList line0
  let l1? : Option (List Char) := if cmp then condTransform n front line0 else some line0
  let l2? : Option (List Char) := l1?.map (classTransform treeId)
  (⟨d2, stack2⟩, ⟨n, leaf, cmp, front, p.2, pushed, l2?.map (fun l2 => endsFor p.2 ++ l2)⟩)

/-- The whole loop of translate_text_to_sas over the split lines,
returning the final state and the list of per-line chunks (none when
any iteration raises). -/
def runLines (treeId : Nat) : TState → List (List Char) → TState × Option (List (List Char))
  | st, [] => (st, some [])
  | st, raw :: rest =>
    let s1 := processLine treeId st raw
    let s2 := runLines treeId s1.1 rest
    (s2.1, match s1.2.chunk, s2.2 with
           | some c, some cs => some (c :: cs)
           | _, _ => none)

/-- Header of the emitted dataset, tree_to_sas.py lines 60-61. -/
def headerOf (treeId : Nat) (sasTable : List Char) : List Char :=
  "DATA DECISION_TREE_".toList ++ natDigits (treeId + 1) ++ ";\nSET ".toList ++ sasTable ++ ";\n".toList

/-- Body text accumulated by the loop: each chunk is preceded by the
fixed indent of spacing spaces and followed by a newline. -/
def joinChunks (spacing : Nat) (chunks : List (List Char)) : List Char :=
  (chunks.map (fun c => spacesN spacing ++ c ++ ['\n'])).flatten

/-- translate_text_to_sas from tree_to_sas.py lines 37-102.  The tree
and features parameters of the Python function are unused in its body
and are omitted.  Returns none when Python would raise on a malformed
condition line. -/
def translate_text_to_sas (treeId : Nat) (sasTable : List Char) (text : List Char) (spacing : Nat) : Option (List Char) :=
  let lines := pySplitNl text
  let r := runLines treeId initTS lines
  r.2.map (fun chunks =>
    (headerOf treeId sasTable ++ joinChunks spacing chunks).dropLast ++ "RUN;".toList)

/-- Message of the configuration error raised at tree_to_sas.py line 27. -/
def cfgErrMsg : List Char := "spacing must be > 1".toList

/-- get_rules from tree_to_sas.py lines 3-35.  The call to the external
renderer export_text is abstracted as the function argument render,
applied to max_depth and spacing minus one exactly as in the source;
the tree and features arguments only flow into that call.  A
ValueError is modelled as Except.error carrying its message. -/
def get_rules (render : Nat → Nat → List Char) (treeId : Nat) (sasTable : List Char) (maxDepth spacing : Nat) : Except (List Char) (List Char) :=
  if spacing < 2 then Except.error cfgErrMsg
  else
    match translate_text_to_sas treeId sasTable (render maxDepth (spacing - 1)) spacing with
    | some r => Except.ok r
    | none => Except.error "invalid rule line".toList

/-! ### Basic lemmas about the association list -/

lemma alGet_alSet_self (d : List (Nat × Nat)) (k v : Nat) : alGet (alSet d k v) k = some v := by
  induction d with
  | nil => simp [alSet, alGet]
  | cons p t ih =>
    obtain ⟨a, b⟩ := p
    by_cases h : a = k
    · simp [alSet, alGet, h]
    · simp [alSet, alGet, h, ih]

lemma alGet_alSet_ne (d : List (Nat × Nat)) (k v j : Nat) (h : j ≠ k) :
    alGet (alSet d k v) j = alGet d j := by
  induction d with
  | nil =>
    have hkj : ¬ k = j := fun hh => h hh.symm
    simp [alSet, alGet, hkj]
  | cons p t ih =>
    obtain ⟨a, b⟩ := p
    simp only [alSet]
    by_cases ha : a = k
    · rw [if_pos ha]
      have hkj : ¬ k = j := fun hh => h hh.symm
      have haj : ¬ a = j := by rw [ha]; exact hkj
      rw [alGet, alGet, if_neg hkj, if_neg haj]
    · rw [if_neg ha]
      by_cases hj : a = j
      · rw [alGet, alGet, if_pos hj, if_pos hj]
      · rw [alGet, alGet, if_neg hj, if_neg hj, ih]

lemma getCount_dIncr_self (d : List (Nat × Nat)) (k : Nat) :
    getCount (dIncr d k) k = getCount d k + 1 := by
  unfold dIncr getCount
  cases h : alGet d k <;> simp [h, alGet_alSet_self]

lemma getCount_dIncr_ne (d : List (Nat × Nat)) (k j : Nat) (h : j ≠ k) :
    getCount (dIncr d k) j = getCount d j := by
  unfold dIncr getCount
  cases hg : alGet d k <;> simp [alGet_alSet_ne _ _ _ _ h]

lemma getCount_dDecr_self (d : List (Nat × Nat)) (k : Nat) :
    getCount (dDecr d k) k = getCount d k - 1 := by
  unfold dDecr getCount
  cases h : alGet d k <;> simp [h, alGet_alSet_self]

lemma getCount_dDecr_ne (d : List (Nat × Nat)) (k j : Nat) (h : j ≠ k) :
    getCount (dDecr d k) j = getCount d j := by
  unfold dDecr getCount
  cases hg : alGet d k <;> simp [alGet_alSet_ne _ _ _ _ h]

/-! ### Substring membership and replacement lemmas -/

lemma pyIn_iff (pat s : List Char) : pyIn pat s = true ↔ ∃ a b, s = a ++ pat ++ b := by
  induction s with
  | nil =>
    simp only [pyIn, List.isEmpty_iff]
    constructor
    · intro h; exact ⟨[], [], by simp [h]⟩
    · rintro ⟨a, b, h⟩
      exact (List.append_eq_nil.mp (List.append_eq_nil.mp h.symm).1).2
  | cons c t ih =>
    simp only [pyIn, Bool.or_eq_true]
    constructor
    · rintro (h | h)
      · rcases List.isPrefixOf_iff_prefix.mp h with ⟨b, hb⟩
        exact ⟨[], b, by simp [hb.symm]⟩
      · rcases ih.mp h with ⟨a, b, hab⟩
        exact ⟨c :: a, b, by simp [hab]⟩
    · rintro ⟨a, b, hab⟩
      cases a with
      | nil =>
        left
        exact List.isPrefixOf_iff_prefix.mpr ⟨b, by simpa using hab.symm⟩
      | cons a0 a1 =>
        right
        simp only [List.cons_append, List.cons.injEq] at hab
        exact ih.mpr ⟨a1, b, hab.2⟩

lemma pyIn_append_left (pat s x : List Char) (h : pyIn pat s = true) :
    pyIn pat (x ++ s) = true := by
  rcases (pyIn_iff pat s).mp h with ⟨a, b, hab⟩
  exact (pyIn_iff pat (x ++ s)).mpr ⟨x ++ a, b, by simp [hab]⟩

lemma pyIn_append_right (pat s y : List Char) (h : pyIn pat s = true) :
    pyIn pat (s ++ y) = true := by
  rcases (pyIn_iff pat s).mp h with ⟨a, b, hab⟩
  exact (pyIn_iff pat (s ++ y)).mpr ⟨a, b ++ y, by simp [hab]⟩

lemma pyIn_self_append (pat y : List Char) : pyIn pat (pat ++ y) = true :=
  (pyIn_iff _ _).mpr ⟨[], y, rfl⟩

lemma pyReplaceAux_congr (pat rep : List Char) (h : pat ≠ []) :
    ∀ f1 f2 s, s.length ≤ f1 → s.length ≤ f2 →
      pyReplaceAux pat rep f1 s = pyReplaceAux pat rep f2 s := by
  intro f1
  induction f1 with
  | zero =>
    intro f2 s h1 h2
    have : s = [] := List.length_eq_zero.mp (by omega)
    subst this
    cases f2 <;> rfl
  | succ f1 ih =>
    intro f2 s h1 h2
    cases s with
    | nil => cases f2 <;> rfl
    | cons c t =>
      have hlen : 0 < pat.length := List.length_pos.mpr h
      cases f2 with
      | zero => simp at h2
      | succ f2 =>
        simp only [pyReplaceAux]
        cases hm : pat.isPrefixOf (c :: t) with
        | true =>
          simp only [if_pos]
          congr 1
          apply ih
          · simp only [List.length_drop, List.length_cons]
            simp only [List.length_cons] at h1
            omega
          · simp only [List.length_drop, List.length_cons]
            simp only [List.length_cons] at h2
            omega
        | false =>
          simp only [if_neg, Bool.false_eq_true, not_false_iff]
          congr 1
          apply ih
          · simp only [List.length_cons] at h1; omega
          · simp only [List.length_cons] at h2; omega

lemma pyReplace_nil (pat rep : List Char) (h : pat ≠ []) : pyReplace pat rep [] = [] := by
  have hne : pat.isEmpty = false := by simp [List.isEmpty_iff, h]
  simp [pyReplace, hne, pyReplaceAux]

lemma pyReplace_cons_not_matched (pat rep : List Char) (c : Char) (t : List Char)
    (h : pat ≠ []) (hm : pat.isPrefixOf (c :: t) = false) :
    pyReplace pat rep (c :: t) = c :: pyReplace pat rep t := by
  have hne : pat.isEmpty = false := by simp [List.isEmpty_iff, h]
  simp only [pyReplace, hne, Bool.false_eq_true, if_false, List.length_cons, pyReplaceAux, hm]

lemma pyReplace_head_match (pat rep rest : List Char) (h : pat ≠ []) :
    pyReplace pat rep (pat ++ rest) = rep ++ pyReplace pat rep rest := by
  have hne : pat.isEmpty = false := by simp [List.isEmpty_iff, h]
  have hpre : pat.isPrefixOf (pat ++ rest) = true :=
    List.isPrefixOf_iff_prefix.mpr ⟨rest, rfl⟩
  have hlen : 0 < pat.length := List.length_pos.mpr h
  obtain ⟨p0, pt, hp⟩ : ∃ p0 pt, pat = p0 :: pt := by
    cases pat with
    | nil => exact absurd rfl h
    | cons x xs => exact ⟨x, xs, rfl⟩
  have hcons : pat ++ rest = p0 :: (pt ++ rest) := by rw [hp]; rfl
  simp only [pyReplace, hne, Bool.false_eq_true, if_false]
  rw [hcons]
  have hlc : (p0 :: (pt ++ rest)).length = (pt ++ rest).length + 1 := by simp
  rw [hlc]
  rw [pyReplaceAux]
  rw [← hcons, if_pos (by rw [hcons] at hpre ⊢; exact hpre)]
  rw [List.drop_left]
  congr 1
  apply pyReplaceAux_congr pat rep h
  · simp [hp]
  · exact le_refl _

lemma pyReplace_not_in (pat rep s : List Char) (h : pat ≠ []) (hn : pyIn pat s = false) :
    pyReplace pat rep s = s := by
  induction s with
  | nil => exact pyReplace_nil pat rep h
  | cons c t ih =>
    rw [pyIn] at hn
    simp only [Bool.or_eq_false_iff] at hn
    rw [pyReplace_cons_not_matched pat rep c t h hn.1, ih hn.2]

lemma pyReplace_contains_rep (pat rep s : List Char) (h : pat ≠ []) (hin : pyIn pat s = true) :
    ∃ a b, pyReplace pat rep s = a ++ rep ++ b := by
  induction s with
  | nil =>
    rw [pyIn] at hin
    simp [List.isEmpty_iff, h] at hin
  | cons c t ih =>
    rw [pyIn] at hin
    cases hm : pat.isPrefixOf (c :: t) with
    | true =>
      rcases List.isPrefixOf_iff_prefix.mp hm with ⟨rest, hrest⟩
      rw [← hrest, pyReplace_head_match pat rep rest h]
      exact ⟨[], pyReplace pat rep rest, rfl⟩
    | false =>
      rw [hm] at hin
      simp only [Bool.false_or] at hin
      rcases ih hin with ⟨a, b, hab⟩
      rw [pyReplace_cons_not_matched pat rep c t h hm, hab]
      exact ⟨c :: a, b, rfl⟩

/-! ### Equation lemmas for the fuel-driven functions -/

lemma natDigitsAux_congr : ∀ f1 f2 n, n ≤ f1 → n ≤ f2 →
    natDigitsAux f1 n = natDigitsAux f2 n := by
  intro f1
  induction f1 with
  | zero =>
    intro f2 n h1 h2
    have hn : n = 0 := by omega
    subst hn
    cases f2 with
    | zero => rfl
    | succ f2 => simp [natDigitsAux]
  | succ f1 ih =>
    intro f2 n h1 h2
    by_cases hn : n < 10
    · cases f2 with
      | zero =>
        have : n = 0 := by omega
        subst this
        simp [natDigitsAux]
      | succ f2 => simp [natDigitsAux, hn]
    · cases f2 with
      | zero => omega
      | succ f2 =>
        simp only [natDigitsAux, if_neg hn]
        have hdiv : n / 10 < n := Nat.div_lt_self (by omega) (by omega)
        rw [ih f2 (n / 10) (by omega) (by omega)]

lemma natDigits_eq (n : Nat) :
    natDigits n = if n < 10 then [digitChar n] else natDigits (n / 10) ++ [digitChar (n % 10)] := by
  by_cases hn : n < 10
  · rw [if_pos hn]
    unfold natDigits
    cases n with
    | zero => rfl
    | succ m => simp [natDigitsAux, hn]
  · rw [if_neg hn]
    unfold natDigits
    have h10 : 10 ≤ n := by omega
    obtain ⟨m, hm⟩ : ∃ m, n = m + 1 := ⟨n - 1, by omega⟩
    rw [hm]
    simp only [natDigitsAux, if_neg (by omega : ¬ m + 1 < 10)]
    have hdiv : (m + 1) / 10 < m + 1 := Nat.div_lt_self (by omega) (by omega)
    rw [natDigitsAux_congr m ((m + 1) / 10) ((m + 1) / 10) (by omega) (le_refl _)]

lemma stripZerosAux_congr : ∀ f1 f2 m e, m ≤ f1 → m ≤ f2 →
    stripZerosAux f1 m e = stripZerosAux f2 m e := by
  intro f1
  induction f1 with
  | zero =>
    intro f2 m e h1 h2
    have hm : m = 0 := by omega
    subst hm
    cases f2 with
    | zero => rfl
    | succ f2 => simp [stripZerosAux]
  | succ f1 ih =>
    intro f2 m e h1 h2
    by_cases hc : m ≠ 0 ∧ m % 10 = 0
    · cases f2 with
      | zero => omega
      | succ f2 =>
        simp only [stripZerosAux, if_pos hc]
        have hdiv : m / 10 < m := Nat.div_lt_self (by omega) (by omega)
        exact ih f2 (m / 10) (e + 1) (by omega) (by omega)
    · cases f2 with
      | zero =>
        have hm : m = 0 := by omega
        subst hm
        simp [stripZerosAux]
      | succ f2 => simp [stripZerosAux, hc]

lemma stripZeros_eq (m : Nat) (e : Int) :
    stripZeros m e = if m ≠ 0 ∧ m % 10 = 0 then stripZeros (m / 10) (e + 1) else (m, e) := by
  by_cases hc : m ≠ 0 ∧ m % 10 = 0
  · rw [if_pos hc]
    unfold stripZeros
    obtain ⟨k, hk⟩ : ∃ k, m = k + 1 := ⟨m - 1, by omega⟩
    subst hk
    simp only [stripZerosAux, if_pos hc]
    have hdiv : (k + 1) / 10 < k + 1 := Nat.div_lt_self (by omega) (by omega)
    exact stripZerosAux_congr k ((k + 1) / 10) ((k + 1) / 10) (e + 1) (by omega) (le_refl _)
  · rw [if_neg hc]
    unfold stripZeros
    cases m with
    | zero => rfl
    | succ k =>
      simp only [stripZerosAux, if_neg hc]

/-! ### Projection lemmas for processLine -/

lemma processLine_n (treeId : Nat) (st : TState) (raw : List Char) :
    (processLine treeId st raw).2.n = nSpacesOf (normLine raw) := rfl

lemma processLine_leaf (treeId : Nat) (st : TState) (raw : List Char) :
    (processLine treeId st raw).2.leaf = pyIn "class".toList (normLine raw) := rfl

lemma processLine_cmp (treeId : Nat) (st : TState) (raw : List Char) :
    (processLine treeId st raw).2.cmp =
      (pyIn "<".toList (normLine raw) || pyIn ">".toList (normLine raw)) := rfl

lemma processLine_dict (treeId : Nat) (st : TState) (raw : List Char) :
    (processLine treeId st raw).1.dict =
      (if pyIn "class".toList (normLine raw) = true then
        dDecr (dIncr st.dict (nSpacesOf (normLine raw))) (nSpacesOf (normLine raw))
      else dIncr st.dict (nSpacesOf (normLine raw))) := rfl

lemma processLine_front (treeId : Nat) (st : TState) (raw : List Char) :
    (processLine treeId st raw).2.front =
      get_front_add (getCount (processLine treeId st raw).1.dict (nSpacesOf (normLine raw)))
        (nSpacesOf (normLine raw)) := rfl

lemma processLine_pops (treeId : Nat) (st : TState) (raw : List Char) :
    (processLine treeId st raw).2.pops = (popEnds (nSpacesOf (normLine raw)) st.stack).2 := rfl

lemma processLine_pushed (treeId : Nat) (st : TState) (raw : List Char) :
    (processLine treeId st raw).2.pushed =
      (pyIn "ELSE".toList (processLine treeId st raw).2.front &&
        !(processLine treeId st raw).2.leaf) := rfl

lemma processLine_stack (treeId : Nat) (st : TState) (raw : List Char) :
    (processLine treeId st raw).1.stack =
      (if (processLine treeId st raw).2.pushed = true then
        nSpacesOf (normLine raw) :: (popEnds (nSpacesOf (normLine raw)) st.stack).1
      else (popEnds (nSpacesOf (normLine raw)) st.stack).1) := rfl

lemma processLine_chunk (treeId : Nat) (st : TState) (raw : List Char) :
    (processLine treeId st raw).2.chunk =
      Option.map (fun l2 => endsFor (processLine treeId st raw).2.pops ++ l2)
        (Option.map (classTransform treeId)
          (if (processLine treeId st raw).2.cmp = true then
            condTransform (nSpacesOf (normLine raw)) (processLine treeId st raw).2.front (normLine raw)
          else some (normLine raw))) := rfl

lemma getCount_processLine_leaf (treeId : Nat) (st : TState) (raw : List Char)
    (h : pyIn "class".toList (normLine raw) = true) (k : Nat) :
    getCount (processLine treeId st raw).1.dict k = getCount st.dict k := by
  rw [processLine_dict, if_pos h]
  by_cases hk : k = nSpacesOf (normLine raw)
  · subst hk
    rw [getCount_dDecr_self, getCount_dIncr_self]
    omega
  · rw [getCount_dDecr_ne _ _ _ hk, getCount_dIncr_ne _ _ _ hk]

lemma getCount_processLine_counted_self (treeId : Nat) (st : TState) (raw : List Char)
    (h : pyIn "class".toList (normLine raw) = false) :
    getCount (processLine treeId st raw).1.dict (nSpacesOf (normLine raw)) =
      getCount st.dict (nSpacesOf (normLine raw)) + 1 := by
  rw [processLine_dict, if_neg (by rw [h]; exact Bool.false_ne_true), getCount_dIncr_self]

lemma getCount_processLine_counted_ne (treeId : Nat) (st : TState) (raw : List Char)
    (h : pyIn "class".toList (normLine raw) = false) (k : Nat)
    (hk : k ≠ nSpacesOf (normLine raw)) :
    getCount (processLine treeId st raw).1.dict k = getCount st.dict k := by
  rw [processLine_dict, if_neg (by rw [h]; exact Bool.false_ne_true), getCount_dIncr_ne _ _ _ hk]

/-! ### Claim C4: spacing guard in get_rules -/

/-- C4: a call of get_rules with spacing below two fails with the
InvalidConfiguration ValueError before any rendering or translation
work is done (the result does not depend on the renderer at all), and
with spacing at least two that error is never raised. -/
theorem get_rules_spacing_check (render render2 : Nat → Nat → List Char) (treeId : Nat)
    (sasTable : List Char) (maxDepth spacing : Nat) :
    (spacing < 2 →
      get_rules render treeId sasTable maxDepth spacing = Except.error cfgErrMsg ∧
      get_rules render treeId sasTable maxDepth spacing =
        get_rules render2 treeId sasTable maxDepth spacing) ∧
    (2 ≤ spacing →
      get_rules render treeId sasTable maxDepth spacing ≠ Except.error cfgErrMsg) := by
  constructor
  · intro h
    constructor <;> simp [get_rules, h]
  · intro h
    have h2 : ¬ spacing < 2 := by omega
    simp only [get_rules, if_neg h2]
    cases translate_text_to_sas treeId sasTable (render maxDepth (spacing - 1)) spacing with
    | none =>
      intro hcontra
      have : ("invalid rule line".toList : List Char) = cfgErrMsg := Except.error.inj hcontra
      exact absurd this (by decide)
    | some r =>
      intro hcontra
      exact Except.noConfusion hcontra

/-- Witness for C4 at spacing one and spacing two with a trivial
renderer. -/
theorem get_rules_spacing_check_witness :
    get_rules (fun _ _ => []) 0 [] 100 1 = Except.error cfgErrMsg ∧
    get_rules (fun _ _ => []) 0 [] 100 2 ≠ Except.error cfgErrMsg :=
  ⟨((get_rules_spacing_check (fun _ _ => []) (fun _ _ => []) 0 [] 100 1).1 (by omega)).1,
   (get_rules_spacing_check (fun _ _ => []) (fun _ _ => []) 0 [] 100 2).2 (by omega)⟩

/-! ### Claim C10: substring classification of class lines -/

/-- C10: any line containing the substring class anywhere leaves the
depth-occurrence counter unchanged (it is treated as a leaf for counter
purposes) even when it also contains a comparison operator, and a
condition line over a feature whose name contains class is processed by
both branches, yielding a doubly-suffixed statement ending in
THEN DO followed by two semicolon-like terminators. -/
theorem class_substring_double_processing :
    (∀ treeId : Nat, ∀ st : TState, ∀ raw : List Char,
      pyIn "class".toList (normLine raw) = true →
      ∀ k, getCount (processLine treeId st raw).1.dict k = getCount st.dict k) ∧
    ((processLine 0 initTS "   classic <= 2.5".toList).2.leaf = true ∧
      (processLine 0 initTS "   classic <= 2.5".toList).2.cmp = true ∧
      (processLine 0 initTS "   classic <= 2.5".toList).2.chunk =
        some "   END;\n     ELSE IF classic <= 2.5 THEN DO;;".toList ∧
      getCount (processLine 0 initTS "   classic <= 2.5".toList).1.dict 3 = 0) := by
  refine ⟨fun treeId st raw h k => getCount_processLine_leaf treeId st raw h k, ?_, ?_, ?_, ?_⟩ <;> decide

/-- Witness for C10: the counter preservation applied at the concrete
doubly-processed line. -/
theorem class_substring_double_processing_witness :
    getCount (processLine 0 initTS "   classic <= 2.5".toList).1.dict 3 =
      getCount initTS.dict 3 :=
  class_substring_double_processing.1 0 initTS "   classic <= 2.5".toList (by decide) 3

/-! ### Claim C3: leaf transparency -/

/-- Counterexample to C3 as stated: a line that contains the prediction
marker as a substring and also a comparison operator does receive an
IF/ELSE IF role prefix (here ELSE IF), so it is not true that no role
prefix is applied to every line containing the marker. -/
theorem leaf_line_transparency_cex :
    (processLine 0 initTS "  class_a <= 0.5".toList).2.leaf = true ∧
    pyIn "ELSE IF ".toList
      (((processLine 0 initTS "  class_a <= 0.5".toList).2.chunk).getD []) = true := by
  constructor <;> decide

/-- C3 amended: for every line containing the prediction marker, the
depth-occurrence counter is left unchanged at every depth and the depth
is never pushed onto the open-block stack; when the line moreover
contains no comparison character, no IF/ELSE IF role prefix is applied:
the emitted chunk is exactly the pending pop terminators followed by
the class-marker replacement and a statement terminator. -/
theorem leaf_line_transparency (treeId : Nat) (st : TState) (raw : List Char)
    (hleaf : pyIn "class".toList (normLine raw) = true) :
    (∀ k, getCount (processLine treeId st raw).1.dict k = getCount st.dict k) ∧
    (processLine treeId st raw).2.pushed = false ∧
    ((processLine treeId st raw).2.cmp = false →
      (processLine treeId st raw).2.chunk =
        some (endsFor (processLine treeId st raw).2.pops ++
          (pyReplace "class:".toList (pvName treeId ++ " =".toList) (normLine raw) ++ [';']))) := by
  refine ⟨fun k => getCount_processLine_leaf treeId st raw hleaf k, ?_, ?_⟩
  · rw [processLine_pushed, processLine_leaf, hleaf]
    simp
  · intro hcmp
    have hleaf2 : pyIn ['c', 'l', 'a', 's', 's'] (normLine raw) = true := hleaf
    rw [processLine_chunk, hcmp]
    simp [classTransform, hleaf2]

/-- Witness for the amended C3 at a concrete leaf line. -/
theorem leaf_line_transparency_witness :
    getCount (processLine 0 initTS "      class: 0".toList).1.dict 6 =
      getCount initTS.dict 6 ∧
    (processLine 0 initTS "      class: 0".toList).2.pushed = false ∧
    (processLine 0 initTS "      class: 0".toList).2.chunk =
      some (endsFor (processLine 0 initTS "      class: 0".toList).2.pops ++
        (pyReplace "class:".toList (pvName 0 ++ " =".toList) (normLine "      class: 0".toList) ++ [';'])) :=
  ⟨(leaf_line_transparency 0 initTS "      class: 0".toList (by decide)).1 6,
   (leaf_line_transparency 0 initTS "      class: 0".toList (by decide)).2.1,
   (leaf_line_transparency 0 initTS "      class: 0".toList (by decide)).2.2 (by decide)⟩

/-! ### Claim C1: role parity and alternation -/

/-- Number of counted lines (lines not containing the prediction
marker) whose leading-space count is d, among a list of raw lines. -/
def countedAt (d : Nat) (ls : List (List Char)) : Nat :=
  (ls.filter (fun raw =>
    (nSpacesOf (normLine raw) == d) && !(pyIn "class".toList (normLine raw)))).length

/-- Replay of the translation loop collecting the role prefix computed
for every counted line at depth d, in order. -/
def frontsAt (treeId d : Nat) : TState → List (List Char) → List (List Char)
  | _, [] => []
  | st, raw :: rest =>
    (if (processLine treeId st raw).2.n == d && !(processLine treeId st raw).2.leaf then
      [(processLine treeId st raw).2.front]
    else []) ++ frontsAt treeId d (processLine treeId st raw).1 rest

lemma map_range_shift {A : Type} (g : Nat → A) (k : Nat) :
    (List.range (k + 1)).map g = g 0 :: (List.range k).map (fun i => g (i + 1)) := by
  rw [List.range_succ_eq_map]
  simp only [List.map_cons, List.map_map]
  congr 1

lemma frontsAt_spec (treeId d : Nat) : ∀ (lines : List (List Char)) (st : TState),
    frontsAt treeId d st lines =
      (List.range (countedAt d lines)).map
        (fun i => get_front_add (getCount st.dict d + i + 1) d) := by
  intro lines
  induction lines with
  | nil => intro st; simp [frontsAt, countedAt]
  | cons raw rest ih =>
    intro st
    rw [frontsAt]
    cases hb : ((nSpacesOf (normLine raw) == d) &&
        !(pyIn "class".toList (normLine raw))) with
    | true =>
      have hn : nSpacesOf (normLine raw) = d := by
        have h1 := ((Bool.and_eq_true _ _).mp hb).1
        simpa using h1
      have hleaf : pyIn "class".toList (normLine raw) = false := by
        have h2 := ((Bool.and_eq_true _ _).mp hb).2
        simpa using h2
      have hcond : ((processLine treeId st raw).2.n == d &&
          !(processLine treeId st raw).2.leaf) = true := by
        rw [processLine_n, processLine_leaf]
        exact hb
      rw [if_pos hcond]
      have hcount : countedAt d (raw :: rest) = countedAt d rest + 1 := by
        unfold countedAt
        simp only [List.filter_cons]
        rw [if_pos hb]
        simp
      have hgc : getCount (processLine treeId st raw).1.dict d = getCount st.dict d + 1 := by
        rw [← hn]
        exact getCount_processLine_counted_self treeId st raw hleaf
      have hfront : (processLine treeId st raw).2.front =
          get_front_add (getCount st.dict d + 1) d := by
        rw [processLine_front, hn, hgc]
      rw [hcount, ih, hgc, hfront, map_range_shift]
      simp only [List.singleton_append, Nat.add_zero]
      congr 1
      apply List.map_congr_left
      intro i hi
      have harith : getCount st.dict d + 1 + i + 1 = getCount st.dict d + (i + 1) + 1 := by
        omega
      rw [harith]
    | false =>
      have hcond : ((processLine treeId st raw).2.n == d &&
          !(processLine treeId st raw).2.leaf) = false := by
        rw [processLine_n, processLine_leaf]
        exact hb
      rw [hcond]
      simp only [Bool.false_eq_true, if_false, List.nil_append]
      have hcount : countedAt d (raw :: rest) = countedAt d rest := by
        unfold countedAt
        simp only [List.filter_cons]
        rw [hb]
        simp
      have hgc : getCount (processLine treeId st raw).1.dict d = getCount st.dict d := by
        cases hleaf : pyIn "class".toList (normLine raw) with
        | true => exact getCount_processLine_leaf treeId st raw hleaf d
        | false =>
          have hnd : d ≠ nSpacesOf (normLine raw) := by
            intro hdn
            rw [hleaf] at hb
            simp only [Bool.not_false, Bool.and_true] at hb
            rw [← hdn] at hb
            simp at hb
          exact getCount_processLine_counted_ne treeId st raw hleaf d hnd
      rw [hcount, ih, hgc]

/-- C1: for every list of input lines and every depth d, the sequence
of role prefixes computed for the successive counted (non-leaf) lines
at depth d is exactly: IF for the first, third, fifth occurrence and
the terminator plus ELSE IF indented d plus two columns for the second,
fourth, sixth occurrence.  The prefix of the i-th counted line depends
only on the parity of its occurrence index, so at every fixed depth the
roles strictly alternate between IF and ELSE IF. -/
theorem role_parity_alternation (treeId d : Nat) (lines : List (List Char)) :
    frontsAt treeId d initTS lines =
      (List.range (countedAt d lines)).map
        (fun i => if i % 2 = 0 then "IF ".toList
          else "END;\n".toList ++ spacesN (d + 2) ++ "ELSE IF ".toList) := by
  rw [frontsAt_spec]
  apply List.map_congr_left
  intro i hi
  have hgc : getCount initTS.dict d = 0 := rfl
  rw [hgc]
  unfold get_front_add
  by_cases h : i % 2 = 0
  · rw [if_pos h, if_neg (by omega)]
  · rw [if_neg h, if_pos (by omega)]

/-! ### Claim C2: infrastructure -/

/-- Counters accumulated over a run: applied role prefixes (IF or ELSE
IF openers), terminators carried by an even-parity role prefix,
terminators emitted by the pop loop, and pushes onto the open-block
stack. -/
structure RunStats where
  openers : Nat
  frontEnds : Nat
  popTerms : Nat
  pushes : Nat
  deriving DecidableEq, Repr

/-- Replay of the loop accumulating the counters. -/
def runStats (treeId : Nat) : TState → List (List Char) → RunStats
  | _, [] => ⟨0, 0, 0, 0⟩
  | st, raw :: rest =>
    let r := runStats treeId (processLine treeId st raw).1 rest
    ⟨(if (processLine treeId st raw).2.cmp then 1 else 0) + r.openers,
     (if (processLine treeId st raw).2.cmp &&
         pyIn "ELSE".toList (processLine treeId st raw).2.front then 1 else 0) + r.frontEnds,
     (processLine treeId st raw).2.pops + r.popTerms,
     (if (processLine treeId st raw).2.pushed then 1 else 0) + r.pushes⟩

/-- Number of depths whose stored occurrence count is odd. -/
def oddCount (d : List (Nat × Nat)) : Nat :=
  (d.filter (fun p => p.2 % 2 = 1)).length

lemma runLines_cons_state (treeId : Nat) (st : TState) (raw : List Char)
    (rest : List (List Char)) :
    (runLines treeId st (raw :: rest)).1 =
      (runLines treeId (processLine treeId st raw).1 rest).1 := rfl

lemma popEnds_length (n : Nat) : ∀ s : List Nat,
    (popEnds n s).1.length + (popEnds n s).2 = s.length := by
  intro s
  induction s with
  | nil => simp [popEnds]
  | cons t rest ih =>
    by_cases h : n < t
    · simp only [popEnds, if_pos h]
      simp only [List.length_cons]
      omega
    · simp [popEnds, if_neg h]

lemma popEnds_mem (n : Nat) : ∀ s : List Nat, ∀ m ∈ (popEnds n s).1, m ∈ s := by
  intro s
  induction s with
  | nil => simp [popEnds]
  | cons t rest ih =>
    by_cases h : n < t
    · simp only [popEnds, if_pos h]
      intro m hm
      exact List.mem_cons_of_mem t (ih m hm)
    · simp [popEnds, if_neg h]

lemma popEnds_all (n : Nat) : ∀ s : List Nat, (∀ m ∈ s, n < m) →
    popEnds n s = ([], s.length) := by
  intro s
  induction s with
  | nil => intro _; rfl
  | cons t rest ih =>
    intro h
    have ht : n < t := h t (List.mem_cons_self t rest)
    simp only [popEnds, if_pos ht]
    rw [ih (fun m hm => h m (List.mem_cons_of_mem t hm))]
    simp

lemma oddCount_alSet_present (d : List (Nat × Nat)) (k w v : Nat)
    (h : alGet d k = some w) :
    oddCount (alSet d k v) + (if w % 2 = 1 then 1 else 0) =
      oddCount d + (if v % 2 = 1 then 1 else 0) := by
  induction d with
  | nil => simp [alGet] at h
  | cons p t ih =>
    obtain ⟨a, b⟩ := p
    by_cases ha : a = k
    · rw [alGet] at h
      rw [if_pos ha] at h
      have hb : b = w := Option.some.inj h
      subst hb
      simp only [alSet, if_pos ha, oddCount, List.filter_cons]
      by_cases hwo : b % 2 = 1 <;> by_cases hvo : v % 2 = 1 <;>
        simp [hwo, hvo] <;> omega
    · rw [alGet] at h
      rw [if_neg ha] at h
      simp only [alSet, if_neg ha, oddCount, List.filter_cons]
      have hrec := ih h
      unfold oddCount at hrec
      by_cases hbo : b % 2 = 1 <;> simp only [hbo, decide_True, decide_False] <;>
        simp <;> omega

lemma oddCount_alSet_none (d : List (Nat × Nat)) (k v : Nat)
    (h : alGet d k = none) :
    oddCount (alSet d k v) = oddCount d + (if v % 2 = 1 then 1 else 0) := by
  induction d with
  | nil =>
    simp only [alSet, oddCount, List.filter_cons, List.filter_nil]
    by_cases hv : v % 2 = 1 <;> simp [hv]
  | cons p t ih =>
    obtain ⟨a, b⟩ := p
    rw [alGet] at h
    by_cases ha : a = k
    · rw [if_pos ha] at h; exact Option.noConfusion h
    · rw [if_neg ha] at h
      simp only [alSet, if_neg ha, oddCount, List.filter_cons]
      have hrec := ih h
      unfold oddCount at hrec
      by_cases hbo : b % 2 = 1 <;> simp only [hbo, decide_True, decide_False] <;>
        simp <;> omega

lemma oddCount_dIncr (d : List (Nat × Nat)) (k : Nat) :
    oddCount (dIncr d k) + (if getCount d k % 2 = 1 then 1 else 0) =
      oddCount d + (if (getCount d k + 1) % 2 = 1 then 1 else 0) := by
  unfold dIncr getCount
  cases h : alGet d k with
  | none =>
    simp only [Option.getD_none]
    rw [oddCount_alSet_none d k 1 h]
    simp
  | some v =>
    simp only [Option.getD_some]
    exact oddCount_alSet_present d k v (v + 1) h

lemma oddCount_dDecr (d : List (Nat × Nat)) (k v : Nat) (h : alGet d k = some v) :
    oddCount (dDecr d k) + (if v % 2 = 1 then 1 else 0) =
      oddCount d + (if (v - 1) % 2 = 1 then 1 else 0) := by
  unfold dDecr
  rw [h]
  exact oddCount_alSet_present d k v (v - 1) h

lemma oddCount_processLine_leaf (treeId : Nat) (st : TState) (raw : List Char)
    (hleaf : pyIn "class".toList (normLine raw) = true) :
    oddCount (processLine treeId st raw).1.dict = oddCount st.dict := by
  rw [processLine_dict, if_pos hleaf]
  cases hg : alGet st.dict (nSpacesOf (normLine raw)) with
  | none =>
    have h1 : oddCount (dIncr st.dict (nSpacesOf (normLine raw))) = oddCount st.dict + 1 := by
      unfold dIncr
      rw [hg, oddCount_alSet_none st.dict _ 1 hg]
      simp
    have hg2 : alGet (dIncr st.dict (nSpacesOf (normLine raw))) (nSpacesOf (normLine raw)) =
        some 1 := by
      unfold dIncr
      rw [hg, alGet_alSet_self]
    have h2 := oddCount_dDecr (dIncr st.dict (nSpacesOf (normLine raw)))
      (nSpacesOf (normLine raw)) 1 hg2
    rw [if_pos (by omega)] at h2
    rw [if_neg (by omega)] at h2
    omega
  | some v =>
    have h1 := oddCount_dIncr st.dict (nSpacesOf (normLine raw))
    have hgc : getCount st.dict (nSpacesOf (normLine raw)) = v := by
      unfold getCount; rw [hg]; rfl
    rw [hgc] at h1
    have hg2 : alGet (dIncr st.dict (nSpacesOf (normLine raw))) (nSpacesOf (normLine raw)) =
        some (v + 1) := by
      unfold dIncr
      rw [hg, alGet_alSet_self]
    have h2 := oddCount_dDecr (dIncr st.dict (nSpacesOf (normLine raw)))
      (nSpacesOf (normLine raw)) (v + 1) hg2
    have hsub : v + 1 - 1 = v := by omega
    rw [hsub] at h2
    rcases Nat.mod_two_eq_zero_or_one v with hv | hv
    · rw [if_neg (by omega), if_pos (by omega)] at h1
      rw [if_pos (by omega), if_neg (by omega)] at h2
      omega
    · rw [if_pos (by omega), if_neg (by omega)] at h1
      rw [if_neg (by omega), if_pos (by omega)] at h2
      omega

lemma getCount_runLines (treeId : Nat) : ∀ (lines : List (List Char)) (st : TState) (k : Nat),
    getCount (runLines treeId st lines).1.dict k = getCount st.dict k + countedAt k lines := by
  intro lines
  induction lines with
  | nil => intro st k; simp [runLines, countedAt]
  | cons raw rest ih =>
    intro st k
    rw [runLines_cons_state, ih]
    cases hb : ((nSpacesOf (normLine raw) == k) && !(pyIn "class".toList (normLine raw))) with
    | true =>
      have hn : nSpacesOf (normLine raw) = k := by
        simpa using ((Bool.and_eq_true _ _).mp hb).1
      have hleaf : pyIn "class".toList (normLine raw) = false := by
        simpa using ((Bool.and_eq_true _ _).mp hb).2
      have hcount : countedAt k (raw :: rest) = countedAt k rest + 1 := by
        unfold countedAt
        simp only [List.filter_cons]
        rw [if_pos hb]
        simp
      have hgc : getCount (processLine treeId st raw).1.dict k = getCount st.dict k + 1 := by
        rw [← hn]
        exact getCount_processLine_counted_self treeId st raw hleaf
      rw [hcount, hgc]
      omega
    | false =>
      have hcount : countedAt k (raw :: rest) = countedAt k rest := by
        unfold countedAt
        simp only [List.filter_cons]
        rw [hb]
        simp
      have hgc : getCount (processLine treeId st raw).1.dict k = getCount st.dict k := by
        cases hleaf : pyIn "class".toList (normLine raw) with
        | true => exact getCount_processLine_leaf treeId st raw hleaf k
        | false =>
          have hnd : k ≠ nSpacesOf (normLine raw) := by
            intro hdn
            rw [hleaf] at hb
            rw [← hdn] at hb
            simp at hb
          exact getCount_processLine_counted_ne treeId st raw hleaf k hnd
      rw [hcount, hgc]

/-- Keys of the occurrence dictionary, in insertion order. -/
def keysOf (d : List (Nat × Nat)) : List Nat := d.map Prod.fst

lemma alGet_none_iff (d : List (Nat × Nat)) (k : Nat) :
    alGet d k = none ↔ k ∉ keysOf d := by
  induction d with
  | nil => simp [alGet, keysOf]
  | cons p t ih =>
    obtain ⟨a, b⟩ := p
    by_cases ha : a = k
    · subst ha
      simp [alGet, keysOf]
    · rw [alGet, if_neg ha]
      simp only [keysOf, List.map_cons, List.mem_cons]
      rw [ih]
      unfold keysOf
      constructor
      · intro h hmem
        rcases hmem with h1 | h2
        · exact ha h1.symm
        · exact h h2
      · intro h hmem
        exact h (Or.inr hmem)

lemma keysOf_alSet_some (d : List (Nat × Nat)) (k w v : Nat) (h : alGet d k = some w) :
    keysOf (alSet d k v) = keysOf d := by
  induction d with
  | nil => simp [alGet] at h
  | cons p t ih =>
    obtain ⟨a, b⟩ := p
    by_cases ha : a = k
    · simp [alSet, ha, keysOf]
    · rw [alGet, if_neg ha] at h
      simp only [alSet, if_neg ha, keysOf, List.map_cons]
      rw [show List.map Prod.fst (alSet t k v) = keysOf (alSet t k v) from rfl, ih h]
      rfl

lemma keysOf_alSet_none (d : List (Nat × Nat)) (k v : Nat) (h : alGet d k = none) :
    keysOf (alSet d k v) = keysOf d ++ [k] := by
  induction d with
  | nil => simp [alSet, keysOf]
  | cons p t ih =>
    obtain ⟨a, b⟩ := p
    rw [alGet] at h
    by_cases ha : a = k
    · rw [if_pos ha] at h; exact Option.noConfusion h
    · rw [if_neg ha] at h
      simp only [alSet, if_neg ha, keysOf, List.map_cons]
      rw [show List.map Prod.fst (alSet t k v) = keysOf (alSet t k v) from rfl, ih h]
      rfl

lemma nodup_dIncr (d : List (Nat × Nat)) (k : Nat) (h : (keysOf d).Nodup) :
    (keysOf (dIncr d k)).Nodup := by
  unfold dIncr
  cases hg : alGet d k with
  | none =>
    rw [keysOf_alSet_none d k 1 hg]
    have hk : k ∉ keysOf d := (alGet_none_iff d k).mp hg
    simp [List.nodup_append, h, hk]
  | some v => rw [keysOf_alSet_some d k v (v + 1) hg]; exact h

lemma nodup_dDecr (d : List (Nat × Nat)) (k : Nat) (h : (keysOf d).Nodup) :
    (keysOf (dDecr d k)).Nodup := by
  unfold dDecr
  cases hg : alGet d k with
  | none => exact h
  | some v => rw [keysOf_alSet_some d k v (v - 1) hg]; exact h

lemma nodup_processLine (treeId : Nat) (st : TState) (raw : List Char)
    (h : (keysOf st.dict).Nodup) : (keysOf (processLine treeId st raw).1.dict).Nodup := by
  rw [processLine_dict]
  cases hleaf : pyIn "class".toList (normLine raw) with
  | true =>
    rw [if_pos rfl]
    exact nodup_dDecr _ _ (nodup_dIncr _ _ h)
  | false =>
    rw [if_neg Bool.false_ne_true]
    exact nodup_dIncr _ _ h

lemma nodup_runLines (treeId : Nat) : ∀ (lines : List (List Char)) (st : TState),
    (keysOf st.dict).Nodup → (keysOf (runLines treeId st lines).1.dict).Nodup := by
  intro lines
  induction lines with
  | nil => intro st h; exact h
  | cons raw rest ih =>
    intro st h
    rw [runLines_cons_state]
    exact ih _ (nodup_processLine treeId st raw h)

lemma mem_alGet (d : List (Nat × Nat)) (k v : Nat) (hnd : (keysOf d).Nodup)
    (hm : (k, v) ∈ d) : alGet d k = some v := by
  induction d with
  | nil => simp at hm
  | cons p t ih =>
    obtain ⟨a, b⟩ := p
    rcases List.mem_cons.mp hm with h1 | h2
    · have hak : a = k := (Prod.mk.injEq _ _ _ _ ▸ h1.symm).1
      have hbv : b = v := (Prod.mk.injEq _ _ _ _ ▸ h1.symm).2
      rw [alGet, if_pos hak, hbv]
    · have hnd2 : (a :: List.map Prod.fst t).Nodup := hnd
      have hcons := List.nodup_cons.mp hnd2
      have hak : a ≠ k := by
        intro hak
        subst hak
        exact hcons.1 (List.mem_map.mpr ⟨(a, v), h2, rfl⟩)
      rw [alGet, if_neg hak]
      exact ih hcons.2 h2

lemma oddCount_zero (d : List (Nat × Nat)) (h : ∀ p ∈ d, p.2 % 2 = 0) :
    oddCount d = 0 := by
  unfold oddCount
  rw [List.length_eq_zero]
  rw [List.filter_eq_nil]
  intro p hp
  simp [h p hp]

lemma countedAt_zero (k : Nat) (ls : List (List Char))
    (h : ∀ raw ∈ ls, nSpacesOf (normLine raw) ≠ k) : countedAt k ls = 0 := by
  unfold countedAt
  rw [List.length_eq_zero, List.filter_eq_nil]
  intro raw hraw
  simp [h raw hraw]

lemma pyIn_ELSE_gfa_even (c n : Nat) (h : c % 2 = 0) :
    pyIn "ELSE".toList (get_front_add c n) = true := by
  unfold get_front_add
  rw [if_pos h]
  have hsplit : ("ELSE IF ".toList : List Char) = "ELSE".toList ++ " IF ".toList := rfl
  rw [hsplit]
  exact pyIn_append_left _ _ _ (pyIn_self_append _ _)

lemma pyIn_ELSE_gfa_odd (c n : Nat) (h : c % 2 = 1) :
    pyIn "ELSE".toList (get_front_add c n) = false := by
  unfold get_front_add
  rw [if_neg (by omega)]
  decide

lemma pySplitNl_ne_nil (s : List Char) : pySplitNl s ≠ [] := by
  cases s with
  | nil => simp [pySplitNl]
  | cons c t =>
    unfold pySplitNl
    by_cases hc : c = '\n'
    · simp [hc]
    · simp only [if_neg hc]
      cases pySplitNl t <;> simp

lemma runLines_stack_pos (treeId : Nat) : ∀ (lines : List (List Char)) (st : TState),
    (∀ raw ∈ lines, 1 ≤ nSpacesOf (normLine raw)) →
    (∀ m ∈ st.stack, 1 ≤ m) →
    ∀ m ∈ (runLines treeId st lines).1.stack, 1 ≤ m := by
  intro lines
  induction lines with
  | nil => intro st _ hs m hm; exact hs m hm
  | cons raw rest ih =>
    intro st hl hs
    rw [runLines_cons_state]
    apply ih
    · intro r hr; exact hl r (List.mem_cons_of_mem _ hr)
    · intro m hm
      rw [processLine_stack] at hm
      by_cases hp : (processLine treeId st raw).2.pushed = true
      · rw [if_pos hp] at hm
        rcases List.mem_cons.mp hm with h1 | h2
        · rw [h1]; exact hl raw (List.mem_cons_self raw rest)
        · exact hs m (popEnds_mem _ _ m h2)
      · rw [if_neg hp] at hm
        exact hs m (popEnds_mem _ _ m hm)

lemma runLines_append_state (treeId : Nat) : ∀ (xs ys : List (List Char)) (st : TState),
    (runLines treeId st (xs ++ ys)).1 = (runLines treeId (runLines treeId st xs).1 ys).1 := by
  intro xs
  induction xs with
  | nil => intro ys st; rfl
  | cons raw rest ih =>
    intro ys st
    rw [List.cons_append, runLines_cons_state, ih, runLines_cons_state]

lemma runStats_cons_openers (treeId : Nat) (st : TState) (raw : List Char)
    (rest : List (List Char)) :
    (runStats treeId st (raw :: rest)).openers =
      (if (processLine treeId st raw).2.cmp then 1 else 0) +
        (runStats treeId (processLine treeId st raw).1 rest).openers := rfl

lemma runStats_cons_frontEnds (treeId : Nat) (st : TState) (raw : List Char)
    (rest : List (List Char)) :
    (runStats treeId st (raw :: rest)).frontEnds =
      (if (processLine treeId st raw).2.cmp &&
          pyIn "ELSE".toList (processLine treeId st raw).2.front then 1 else 0) +
        (runStats treeId (processLine treeId st raw).1 rest).frontEnds := rfl

lemma runStats_cons_popTerms (treeId : Nat) (st : TState) (raw : List Char)
    (rest : List (List Char)) :
    (runStats treeId st (raw :: rest)).popTerms =
      (processLine treeId st raw).2.pops +
        (runStats treeId (processLine treeId st raw).1 rest).popTerms := rfl

lemma runStats_cons_pushes (treeId : Nat) (st : TState) (raw : List Char)
    (rest : List (List Char)) :
    (runStats treeId st (raw :: rest)).pushes =
      (if (processLine treeId st raw).2.pushed then 1 else 0) +
        (runStats treeId (processLine treeId st raw).1 rest).pushes := rfl

lemma runStats_append (treeId : Nat) : ∀ (xs ys : List (List Char)) (st : TState),
    (runStats treeId st (xs ++ ys)).openers =
      (runStats treeId st xs).openers +
        (runStats treeId (runLines treeId st xs).1 ys).openers ∧
    (runStats treeId st (xs ++ ys)).frontEnds =
      (runStats treeId st xs).frontEnds +
        (runStats treeId (runLines treeId st xs).1 ys).frontEnds ∧
    (runStats treeId st (xs ++ ys)).popTerms =
      (runStats treeId st xs).popTerms +
        (runStats treeId (runLines treeId st xs).1 ys).popTerms ∧
    (runStats treeId st (xs ++ ys)).pushes =
      (runStats treeId st xs).pushes +
        (runStats treeId (runLines treeId st xs).1 ys).pushes := by
  intro xs
  induction xs with
  | nil =>
    intro ys st
    refine ⟨?_, ?_, ?_, ?_⟩ <;> simp [runStats, runLines]
  | cons raw rest ih =>
    intro ys st
    obtain ⟨i1, i2, i3, i4⟩ := ih ys (processLine treeId st raw).1
    rw [List.cons_append]
    refine ⟨?_, ?_, ?_, ?_⟩
    · rw [runStats_cons_openers, runStats_cons_openers, runLines_cons_state, i1]; omega
    · rw [runStats_cons_frontEnds, runStats_cons_frontEnds, runLines_cons_state, i2]; omega
    · rw [runStats_cons_popTerms, runStats_cons_popTerms, runLines_cons_state, i3]; omega
    · rw [runStats_cons_pushes, runStats_cons_pushes, runLines_cons_state, i4]; omega

lemma processLine_stack_length (treeId : Nat) (st : TState) (raw : List Char) :
    (processLine treeId st raw).1.stack.length + (processLine treeId st raw).2.pops =
      st.stack.length + (if (processLine treeId st raw).2.pushed then 1 else 0) := by
  rw [processLine_stack, processLine_pops]
  have hpl := popEnds_length (nSpacesOf (normLine raw)) st.stack
  by_cases hp : (processLine treeId st raw).2.pushed = true
  · rw [if_pos hp, if_pos hp]
    simp only [List.length_cons]
    omega
  · rw [if_neg hp, if_neg hp]
    omega

lemma runStats_stack_length (treeId : Nat) : ∀ (lines : List (List Char)) (st : TState),
    (runStats treeId st lines).pushes + st.stack.length =
      (runStats treeId st lines).popTerms + (runLines treeId st lines).1.stack.length := by
  intro lines
  induction lines with
  | nil => intro st; simp [runStats, runLines]
  | cons raw rest ih =>
    intro st
    rw [runStats_cons_pushes, runStats_cons_popTerms, runLines_cons_state]
    have hstep := processLine_stack_length treeId st raw
    have ihr := ih (processLine treeId st raw).1
    omega

lemma stats_invariant (treeId : Nat) : ∀ (lines : List (List Char)) (st : TState),
    (∀ raw ∈ lines,
      (pyIn "<".toList (normLine raw) || pyIn ">".toList (normLine raw)) =
        !(pyIn "class".toList (normLine raw))) →
    (runStats treeId st lines).openers + oddCount st.dict + st.stack.length =
      (runStats treeId st lines).frontEnds + (runStats treeId st lines).popTerms +
        oddCount (runLines treeId st lines).1.dict +
        (runLines treeId st lines).1.stack.length := by
  intro lines
  induction lines with
  | nil => intro st _; simp [runStats, runLines]
  | cons raw rest ih =>
    intro st h
    have hraw := h raw (List.mem_cons_self raw rest)
    have ihr := ih (processLine treeId st raw).1
      (fun r hr => h r (List.mem_cons_of_mem _ hr))
    rw [runStats_cons_openers, runStats_cons_frontEnds, runStats_cons_popTerms,
      runLines_cons_state]
    have hstep := processLine_stack_length treeId st raw
    cases hleaf : pyIn "class".toList (normLine raw) with
    | true =>
      have hcmp : (processLine treeId st raw).2.cmp = false := by
        rw [processLine_cmp, hraw, hleaf]
        rfl
      have hodd := oddCount_processLine_leaf treeId st raw hleaf
      have hpush : (processLine treeId st raw).2.pushed = false := by
        rw [processLine_pushed, processLine_leaf, hleaf]
        simp
      rw [hcmp] at *
      rw [hpush] at hstep
      simp only [Bool.false_eq_true, if_false, Bool.false_and, Nat.zero_add] at *
      omega
    | false =>
      have hcmp : (processLine treeId st raw).2.cmp = true := by
        rw [processLine_cmp, hraw, hleaf]
        rfl
      have hgc : getCount (processLine treeId st raw).1.dict (nSpacesOf (normLine raw)) =
          getCount st.dict (nSpacesOf (normLine raw)) + 1 :=
        getCount_processLine_counted_self treeId st raw hleaf
      have hfront : (processLine treeId st raw).2.front =
          get_front_add (getCount st.dict (nSpacesOf (normLine raw)) + 1)
            (nSpacesOf (normLine raw)) := by
        rw [processLine_front, hgc]
      have hdict : (processLine treeId st raw).1.dict =
          dIncr st.dict (nSpacesOf (normLine raw)) := by
        rw [processLine_dict, if_neg (by rw [hleaf]; exact Bool.false_ne_true)]
      have hodd := oddCount_dIncr st.dict (nSpacesOf (normLine raw))
      have hpushf : (processLine treeId st raw).2.pushed =
          pyIn "ELSE".toList (processLine treeId st raw).2.front := by
        rw [processLine_pushed, processLine_leaf, hleaf]
        simp
      rcases Nat.mod_two_eq_zero_or_one (getCount st.dict (nSpacesOf (normLine raw)))
        with hpar | hpar
      · have helse : pyIn "ELSE".toList (processLine treeId st raw).2.front = false := by
          rw [hfront]
          exact pyIn_ELSE_gfa_odd _ _ (by omega)
        have hpush : (processLine treeId st raw).2.pushed = false := by
          rw [hpushf, helse]
        rw [hcmp, helse] at *
        rw [hpush] at hstep
        rw [if_neg (by omega), if_pos (by omega)] at hodd
        rw [hdict] at ihr
        simp only [eq_self_iff_true, if_true, Bool.true_and, Bool.and_self,
          Bool.false_eq_true, if_false, Nat.zero_add] at *
        omega
      · have helse : pyIn "ELSE".toList (processLine treeId st raw).2.front = true := by
          rw [hfront]
          exact pyIn_ELSE_gfa_even _ _ (by omega)
        have hpush : (processLine treeId st raw).2.pushed = true := by
          rw [hpushf, helse]
        rw [hcmp, helse] at *
        rw [hpush] at hstep
        rw [if_pos (by omega), if_neg (by omega)] at hodd
        rw [hdict] at ihr
        simp only [eq_self_iff_true, if_true, Bool.true_and, Bool.and_self,
          Bool.false_eq_true, if_false, Nat.zero_add] at *
        omega

/-- C2: for renderer-shaped input text (the final split line is empty,
every other line is indented at least one column, every line is exactly
one of condition or leaf, and every depth hosts an even number of
counted lines), the open-block stack is empty when translation
completes, the number of pushes equals the number of pop terminators
(one terminator line is emitted per pop), and the number of applied
IF/ELSE IF role prefixes equals the number of conditional-block
terminators, namely the terminators carried by even-parity prefixes
plus those emitted by the pop loop, excluding the final RUN terminator
of the whole block. -/
theorem translate_balanced_blocks (treeId : Nat) (text : List Char)
    (h1 : (pySplitNl text).getLast? = some [])
    (h2 : ∀ raw ∈ (pySplitNl text).dropLast, 1 ≤ nSpacesOf (normLine raw))
    (h3 : ∀ raw ∈ (pySplitNl text).dropLast,
      (pyIn "<".toList (normLine raw) || pyIn ">".toList (normLine raw)) =
        !(pyIn "class".toList (normLine raw)))
    (h4 : ∀ raw ∈ (pySplitNl text).dropLast,
      countedAt (nSpacesOf (normLine raw)) ((pySplitNl text).dropLast) % 2 = 0) :
    (runLines treeId initTS (pySplitNl text)).1.stack = [] ∧
    (runStats treeId initTS (pySplitNl text)).pushes =
      (runStats treeId initTS (pySplitNl text)).popTerms ∧
    (runStats treeId initTS (pySplitNl text)).openers =
      (runStats treeId initTS (pySplitNl text)).frontEnds +
        (runStats treeId initTS (pySplitNl text)).popTerms := by
  have hne := pySplitNl_ne_nil text
  have hlast : (pySplitNl text).getLast hne = [] := by
    have hh := List.getLast?_eq_getLast (pySplitNl text) hne
    rw [hh] at h1
    exact Option.some.inj h1
  have hsplit : pySplitNl text = (pySplitNl text).dropLast ++ [[]] := by
    conv_lhs => rw [← List.dropLast_append_getLast hne]
    rw [hlast]
  have hleaf0 : pyIn "class".toList (normLine ([] : List Char)) = false := by decide
  have hn0 : nSpacesOf (normLine ([] : List Char)) = 0 := by decide
  have hcmp0 : (processLine treeId (runLines treeId initTS (pySplitNl text).dropLast).1 []).2.cmp
      = false := by
    rw [processLine_cmp]
    decide
  have hpos : ∀ m ∈ (runLines treeId initTS (pySplitNl text).dropLast).1.stack, 1 ≤ m := by
    apply runLines_stack_pos treeId (pySplitNl text).dropLast initTS h2
    intro m hm
    simp [initTS] at hm
  have hpop : popEnds 0 (runLines treeId initTS (pySplitNl text).dropLast).1.stack =
      ([], (runLines treeId initTS (pySplitNl text).dropLast).1.stack.length) := by
    apply popEnds_all
    intro m hm
    have := hpos m hm
    omega
  have hc0 : countedAt 0 (pySplitNl text).dropLast = 0 := by
    apply countedAt_zero
    intro raw hraw
    have := h2 raw hraw
    omega
  have hgc0 : getCount (runLines treeId initTS (pySplitNl text).dropLast).1.dict 0 = 0 := by
    rw [getCount_runLines treeId (pySplitNl text).dropLast initTS 0, hc0]
    rfl
  have hgc1 : getCount
      (processLine treeId (runLines treeId initTS (pySplitNl text).dropLast).1 []).1.dict
      (nSpacesOf (normLine ([] : List Char))) = 1 := by
    rw [getCount_processLine_counted_self treeId _ [] hleaf0, hn0, hgc0]
  have hfront0 : (processLine treeId (runLines treeId initTS (pySplitNl text).dropLast).1 []).2.front
      = get_front_add 1 0 := by
    rw [processLine_front, hgc1, hn0]
  have hpush0 : (processLine treeId (runLines treeId initTS (pySplitNl text).dropLast).1 []).2.pushed
      = false := by
    rw [processLine_pushed, hfront0, processLine_leaf, hleaf0,
      pyIn_ELSE_gfa_odd 1 0 (by omega)]
    rfl
  have hlines1 : (runLines treeId (runLines treeId initTS (pySplitNl text).dropLast).1 [[]]).1 =
      (processLine treeId (runLines treeId initTS (pySplitNl text).dropLast).1 []).1 := rfl
  have hstackF : (runLines treeId initTS (pySplitNl text)).1.stack = [] := by
    rw [hsplit, runLines_append_state, hlines1, processLine_stack, hpush0]
    rw [if_neg Bool.false_ne_true, hn0, hpop]
  have hpops0 : (processLine treeId (runLines treeId initTS (pySplitNl text).dropLast).1 []).2.pops
      = (runLines treeId initTS (pySplitNl text).dropLast).1.stack.length := by
    rw [processLine_pops, hn0, hpop]
  have hoS : (runStats treeId (runLines treeId initTS (pySplitNl text).dropLast).1 [[]]).openers
      = 0 := by
    rw [runStats_cons_openers, hcmp0]
    rfl
  have hfS : (runStats treeId (runLines treeId initTS (pySplitNl text).dropLast).1 [[]]).frontEnds
      = 0 := by
    rw [runStats_cons_frontEnds, hcmp0]
    rfl
  have hpS : (runStats treeId (runLines treeId initTS (pySplitNl text).dropLast).1 [[]]).popTerms
      = (runLines treeId initTS (pySplitNl text).dropLast).1.stack.length := by
    rw [runStats_cons_popTerms, hpops0]
    rfl
  have hpuS : (runStats treeId (runLines treeId initTS (pySplitNl text).dropLast).1 [[]]).pushes
      = 0 := by
    rw [runStats_cons_pushes, hpush0]
    rfl
  obtain ⟨s1, s2, s3, s4⟩ := runStats_append treeId (pySplitNl text).dropLast [[]] initTS
  have hinv := stats_invariant treeId (pySplitNl text).dropLast initTS h3
  have hsl := runStats_stack_length treeId (pySplitNl text).dropLast initTS
  have hodd0 : oddCount initTS.dict = 0 := rfl
  have hlen0 : (initTS.stack : List Nat).length = 0 := rfl
  have hoddMid : oddCount (runLines treeId initTS (pySplitNl text).dropLast).1.dict = 0 := by
    apply oddCount_zero
    intro p hp
    obtain ⟨k, v⟩ := p
    have hnd : (keysOf (runLines treeId initTS (pySplitNl text).dropLast).1.dict).Nodup :=
      nodup_runLines treeId (pySplitNl text).dropLast initTS (by simp [initTS, keysOf])
    have hget : alGet (runLines treeId initTS (pySplitNl text).dropLast).1.dict k = some v :=
      mem_alGet _ _ _ hnd hp
    have hv : v = countedAt k (pySplitNl text).dropLast := by
      have hch := getCount_runLines treeId (pySplitNl text).dropLast initTS k
      unfold getCount at hch
      rw [hget] at hch
      simpa [initTS, alGet] using hch
    show v % 2 = 0
    rw [hv]
    by_cases hex : ∃ raw, raw ∈ (pySplitNl text).dropLast ∧ nSpacesOf (normLine raw) = k
    · obtain ⟨raw, hrD, hrk⟩ := hex
      have := h4 raw hrD
      rw [hrk] at this
      exact this
    · rw [countedAt_zero k (pySplitNl text).dropLast
        (fun raw hraw heq => hex ⟨raw, hraw, heq⟩)]
  refine ⟨hstackF, ?_, ?_⟩
  · rw [hsplit]
    omega
  · rw [hsplit]
    omega

/-- Witness for C2 on a concrete two-branch tree rendering. -/
theorem translate_balanced_blocks_witness :
    (runLines 0 initTS
      (pySplitNl "   a <= 1.5\n      class: 0\n   a >  1.5\n      class: 1\n".toList)).1.stack = [] ∧
    (runStats 0 initTS
      (pySplitNl "   a <= 1.5\n      class: 0\n   a >  1.5\n      class: 1\n".toList)).pushes =
      (runStats 0 initTS
        (pySplitNl "   a <= 1.5\n      class: 0\n   a >  1.5\n      class: 1\n".toList)).popTerms ∧
    (runStats 0 initTS
      (pySplitNl "   a <= 1.5\n      class: 0\n   a >  1.5\n      class: 1\n".toList)).openers =
      (runStats 0 initTS
        (pySplitNl "   a <= 1.5\n      class: 0\n   a >  1.5\n      class: 1\n".toList)).frontEnds +
        (runStats 0 initTS
          (pySplitNl "   a <= 1.5\n      class: 0\n   a >  1.5\n      class: 1\n".toList)).popTerms :=
  translate_balanced_blocks 0 "   a <= 1.5\n      class: 0\n   a >  1.5\n      class: 1\n".toList
    (by decide) (by decide) (by decide) (by decide)

/-! ### Claim C5: header, trailer and prediction-variable shape -/

lemma pyIn_mono_pat (p q s : List Char) (h : pyIn (p ++ q) s = true) : pyIn p s = true := by
  rcases (pyIn_iff (p ++ q) s).mp h with ⟨a, b, hab⟩
  exact (pyIn_iff p s).mpr ⟨a, q ++ b, by simp [hab]⟩

lemma runLines_chunks_length (treeId : Nat) : ∀ (ls : List (List Char)) (st : TState)
    (cs : List (List Char)), (runLines treeId st ls).2 = some cs → cs.length = ls.length := by
  intro ls
  induction ls with
  | nil =>
    intro st cs h
    simp only [runLines, Option.some.injEq] at h
    simp [← h]
  | cons raw rest ih =>
    intro st cs h
    simp only [runLines] at h
    cases hc : (processLine treeId st raw).2.chunk with
    | none => rw [hc] at h; simp at h
    | some c =>
      cases hr : (runLines treeId (processLine treeId st raw).1 rest).2 with
      | none => rw [hc, hr] at h; simp at h
      | some cs2 =>
        rw [hc, hr] at h
        simp only [Option.some.injEq] at h
        rw [← h]
        simp [ih (processLine treeId st raw).1 cs2 hr]

lemma joinChunks_concat (spacing : Nat) : ∀ (cs : List (List Char)), cs ≠ [] →
    ∃ Y, joinChunks spacing cs = Y ++ ['\n'] := by
  intro cs
  induction cs with
  | nil => intro h; exact absurd rfl h
  | cons c rest ih =>
    intro _
    cases rest with
    | nil =>
      refine ⟨spacesN spacing ++ c, ?_⟩
      simp [joinChunks]
    | cons c2 rest2 =>
      obtain ⟨Y, hY⟩ := ih (by simp)
      refine ⟨spacesN spacing ++ c ++ ['\n'] ++ Y, ?_⟩
      have hexp : joinChunks spacing (c :: c2 :: rest2) =
          (spacesN spacing ++ c ++ ['\n']) ++ joinChunks spacing (c2 :: rest2) := by
        simp [joinChunks]
      rw [hexp, hY]
      simp

lemma translate_some_shape (treeId : Nat) (sasTable text : List Char) (spacing : Nat)
    (out : List Char) (h : translate_text_to_sas treeId sasTable text spacing = some out) :
    ∃ cs, (runLines treeId initTS (pySplitNl text)).2 = some cs ∧ cs ≠ [] ∧
      out = (headerOf treeId sasTable ++ joinChunks spacing cs).dropLast ++ "RUN;".toList := by
  have h2 : Option.map (fun chunks =>
      (headerOf treeId sasTable ++ joinChunks spacing chunks).dropLast ++ "RUN;".toList)
      (runLines treeId initTS (pySplitNl text)).2 = some out := h
  cases hr : (runLines treeId initTS (pySplitNl text)).2 with
  | none => rw [hr] at h2; simp at h2
  | some cs =>
    rw [hr] at h2
    have h3 := Option.some.inj h2
    refine ⟨cs, rfl, ?_, h3.symm⟩
    intro hnil
    have hlen := runLines_chunks_length treeId (pySplitNl text) initTS cs hr
    rw [hnil] at hlen
    exact pySplitNl_ne_nil text (List.length_eq_zero.mp hlen.symm)

/-- C5: every successful translation output starts with the dataset
header naming DECISION_TREE with ordinal treeId plus one and the SET
line binding the table, ends with the RUN trailer, and every leaf line
processed without a comparison operator emits a statement that contains
the synthesized variable PREDICTED_VALUE with the same ordinal and is
terminated by a semicolon. -/
theorem translate_header_trailer_pv (treeId : Nat) (sasTable text : List Char) (spacing : Nat)
    (out : List Char) (h : translate_text_to_sas treeId sasTable text spacing = some out) :
    (∃ body, out = headerOf treeId sasTable ++ body) ∧
    (∃ front2, out = front2 ++ "RUN;".toList) ∧
    (∀ st : TState, ∀ raw : List Char, pyIn "class:".toList (normLine raw) = true →
      (processLine treeId st raw).2.cmp = false →
      ∀ c, (processLine treeId st raw).2.chunk = some c →
        (∃ a, c = a ++ [';']) ∧ pyIn (pvName treeId) c = true) := by
  obtain ⟨cs, hcs, hne, hout⟩ := translate_some_shape treeId sasTable text spacing out h
  obtain ⟨Y, hY⟩ := joinChunks_concat spacing cs hne
  have hdrop : (headerOf treeId sasTable ++ joinChunks spacing cs).dropLast =
      headerOf treeId sasTable ++ Y := by
    rw [hY, ← List.append_assoc, List.dropLast_concat]
  refine ⟨?_, ?_, ?_⟩
  · exact ⟨Y ++ "RUN;".toList, by rw [hout, hdrop, List.append_assoc]⟩
  · exact ⟨headerOf treeId sasTable ++ Y, by rw [hout, hdrop]⟩
  · intro st raw hmark hcmp c hc
    have hleaf : pyIn "class".toList (normLine raw) = true := by
      have hsplitpat : ("class:".toList : List Char) = "class".toList ++ [':'] := rfl
      rw [hsplitpat] at hmark
      exact pyIn_mono_pat _ _ _ hmark
    have hchunk := (leaf_line_transparency treeId st raw hleaf).2.2 hcmp
    rw [hc] at hchunk
    have hceq := Option.some.inj hchunk
    obtain ⟨a2, b2, hrep⟩ := pyReplace_contains_rep "class:".toList
      (pvName treeId ++ " =".toList) (normLine raw) (by decide) hmark
    constructor
    · exact ⟨endsFor (processLine treeId st raw).2.pops ++
        pyReplace "class:".toList (pvName treeId ++ " =".toList) (normLine raw), by
          rw [hceq]
          simp [List.append_assoc]⟩
    · rw [hceq, hrep]
      apply (pyIn_iff _ _).mpr
      refine ⟨endsFor (processLine treeId st raw).2.pops ++ a2,
        " =".toList ++ b2 ++ [';'], ?_⟩
      simp [List.append_assoc]

set_option maxRecDepth 10000 in
/-- Witness for C5 on a concrete one-tree text. -/
theorem translate_header_trailer_pv_witness :
    (∃ body,
      "DATA DECISION_TREE_1;\nSET DATASET;\n     IF a <= 1.5 THEN DO;\n        PREDICTED_VALUE_1 = 0;\n     END;\n     ELSE IF a > 1.5 THEN DO;\n        PREDICTED_VALUE_1 = 1;\n  END;\nRUN;".toList =
        headerOf 0 "DATASET".toList ++ body) ∧
    (∃ a, ("      PREDICTED_VALUE_1 = 0;".toList : List Char) = a ++ [';']) ∧
    pyIn (pvName 0) "      PREDICTED_VALUE_1 = 0;".toList = true := by
  have h := translate_header_trailer_pv 0 "DATASET".toList
    "   a <= 1.5\n      class: 0\n   a >  1.5\n      class: 1\n".toList 2
    "DATA DECISION_TREE_1;\nSET DATASET;\n     IF a <= 1.5 THEN DO;\n        PREDICTED_VALUE_1 = 0;\n     END;\n     ELSE IF a > 1.5 THEN DO;\n        PREDICTED_VALUE_1 = 1;\n  END;\nRUN;".toList
    (by decide)
  refine ⟨h.1, ?_, ?_⟩
  · exact (h.2.2 initTS "      class: 0".toList (by decide) (by decide)
      "      PREDICTED_VALUE_1 = 0;".toList (by decide)).1
  · exact (h.2.2 initTS "      class: 0".toList (by decide) (by decide)
      "      PREDICTED_VALUE_1 = 0;".toList (by decide)).2

/-! ### Claim C8: role-prefix insertion -/

/-- Counterexample to C8 as stated: on a condition line whose
feature/operator portion itself contains a run of n_spaces consecutive
spaces, the Python replace inserts the role prefix at that interior
occurrence as well, so the prefix is not inserted exactly once and the
feature portion is not preserved verbatim. -/
theorem role_prefix_insertion_cex :
    (processLine 0 initTS "  a  b <= 1.5".toList).2.chunk =
      some "  IF a  IF b <= 1.5 THEN DO;".toList ∧
    (processLine 0 initTS "  a  b <= 1.5".toList).2.chunk ≠
      some "  IF a  b <= 1.5 THEN DO;".toList := by
  constructor <;> decide

/-- C8 amended: for a condition line whose remainder after the leading
spaces contains no further run of n_spaces consecutive spaces, the role
prefix is inserted exactly once, at the leading-indentation column, and
the feature/operator portion is preserved verbatim; for a line with
such an interior run the prefix is inserted at every occurrence. -/
theorem cond_role_single_insertion (treeId : Nat) (st : TState)
    (raw pre preRest val g : List Char)
    (hrs : pyRsplit1 (normLine raw) = some (pre, val))
    (hfg : pyFormatG val = some g)
    (hn : 1 ≤ nSpacesOf (normLine raw))
    (hpre : pre = spacesN (nSpacesOf (normLine raw)) ++ preRest)
    (hno : pyIn (spacesN (nSpacesOf (normLine raw))) preRest = false)
    (hcmp : (processLine treeId st raw).2.cmp = true) :
    condTransform (nSpacesOf (normLine raw)) (processLine treeId st raw).2.front (normLine raw) =
      some (spacesN (nSpacesOf (normLine raw)) ++ (processLine treeId st raw).2.front ++ preRest ++
        (' ' :: g ++ " THEN DO;".toList)) ∧
    (pyIn "class".toList
        (spacesN (nSpacesOf (normLine raw)) ++ (processLine treeId st raw).2.front ++ preRest ++
          (' ' :: g ++ " THEN DO;".toList)) = false →
      (processLine treeId st raw).2.chunk =
        some (endsFor (processLine treeId st raw).2.pops ++
          (spacesN (nSpacesOf (normLine raw)) ++ (processLine treeId st raw).2.front ++ preRest ++
            (' ' :: g ++ " THEN DO;".toList)))) := by
  have hsp_ne : spacesN (nSpacesOf (normLine raw)) ≠ [] := by
    intro hcon
    have hlen := congrArg List.length hcon
    simp [spacesN] at hlen
    omega
  have hct : condTransform (nSpacesOf (normLine raw)) (processLine treeId st raw).2.front
      (normLine raw) =
      some (spacesN (nSpacesOf (normLine raw)) ++ (processLine treeId st raw).2.front ++ preRest ++
        (' ' :: g ++ " THEN DO;".toList)) := by
    unfold condTransform
    rw [hrs]
    dsimp only
    rw [hfg]
    congr 1
    rw [hpre, pyReplace_head_match _ _ _ hsp_ne, pyReplace_not_in _ _ _ hsp_ne hno]
    simp [List.append_assoc]
  refine ⟨hct, fun hcl => ?_⟩
  rw [processLine_chunk, if_pos hcmp, hct]
  dsimp only [Option.map]
  simp only [classTransform]
  rw [if_neg (by rw [hcl]; exact Bool.false_ne_true)]

set_option maxRecDepth 4000 in
/-- Witness for the amended C8 at a concrete condition line. -/
theorem cond_role_single_insertion_witness :
    condTransform (nSpacesOf (normLine "   a <= 1.5".toList))
      (processLine 0 initTS "   a <= 1.5".toList).2.front (normLine "   a <= 1.5".toList) =
      some (spacesN (nSpacesOf (normLine "   a <= 1.5".toList)) ++
        (processLine 0 initTS "   a <= 1.5".toList).2.front ++ "a <=".toList ++
        (' ' :: "1.5".toList ++ " THEN DO;".toList)) ∧
    (processLine 0 initTS "   a <= 1.5".toList).2.chunk =
      some (endsFor (processLine 0 initTS "   a <= 1.5".toList).2.pops ++
        (spacesN (nSpacesOf (normLine "   a <= 1.5".toList)) ++
          (processLine 0 initTS "   a <= 1.5".toList).2.front ++ "a <=".toList ++
          (' ' :: "1.5".toList ++ " THEN DO;".toList))) := by
  have h := cond_role_single_insertion 0 initTS "   a <= 1.5".toList "   a <=".toList
    "a <=".toList "1.5".toList "1.5".toList (by decide) (by decide) (by decide) (by decide)
    (by decide) (by decide)
  exact ⟨h.1, h.2 (by decide)⟩

/-! ### Numeric lemmas for the percent-g model -/

lemma natDigits_len_pos (n : Nat) : 1 ≤ (natDigits n).length := by
  rw [natDigits_eq]
  by_cases h : n < 10 <;> simp [h]

lemma natDigits_lt (n : Nat) : n < 10 ^ (natDigits n).length := by
  induction n using Nat.strong_induction_on with
  | _ n ih =>
    rw [natDigits_eq]
    by_cases h : n < 10
    · simp only [if_pos h, List.length_singleton, pow_one]
      exact h
    · have hdiv : n / 10 < n := Nat.div_lt_self (by omega) (by omega)
      have hrec := ih (n / 10) hdiv
      simp only [if_neg h, List.length_append, List.length_singleton]
      rw [pow_succ]
      omega

lemma natDigits_ge (n : Nat) (h : n ≠ 0) : 10 ^ ((natDigits n).length - 1) ≤ n := by
  induction n using Nat.strong_induction_on with
  | _ n ih =>
    rw [natDigits_eq]
    by_cases h10 : n < 10
    · simp only [if_pos h10, List.length_singleton]
      omega
    · have hdiv : n / 10 < n := Nat.div_lt_self (by omega) (by omega)
      have hne : n / 10 ≠ 0 := by omega
      have hrec := ih (n / 10) hdiv hne
      have hpos := natDigits_len_pos (n / 10)
      simp only [if_neg h10, List.length_append, List.length_singleton]
      have hlen : (natDigits (n / 10)).length + 1 - 1 = (natDigits (n / 10)).length := by omega
      rw [hlen]
      have hstep : 10 ^ (natDigits (n / 10)).length =
          10 ^ ((natDigits (n / 10)).length - 1) * 10 := by
        rw [← pow_succ]
        congr 1
        omega
      rw [hstep]
      omega

lemma stripZerosAux_fst_ne : ∀ (f m : Nat) (e : Int), m ≠ 0 → (stripZerosAux f m e).1 ≠ 0 := by
  intro f
  induction f with
  | zero => intro m e h; exact h
  | succ f ih =>
    intro m e h
    by_cases hc : m ≠ 0 ∧ m % 10 = 0
    · simp only [stripZerosAux, if_pos hc]
      apply ih
      omega
    · simp only [stripZerosAux, if_neg hc]
      exact h

lemma stripZeros_fst_ne (m : Nat) (e : Int) (h : m ≠ 0) : (stripZeros m e).1 ≠ 0 :=
  stripZerosAux_fst_ne m m e h

lemma stripZerosAux_val : ∀ (f m : Nat) (e : Int),
    ((stripZerosAux f m e).1 : ℚ) * 10 ^ (stripZerosAux f m e).2 = (m : ℚ) * 10 ^ e := by
  intro f
  induction f with
  | zero => intro m e; rfl
  | succ f ih =>
    intro m e
    by_cases hc : m ≠ 0 ∧ m % 10 = 0
    · simp only [stripZerosAux, if_pos hc]
      rw [ih (m / 10) (e + 1)]
      have hdvd : 10 ∣ m := Nat.dvd_of_mod_eq_zero hc.2
      have h2 : m / 10 * 10 = m := Nat.div_mul_cancel hdvd
      have hmul : ((m / 10 : Nat) : ℚ) * 10 = (m : ℚ) := by exact_mod_cast h2
      rw [zpow_add₀ (by norm_num : (10 : ℚ) ≠ 0) e 1, zpow_one, ← hmul]
      ring
    · simp only [stripZerosAux, if_neg hc]

lemma stripZeros_val (m : Nat) (e : Int) :
    ((stripZeros m e).1 : ℚ) * 10 ^ (stripZeros m e).2 = (m : ℚ) * 10 ^ e :=
  stripZerosAux_val m m e

lemma pyIn_singleton (c : Char) (s : List Char) : pyIn [c] s = true ↔ c ∈ s := by
  rw [pyIn_iff]
  constructor
  · rintro ⟨a, b, h⟩
    rw [h]
    simp
  · intro h
    rcases List.mem_iff_append.mp h with ⟨x, y, hxy⟩
    exact ⟨x, y, by simp [hxy]⟩

lemma natDigits_mem_digit : ∀ n : Nat, ∀ c ∈ natDigits n, ∃ d, d ≤ 9 ∧ c = digitChar d := by
  intro n
  induction n using Nat.strong_induction_on with
  | _ n ih =>
    intro c hc
    rw [natDigits_eq] at hc
    by_cases h : n < 10
    · rw [if_pos h] at hc
      simp only [List.mem_singleton] at hc
      exact ⟨n, by omega, hc⟩
    · rw [if_neg h] at hc
      rcases List.mem_append.mp hc with h1 | h2
      · exact ih (n / 10) (Nat.div_lt_self (by omega) (by omega)) c h1
      · simp only [List.mem_singleton] at h2
        exact ⟨n % 10, by omega, h2⟩

lemma digitChar_ne_e (d : Nat) (h : d ≤ 9) : digitChar d ≠ 'e' := by
  interval_cases d <;> decide

lemma e_not_mem_renderFixed (ds : List Char) (e1 : Int)
    (hds : ∀ c ∈ ds, c ≠ 'e') : 'e' ∉ renderFixed ds e1 := by
  intro hmem
  simp only [renderFixed] at hmem
  by_cases h0 : 0 ≤ e1
  · rw [if_pos h0] at hmem
    rcases List.mem_append.mp hmem with h | h
    · exact hds _ h rfl
    · have := List.eq_of_mem_replicate h
      exact absurd this (by decide)
  · rw [if_neg h0] at hmem
    by_cases hk : (-e1).toNat < ds.length
    · rw [if_pos hk] at hmem
      rcases List.mem_append.mp hmem with h | h
      · exact hds _ (List.take_subset _ _ h) rfl
      · rcases List.mem_cons.mp h with h1 | h2
        · exact absurd h1 (by decide)
        · exact hds _ (List.drop_subset _ _ h2) rfl
    · rw [if_neg hk] at hmem
      rcases List.mem_cons.mp hmem with h1 | h
      · exact absurd h1 (by decide)
      rcases List.mem_cons.mp h with h2 | h
      · exact absurd h2 (by decide)
      rcases List.mem_append.mp h with h3 | h4
      · have := List.eq_of_mem_replicate h3
        exact absurd this (by decide)
      · exact hds _ h4 rfl

lemma e_mem_renderSci (ds : List Char) (X : Int) : 'e' ∈ renderSci ds X := by
  simp only [renderSci]
  exact List.mem_append.mpr (Or.inr (List.mem_cons_self _ _))

/-- Decimal exponent of the six-significant-digit rounding of a
decimal: the percent-g branch test compares it against -4 and 6. -/
def gExp (d : PyDec) : Int :=
  ((natDigits (sig6 d.mant d.exp).1).length : Int) - 1 + (sig6 d.mant d.exp).2

lemma formatGdec_sci_iff (d : PyDec) (hm : d.mant ≠ 0) :
    (pyIn ['e'] (formatGdec d) = true ↔ ¬(-4 ≤ gExp d ∧ gExp d < 6)) := by
  have hgexp : gExp d =
      ((natDigits (sig6 d.mant d.exp).1).length : Int) - 1 + (sig6 d.mant d.exp).2 := rfl
  simp only [formatGdec, if_neg hm]
  by_cases hX : -4 ≤ gExp d ∧ gExp d < 6
  · rw [if_pos (by rw [hgexp] at hX; exact hX)]
    have hnot : 'e' ∉ ((if d.sign then ['-'] else []) ++
        renderFixed (natDigits (sig6 d.mant d.exp).1) (sig6 d.mant d.exp).2) := by
      intro hmem
      rcases List.mem_append.mp hmem with h | h
      · by_cases hs : d.sign
        · rw [if_pos hs] at h
          simp only [List.mem_singleton] at h
          exact absurd h (by decide)
        · rw [if_neg hs] at h
          simp at h
      · apply e_not_mem_renderFixed _ _ ?_ h
        intro c hc
        obtain ⟨dd, hdd, hcc⟩ := natDigits_mem_digit _ c hc
        rw [hcc]
        exact digitChar_ne_e dd hdd
    constructor
    · intro hin
      exact absurd ((pyIn_singleton 'e' _).mp hin) hnot
    · intro hcon
      exact absurd hX hcon
  · rw [if_neg (by rw [hgexp] at hX; exact hX)]
    constructor
    · intro _
      exact hX
    · intro _
      apply (pyIn_singleton 'e' _).mpr
      exact List.mem_append.mpr (Or.inr (e_mem_renderSci _ _))

lemma roundHalfEven_ge_div (m p : Nat) : m / p ≤ roundHalfEven m p := by
  simp only [roundHalfEven]
  split_ifs <;> omega

lemma sig6_fst_ne (m : Nat) (e : Int) (hm : m ≠ 0) : (sig6 m e).1 ≠ 0 := by
  simp only [sig6]
  by_cases hnd : (natDigits m).length ≤ 6
  · rw [if_pos hnd]
    exact stripZeros_fst_ne m e hm
  · rw [if_neg hnd]
    apply stripZeros_fst_ne
    have hge := natDigits_ge m hm
    have hppos : 0 < 10 ^ ((natDigits m).length - 6) := pow_pos (by omega) _
    have hple : 10 ^ ((natDigits m).length - 6) ≤ 10 ^ ((natDigits m).length - 1) :=
      Nat.pow_le_pow_right (by omega) (by omega)
    have hdiv : 1 ≤ m / 10 ^ ((natDigits m).length - 6) := by
      rw [Nat.le_div_iff_mul_le hppos]
      omega
    have hrd := roundHalfEven_ge_div m (10 ^ ((natDigits m).length - 6))
    omega

lemma sig6_val_ge (m : Nat) (e : Int) (hm : m ≠ 0)
    (h : (10:ℚ) ^ (6:ℤ) ≤ (m:ℚ) * (10:ℚ) ^ e) :
    (10:ℚ) ^ (6:ℤ) ≤ ((sig6 m e).1 : ℚ) * (10:ℚ) ^ (sig6 m e).2 := by
  simp only [sig6]
  by_cases hnd : (natDigits m).length ≤ 6
  · rw [if_pos hnd, stripZeros_val]
    exact h
  · rw [if_neg hnd, stripZeros_val]
    set nd := (natDigits m).length with hnddef
    set p := 10 ^ (nd - 6) with hpdef
    set q := roundHalfEven m p with hqdef
    set j : Int := e + ((nd : Int) - 6) with hjdef
    have h6nd : 6 ≤ nd := by omega
    have hppos : 0 < p := pow_pos (by omega) _
    have hqge : m / p ≤ q := roundHalfEven_ge_div m p
    by_cases hj : 1 ≤ j
    · have hmge : 10 ^ (nd - 1) ≤ m := natDigits_ge m hm
      have hq5 : 10 ^ 5 ≤ m / p := by
        rw [Nat.le_div_iff_mul_le hppos]
        have hpe : 10 ^ 5 * p = 10 ^ (nd - 1) := by
          rw [hpdef, ← pow_add]
          congr 1
          omega
        omega
      have hq5q : ((10:ℚ)) ^ ((5:ℕ):ℤ) ≤ (q : ℚ) := by
        rw [zpow_natCast]
        exact_mod_cast le_trans hq5 hqge
      have h10j : (10:ℚ) ^ (1:ℤ) ≤ (10:ℚ) ^ j :=
        (zpow_le_zpow_iff_right₀ (by norm_num : (1:ℚ) < 10)).mpr hj
      have hsplit : (10:ℚ)^(6:ℤ) = (10:ℚ)^((5:ℕ):ℤ) * (10:ℚ)^(1:ℤ) := by
        rw [← zpow_add₀ (by norm_num : (10:ℚ) ≠ 0)]
        norm_num
      rw [hsplit]
      exact mul_le_mul hq5q h10j (by positivity) (by positivity)
    · have hj0 : j ≤ 0 := by omega
      have htn : ((-j).toNat : ℤ) = -j := Int.toNat_of_nonneg (by omega)
      set K : Nat := 6 + (nd - 6) + (-j).toNat with hKdef
      have hKint : (K : ℤ) = 6 - e := by
        rw [hKdef]
        push_cast [Nat.cast_sub h6nd, htn]
        omega
      have hmQ : ((10:ℚ)) ^ ((K:ℕ):ℤ) ≤ (m : ℚ) := by
        have h2 : (10:ℚ)^(6:ℤ) * (10:ℚ)^(-e) ≤ (m:ℚ) * (10:ℚ)^e * (10:ℚ)^(-e) :=
          mul_le_mul_of_nonneg_right h (le_of_lt (zpow_pos (by norm_num) _))
        rw [mul_assoc, ← zpow_add₀ (by norm_num : (10:ℚ) ≠ 0) e (-e)] at h2
        simp only [add_neg_cancel, zpow_zero, mul_one] at h2
        rw [← zpow_add₀ (by norm_num : (10:ℚ) ≠ 0) 6 (-e)] at h2
        have heq : (6 + -e : ℤ) = ((K:ℕ):ℤ) := by omega
        rw [heq] at h2
        exact h2
      have hmNat : 10 ^ K ≤ m := by
        rw [zpow_natCast] at hmQ
        exact_mod_cast hmQ
      have hqK : 10 ^ (6 + (-j).toNat) ≤ m / p := by
        rw [Nat.le_div_iff_mul_le hppos]
        have hpe : 10 ^ (6 + (-j).toNat) * p = 10 ^ K := by
          rw [hpdef, ← pow_add]
          congr 1
          omega
        omega
      have hqKq : ((10:ℚ)) ^ ((6 + (-j).toNat : ℕ) : ℤ) ≤ (q : ℚ) := by
        rw [zpow_natCast]
        exact_mod_cast le_trans hqK hqge
      have hsplit : (10:ℚ)^(6:ℤ) = (10:ℚ) ^ ((6 + (-j).toNat : ℕ):ℤ) * (10:ℚ)^j := by
        rw [← zpow_add₀ (by norm_num : (10:ℚ) ≠ 0)]
        congr 1
        push_cast [htn]
        omega
      rw [hsplit]
      exact mul_le_mul_of_nonneg_right hqKq (le_of_lt (zpow_pos (by norm_num) j))

lemma pyDec_abs_val (d : PyDec) : |PyDec.val d| = (d.mant : ℚ) * 10 ^ d.exp := by
  unfold PyDec.val
  by_cases hs : d.sign
  · rw [if_pos hs]
    have hneg : (-1 : ℚ) * (d.mant : ℚ) * 10 ^ d.exp = -((d.mant : ℚ) * 10 ^ d.exp) := by ring
    rw [hneg, abs_neg, abs_of_nonneg (by positivity)]
  · rw [if_neg hs, one_mul, abs_of_nonneg (by positivity)]

/-! ### Claim C7: threshold formatting -/

/-- Counterexample to C7 as stated: the threshold 100000000.0 of a
condition line is re-emitted in scientific notation 1e+08, so it is not
true that no threshold is ever emitted in scientific notation. -/
theorem threshold_scientific_cex :
    (processLine 0 initTS "   f <= 100000000.0".toList).2.chunk =
      some "   IF f <= 1e+08 THEN DO;".toList ∧
    pyIn "1e+08".toList
      (((processLine 0 initTS "   f <= 100000000.0".toList).2.chunk).getD []) = true := by
  constructor <;> decide

/-- C7 amended: the threshold is re-parsed as a floating value and
re-emitted with the general format of default precision six, followed
by the block-opening suffix THEN DO.  The display is fixed-point
exactly when the decimal exponent X of the six-digit rounding satisfies
-4 <= X < 6, and scientific otherwise; in particular every threshold of
magnitude at least ten to the sixth is emitted in scientific
notation. -/
theorem threshold_general_formatting :
    (∀ s d, pyFloatParse s = some d → pyFormatG s = some (formatGdec d)) ∧
    (∀ d : PyDec, d.mant ≠ 0 →
      (pyIn ['e'] (formatGdec d) = true ↔ ¬(-4 ≤ gExp d ∧ gExp d < 6))) ∧
    (∀ d : PyDec, (10:ℚ) ^ (6:ℤ) ≤ |PyDec.val d| → pyIn ['e'] (formatGdec d) = true) ∧
    (∀ n : Nat, ∀ front line0 out : List Char,
      condTransform n front line0 = some out → ∃ a, out = a ++ " THEN DO;".toList) := by
  refine ⟨?_, ?_, ?_, ?_⟩
  · intro s d h
    unfold pyFormatG
    rw [h]
    rfl
  · exact formatGdec_sci_iff
  · intro d hge
    rw [pyDec_abs_val] at hge
    have hm : d.mant ≠ 0 := by
      intro h0
      rw [h0] at hge
      simp only [Nat.cast_zero, zero_mul] at hge
      have := zpow_pos (by norm_num : (0:ℚ) < 10) (6:ℤ)
      linarith
    rw [formatGdec_sci_iff d hm]
    rintro ⟨h4, h6⟩
    have hval := sig6_val_ge d.mant d.exp hm hge
    have hm1 : (sig6 d.mant d.exp).1 ≠ 0 := sig6_fst_ne d.mant d.exp hm
    have hlt : ((sig6 d.mant d.exp).1 : ℚ) <
        (10:ℚ) ^ (((natDigits (sig6 d.mant d.exp).1).length : ℕ) : ℤ) := by
      rw [zpow_natCast]
      exact_mod_cast natDigits_lt (sig6 d.mant d.exp).1
    have hchain : (10:ℚ) ^ (6:ℤ) <
        (10:ℚ) ^ (((natDigits (sig6 d.mant d.exp).1).length : ℕ) : ℤ) *
          (10:ℚ) ^ (sig6 d.mant d.exp).2 := by
      calc (10:ℚ) ^ (6:ℤ) ≤ ((sig6 d.mant d.exp).1 : ℚ) * 10 ^ (sig6 d.mant d.exp).2 := hval
        _ < _ := mul_lt_mul_of_pos_right hlt (zpow_pos (by norm_num) _)
    rw [← zpow_add₀ (by norm_num : (10:ℚ) ≠ 0)] at hchain
    have hexp : (6:ℤ) < ((natDigits (sig6 d.mant d.exp).1).length : ℤ) + (sig6 d.mant d.exp).2 :=
      (zpow_lt_zpow_iff_right₀ (by norm_num : (1:ℚ) < 10)).mp hchain
    have hg : gExp d = ((natDigits (sig6 d.mant d.exp).1).length : ℤ) - 1 +
        (sig6 d.mant d.exp).2 := rfl
    omega
  · intro n front line0 out h
    unfold condTransform at h
    cases hrs : pyRsplit1 line0 with
    | none => rw [hrs] at h; exact absurd h (by simp)
    | some pv =>
      rw [hrs] at h
      dsimp only at h
      cases hfg : pyFormatG pv.2 with
      | none => rw [hfg] at h; simp at h
      | some g =>
        rw [hfg] at h
        exact ⟨pyReplace (spacesN n) (spacesN n ++ front) pv.1 ++ ' ' :: g,
          (Option.some.inj h).symm⟩

set_option maxRecDepth 4000 in
/-- Witness for the amended C7. -/
theorem threshold_general_formatting_witness :
    pyFormatG "100000000.0".toList = some (formatGdec ⟨false, 1000000000, -1⟩) ∧
    pyIn ['e'] (formatGdec ⟨false, 1, 8⟩) = true ∧
    (∃ a, ("   IF f <= 1e+08 THEN DO;".toList : List Char) = a ++ " THEN DO;".toList) := by
  refine ⟨?_, ?_, ?_⟩
  · exact threshold_general_formatting.1 "100000000.0".toList ⟨false, 1000000000, -1⟩ (by decide)
  · apply threshold_general_formatting.2.2.1 ⟨false, 1, 8⟩
    have habs : |PyDec.val ⟨false, 1, 8⟩| = (10:ℚ) ^ (8:ℤ) := by
      rw [pyDec_abs_val]
      norm_num
    rw [habs]
    exact (zpow_le_zpow_iff_right₀ (by norm_num : (1:ℚ) < 10)).mpr (by norm_num)
  · exact threshold_general_formatting.2.2.2 3
      (processLine 0 initTS "   f <= 100000000.0".toList).2.front
      (normLine "   f <= 100000000.0".toList) "   IF f <= 1e+08 THEN DO;".toList (by decide)

/-! ### Claim C6: segment structure of the emitted body -/

lemma pySplitNl_noNL (s : List Char) (h : ∀ ch ∈ s, ch ≠ '\n') : pySplitNl s = [s] := by
  induction s with
  | nil => rfl
  | cons c t ih =>
    have hc : c ≠ '\n' := h c (List.mem_cons_self c t)
    have ht := ih (fun ch hch => h ch (List.mem_cons_of_mem c hch))
    unfold pySplitNl
    rw [if_neg hc, ht]

lemma pySplitNl_eq_cons (c : Char) (t : List Char) :
    pySplitNl (c :: t) =
      if c = '\n' then [] :: pySplitNl t
      else
        match pySplitNl t with
        | [] => [[c]]
        | h :: r => (c :: h) :: r := rfl

lemma pySplitNl_cons_nl (t : List Char) : pySplitNl ('\n' :: t) = [] :: pySplitNl t := by
  rw [pySplitNl_eq_cons, if_pos rfl]

lemma pySplitNl_cons_left (c : Char) (b : List Char) (hc : c ≠ '\n') :
    pySplitNl (c :: b) = (c :: (pySplitNl b).headI) :: (pySplitNl b).tail := by
  rw [pySplitNl_eq_cons, if_neg hc]
  cases hb : pySplitNl b with
  | nil => exact absurd hb (pySplitNl_ne_nil b)
  | cons h0 r0 => simp

lemma pySplitNl_append_nl (x y : List Char) :
    pySplitNl (x ++ '\n' :: y) = pySplitNl x ++ pySplitNl y := by
  induction x with
  | nil => rw [List.nil_append, pySplitNl_cons_nl]; rfl
  | cons c t ih =>
    by_cases hc : c = '\n'
    · subst hc
      rw [List.cons_append, pySplitNl_cons_nl, pySplitNl_cons_nl, ih, List.cons_append]
    · rw [List.cons_append, pySplitNl_cons_left c (t ++ '\n' :: y) hc, ih,
        pySplitNl_cons_left c t hc]
      cases hst : pySplitNl t with
      | nil => exact absurd hst (pySplitNl_ne_nil t)
      | cons h0 r0 => simp

lemma pySplitNl_append_left_noNL (a b : List Char) (h : ∀ ch ∈ a, ch ≠ '\n') :
    pySplitNl (a ++ b) = (a ++ (pySplitNl b).headI) :: (pySplitNl b).tail := by
  induction a with
  | nil =>
    cases hb : pySplitNl b with
    | nil => exact absurd hb (pySplitNl_ne_nil b)
    | cons h0 r0 => simp [hb]
  | cons c t ih =>
    have hc : c ≠ '\n' := h c (List.mem_cons_self c t)
    rw [List.cons_append, pySplitNl_cons_left c (t ++ b) hc,
      ih (fun ch hch => h ch (List.mem_cons_of_mem c hch))]
    simp

lemma pySplitNl_append_right_noNL (x y : List Char) (h : ∀ ch ∈ y, ch ≠ '\n') :
    pySplitNl (x ++ y) =
      (pySplitNl x).dropLast ++ [(pySplitNl x).getLastD [] ++ y] := by
  induction x with
  | nil =>
    rw [List.nil_append, pySplitNl_noNL y h]
    rfl
  | cons c t ih =>
    by_cases hc : c = '\n'
    · subst hc
      rw [List.cons_append, pySplitNl_cons_nl, ih, pySplitNl_cons_nl]
      cases hst : pySplitNl t with
      | nil => exact absurd hst (pySplitNl_ne_nil t)
      | cons h0 r0 => simp
    · rw [List.cons_append, pySplitNl_cons_left c (t ++ y) hc, ih,
        pySplitNl_cons_left c t hc]
      cases hst : pySplitNl t with
      | nil => exact absurd hst (pySplitNl_ne_nil t)
      | cons h0 r0 =>
        cases r0 with
        | nil => simp
        | cons h1 r1 => simp

set_option maxRecDepth 10000 in
/-- Claim C6, counterexample: on a well-formed rendered tree whose
ELSE-IF chain closes two levels at once, the emitted body contains a
physical END; terminator line at column zero, which does not begin with
the fixed indent prefix of spacing spaces (spacing three here); so not
every body line begins with the fixed indent prefix. -/
theorem body_indent_cex :
    translate_text_to_sas 0 "T".toList
        "   a <= 1.5\n      class: 0\n   a >  1.5\n      b <= 2.5\n         class: 1\n      b >  2.5\n         class: 2\n".toList 3 =
      some (headerOf 0 "T".toList ++
        "      IF a <= 1.5 THEN DO;\n         PREDICTED_VALUE_1 = 0;\n      END;\n     ELSE IF a > 1.5 THEN DO;\n         IF b <= 2.5 THEN DO;\n            PREDICTED_VALUE_1 = 1;\n         END;\n        ELSE IF b > 2.5 THEN DO;\n            PREDICTED_VALUE_1 = 2;\n   END;\nEND;\n".toList ++
        "RUN;".toList) ∧
    "END;".toList ∈ pySplitNl
        "      IF a <= 1.5 THEN DO;\n         PREDICTED_VALUE_1 = 0;\n      END;\n     ELSE IF a > 1.5 THEN DO;\n         IF b <= 2.5 THEN DO;\n            PREDICTED_VALUE_1 = 1;\n         END;\n        ELSE IF b > 2.5 THEN DO;\n            PREDICTED_VALUE_1 = 2;\n   END;\nEND;\n".toList ∧
    (spacesN 3).isPrefixOf "END;".toList = false := by
  exact ⟨by decide, by decide, by decide⟩

lemma dropLast_append_ne (A B : List Char) (h : B ≠ []) :
    (A ++ B).dropLast = A ++ B.dropLast := by
  induction A with
  | nil => rfl
  | cons c t ih =>
    rw [List.cons_append, List.dropLast_cons_of_ne_nil (by simp [h]), ih, List.cons_append]

lemma joinChunks_cons (spacing : Nat) (c : List Char) (cs : List (List Char)) :
    joinChunks spacing (c :: cs) =
      (spacesN spacing ++ c ++ ['\n']) ++ joinChunks spacing cs := by
  simp [joinChunks]

lemma segments_joinChunks (spacing : Nat) :
    ∀ chunks : List (List Char), chunks ≠ [] →
      pySplitNl ((joinChunks spacing chunks).dropLast) =
        chunks.flatMap (fun c => pySplitNl (spacesN spacing ++ c)) := by
  intro chunks
  induction chunks with
  | nil => intro h; exact absurd rfl h
  | cons c cs ih =>
    intro _
    cases cs with
    | nil =>
      rw [joinChunks_cons]
      have hj : joinChunks spacing [] = [] := rfl
      rw [hj, List.append_nil]
      have hassoc : spacesN spacing ++ c ++ ['\n'] = (spacesN spacing ++ c) ++ ['\n'] := by
        simp
      rw [hassoc, List.dropLast_concat]
      simp
    | cons c2 cs2 =>
      rw [joinChunks_cons]
      have hne : joinChunks spacing (c2 :: cs2) ≠ [] := by
        rw [joinChunks_cons]
        simp
      rw [dropLast_append_ne _ _ hne]
      have hassoc : spacesN spacing ++ c ++ ['\n'] ++ (joinChunks spacing (c2 :: cs2)).dropLast =
          (spacesN spacing ++ c) ++ '\n' :: (joinChunks spacing (c2 :: cs2)).dropLast := by
        simp
      rw [hassoc, pySplitNl_append_nl, ih (by simp)]
      simp

lemma mem_rstripAll (s : List Char) (ch : Char) (h : ch ∈ rstripAll s) : ch ∈ s := by
  unfold rstripAll at h
  rw [List.mem_reverse] at h
  have := (List.dropWhile_suffix pyIsSpace (l := s.reverse)).subset h
  rwa [List.mem_reverse] at this

lemma mem_normLine (raw : List Char) (ch : Char) (h : ch ∈ normLine raw) :
    ch ∈ raw ∨ ch = ' ' := by
  unfold normLine replChar at h
  rw [List.mem_map] at h
  obtain ⟨c1, hc1, he1⟩ := h
  rw [List.mem_map] at hc1
  obtain ⟨c2, hc2, he2⟩ := hc1
  by_cases h1 : c1 = '-'
  · right; rw [← he1, if_pos h1]
  · rw [← he1, if_neg h1]
    by_cases h2 : c2 = '|'
    · right; rw [← he2, if_pos h2]
    · rw [← he2, if_neg h2]
      exact Or.inl (mem_rstripAll raw c2 hc2)

lemma mem_pySplitNl_noNL (s : List Char) :
    ∀ l ∈ pySplitNl s, ∀ ch ∈ l, ch ≠ '\n' := by
  induction s with
  | nil =>
    intro l hl ch hch
    have : l = [] := by simpa [pySplitNl] using hl
    subst this
    cases hch
  | cons c t ih =>
    intro l hl ch hch
    by_cases hc : c = '\n'
    · subst hc
      rw [pySplitNl_cons_nl] at hl
      cases hl with
      | head => cases hch
      | tail _ h => exact ih l h ch hch
    · rw [pySplitNl_cons_left c t hc] at hl
      cases hl with
      | head =>
        cases hch with
        | head => exact hc
        | tail _ h =>
          refine ih (pySplitNl t).headI ?_ ch h
          cases hst : pySplitNl t with
          | nil => exact absurd hst (pySplitNl_ne_nil t)
          | cons h0 r0 => simp
      | tail _ h =>
        refine ih l ?_ ch hch
        cases hst : pySplitNl t with
        | nil => exact absurd hst (pySplitNl_ne_nil t)
        | cons h0 r0 =>
          rw [hst] at h
          exact List.mem_cons_of_mem _ h

lemma pyIn_head_not_mem (w0 : Char) (w' s : List Char) (h : w0 ∉ s) :
    pyIn (w0 :: w') s = false := by
  induction s with
  | nil => rfl
  | cons c t ih =>
    have hne : w0 ≠ c := fun he => h (he ▸ List.mem_cons_self c t)
    have hnt : w0 ∉ t := fun hm => h (List.mem_cons_of_mem c hm)
    rw [pyIn, ih hnt, Bool.or_false]
    show (w0 :: w').isPrefixOf (c :: t) = false
    rw [List.isPrefixOf_cons₂]
    simp [hne]

lemma pyReplace_left_disjoint (pat rep a z : List Char) (hpat : pat ≠ [])
    (hd : ∀ ch ∈ a, ch ∉ pat) :
    pyReplace pat rep (a ++ z) = a ++ pyReplace pat rep z := by
  induction a with
  | nil => rfl
  | cons c t ih =>
    obtain ⟨p0, pt, hp⟩ : ∃ p0 pt, pat = p0 :: pt := by
      cases pat with
      | nil => exact absurd rfl hpat
      | cons x xs => exact ⟨x, xs, rfl⟩
    have hne : (p0 == c) = false := by
      have hc : c ∉ pat := hd c (List.mem_cons_self c t)
      refine beq_eq_false_iff_ne.mpr fun he => hc ?_
      rw [hp, he]
      exact List.mem_cons_self c pt
    have hm : pat.isPrefixOf (c :: (t ++ z)) = false := by
      rw [hp]
      rw [List.isPrefixOf_cons₂]
      simp only [hne, Bool.false_and]
    rw [List.cons_append, pyReplace_cons_not_matched pat rep c (t ++ z) hpat hm,
      ih (fun ch hch => hd ch (List.mem_cons_of_mem c hch)), List.cons_append]

lemma mem_pyReplaceAux (pat rep : List Char) (ch : Char) :
    ∀ fuel s, ch ∈ pyReplaceAux pat rep fuel s → ch ∈ s ∨ ch ∈ rep := by
  intro fuel
  induction fuel with
  | zero =>
    intro s h
    cases s with
    | nil => cases h
    | cons c t => exact Or.inl h
  | succ f ih =>
    intro s h
    cases s with
    | nil => cases h
    | cons c t =>
      rw [pyReplaceAux] at h
      by_cases hm : pat.isPrefixOf (c :: t) = true
      · rw [if_pos hm] at h
        rcases List.mem_append.mp h with h1 | h1
        · exact Or.inr h1
        · rcases ih _ h1 with h2 | h2
          · exact Or.inl ((List.drop_subset _ _) h2)
          · exact Or.inr h2
      · rw [if_neg hm] at h
        cases h with
        | head => exact Or.inl (List.mem_cons_self _ _)
        | tail _ h1 =>
          rcases ih _ h1 with h2 | h2
          · exact Or.inl (List.mem_cons_of_mem _ h2)
          · exact Or.inr h2

lemma mem_pyReplace (pat rep s : List Char) (ch : Char) (hpat : pat ≠ [])
    (h : ch ∈ pyReplace pat rep s) : ch ∈ s ∨ ch ∈ rep := by
  have hne : pat.isEmpty = false := by simp [List.isEmpty_iff, hpat]
  rw [pyReplace, hne] at h
  exact mem_pyReplaceAux pat rep ch s.length s (by simpa using h)

lemma endsFor_succ (k : Nat) :
    endsFor (k + 1) = "END;\n".toList ++ endsFor k := by
  simp [endsFor, List.replicate_succ]

lemma spacesN_prefix_of_le (a b : Nat) (w : List Char) (h : a ≤ b) :
    (spacesN a).isPrefixOf (spacesN b ++ w) = true := by
  rw [List.isPrefixOf_iff_prefix]
  refine List.IsPrefix.trans ?_ (List.prefix_append _ w)
  unfold spacesN
  exact ⟨List.replicate (b - a) ' ', by rw [← List.replicate_add]; congr 1; omega⟩

lemma digitChar_ne_nl (d : Nat) (h : d ≤ 9) : digitChar d ≠ '\n' := by
  interval_cases d <;> decide

lemma noNL_natDigits (n : Nat) : ∀ c ∈ natDigits n, c ≠ '\n' := by
  intro c hc
  obtain ⟨d, hd, he⟩ := natDigits_mem_digit n c hc
  exact he ▸ digitChar_ne_nl d hd

lemma noNL_renderFixed (ds : List Char) (e1 : Int) (hds : ∀ c ∈ ds, c ≠ '\n') :
    ∀ c ∈ renderFixed ds e1, c ≠ '\n' := by
  intro c hc
  simp only [renderFixed] at hc
  by_cases h0 : 0 ≤ e1
  · rw [if_pos h0] at hc
    rcases List.mem_append.mp hc with h | h
    · exact hds _ h
    · exact (List.eq_of_mem_replicate h) ▸ (by decide)
  · rw [if_neg h0] at hc
    by_cases hk : (-e1).toNat < ds.length
    · rw [if_pos hk] at hc
      rcases List.mem_append.mp hc with h | h
      · exact hds _ (List.take_subset _ _ h)
      · rcases List.mem_cons.mp h with h1 | h2
        · exact h1 ▸ (by decide)
        · exact hds _ (List.drop_subset _ _ h2)
    · rw [if_neg hk] at hc
      rcases List.mem_cons.mp hc with h1 | h
      · exact h1 ▸ (by decide)
      rcases List.mem_cons.mp h with h1 | h
      · exact h1 ▸ (by decide)
      rcases List.mem_append.mp h with h1 | h1
      · exact (List.eq_of_mem_replicate h1) ▸ (by decide)
      · exact hds _ h1

lemma noNL_renderSci (ds : List Char) (X : Int) (hds : ∀ c ∈ ds, c ≠ '\n') :
    ∀ c ∈ renderSci ds X, c ≠ '\n' := by
  intro c hc
  simp only [renderSci] at hc
  rcases List.mem_append.mp hc with h | h
  · cases ds with
    | nil =>
      simp only [List.mem_singleton] at h
      exact h ▸ (by decide)
    | cons d rest =>
      dsimp only at h
      by_cases hre : rest.isEmpty
      · rw [if_pos hre] at h
        simp only [List.mem_singleton] at h
        exact h ▸ hds d (List.mem_cons_self d rest)
      · rw [if_neg hre] at h
        rcases List.mem_cons.mp h with h1 | h1
        · exact h1 ▸ hds d (List.mem_cons_self d rest)
        rcases List.mem_cons.mp h1 with h2 | h2
        · exact h2 ▸ (by decide)
        · exact hds c (List.mem_cons_of_mem d h2)
  · rcases List.mem_cons.mp h with h1 | h1
    · exact h1 ▸ (by decide)
    rcases List.mem_cons.mp h1 with h2 | h2
    · by_cases hX : X < 0
      · rw [if_pos hX] at h2
        exact h2 ▸ (by decide)
      · rw [if_neg hX] at h2
        exact h2 ▸ (by decide)
    · by_cases hl : (natDigits X.natAbs).length < 2
      · rw [if_pos hl] at h2
        rcases List.mem_cons.mp h2 with h3 | h3
        · exact h3 ▸ (by decide)
        · exact noNL_natDigits _ c h3
      · rw [if_neg hl] at h2
        exact noNL_natDigits _ c h2

lemma noNL_formatGdec (d : PyDec) : ∀ c ∈ formatGdec d, c ≠ '\n' := by
  intro c hc
  simp only [formatGdec] at hc
  have hsgn : ∀ x ∈ (if d.sign then ['-'] else ([] : List Char)), x ≠ '\n' := by
    intro x hx
    by_cases hs : d.sign
    · rw [if_pos hs] at hx
      simp only [List.mem_singleton] at hx
      exact hx ▸ (by decide)
    · rw [if_neg hs] at hx
      cases hx
  by_cases hm : d.mant = 0
  · rw [if_pos hm] at hc
    rcases List.mem_append.mp hc with h | h
    · exact hsgn c h
    · simp only [List.mem_singleton] at h
      exact h ▸ (by decide)
  · rw [if_neg hm] at hc
    by_cases hX : -4 ≤ ((natDigits (sig6 d.mant d.exp).1).length : Int) - 1 + (sig6 d.mant d.exp).2 ∧
        ((natDigits (sig6 d.mant d.exp).1).length : Int) - 1 + (sig6 d.mant d.exp).2 < 6
    · rw [if_pos hX] at hc
      rcases List.mem_append.mp hc with h | h
      · exact hsgn c h
      · exact noNL_renderFixed _ _ (noNL_natDigits _) c h
    · rw [if_neg hX] at hc
      rcases List.mem_append.mp hc with h | h
      · exact hsgn c h
      · exact noNL_renderSci _ _ (noNL_natDigits _) c h

lemma noNL_pvName (treeId : Nat) : ∀ c ∈ pvName treeId ++ " =".toList, c ≠ '\n' := by
  have hlit : ∀ x ∈ "PREDICTED_VALUE_".toList, x ≠ '\n' := by decide
  have hlit2 : ∀ x ∈ " =".toList, x ≠ '\n' := by decide
  intro c hc
  rcases List.mem_append.mp hc with h | h
  · rcases List.mem_append.mp h with h1 | h1
    · exact hlit c h1
    · exact noNL_natDigits _ c h1
  · exact hlit2 c h

lemma pySplitNl_headI_leading (s : List Char) : (pySplitNl s).headI <+: s := by
  induction s with
  | nil => exact List.nil_prefix
  | cons c t ih =>
    by_cases hc : c = '\n'
    · subst hc
      rw [pySplitNl_cons_nl]
      exact List.nil_prefix
    · rw [pySplitNl_cons_left c t hc]
      show c :: (pySplitNl t).headI <+: c :: t
      exact List.cons_prefix_cons.mpr ⟨rfl, ih⟩

lemma pySplitNl_pyReplace_aux (pat rep : List Char) (hpat : pat ≠ [])
    (hpnl : ∀ ch ∈ pat, ch ≠ '\n') (hrnl : ∀ ch ∈ rep, ch ≠ '\n') :
    ∀ k s, s.length ≤ k →
      pySplitNl (pyReplace pat rep s) = (pySplitNl s).map (pyReplace pat rep) := by
  intro k
  induction k with
  | zero =>
    intro s hs
    have : s = [] := List.length_eq_zero.mp (by omega)
    subst this
    rw [pyReplace_nil pat rep hpat]
    show pySplitNl [] = [pyReplace pat rep []]
    rw [pyReplace_nil pat rep hpat]
    rfl
  | succ k ih =>
    intro s hs
    cases s with
    | nil =>
      rw [pyReplace_nil pat rep hpat]
      show pySplitNl [] = [pyReplace pat rep []]
      rw [pyReplace_nil pat rep hpat]
      rfl
    | cons c t =>
      by_cases hm : pat.isPrefixOf (c :: t) = true
      · rcases List.isPrefixOf_iff_prefix.mp hm with ⟨rest, hrest⟩
        rw [← hrest, pyReplace_head_match pat rep rest hpat]
        have hrl : rest.length ≤ k := by
          have h1 : pat.length + rest.length = t.length + 1 := by
            have := congrArg List.length hrest
            simpa using this
          have h2 : 0 < pat.length := List.length_pos.mpr hpat
          simp only [List.length_cons] at hs
          omega
        rw [pySplitNl_append_left_noNL rep _ hrnl,
          pySplitNl_append_left_noNL pat rest hpnl, ih rest hrl]
        cases hr : pySplitNl rest with
        | nil => exact absurd hr (pySplitNl_ne_nil rest)
        | cons h0 r0 =>
          simp only [List.map_cons, List.headI_cons, List.tail_cons, List.map]
          rw [pyReplace_head_match pat rep h0 hpat]
      · by_cases hc : c = '\n'
        · subst hc
          have hm2 : pat.isPrefixOf ('\n' :: t) = false := by
            cases hm3 : pat.isPrefixOf ('\n' :: t) with
            | false => rfl
            | true => exact absurd hm3 hm
          rw [pyReplace_cons_not_matched pat rep _ t hpat hm2, pySplitNl_cons_nl,
            pySplitNl_cons_nl, List.map_cons,
            ih t (by simp only [List.length_cons] at hs; omega)]
          rw [pyReplace_nil pat rep hpat]
        · have hm2 : pat.isPrefixOf (c :: t) = false := by
            cases hm3 : pat.isPrefixOf (c :: t) with
            | false => rfl
            | true => exact absurd hm3 hm
          rw [pyReplace_cons_not_matched pat rep c t hpat hm2,
            pySplitNl_cons_left c _ hc, pySplitNl_cons_left c t hc,
            ih t (by simp only [List.length_cons] at hs; omega)]
          cases ht : pySplitNl t with
          | nil => exact absurd ht (pySplitNl_ne_nil t)
          | cons h0 r0 =>
            simp only [List.map_cons, List.headI_cons, List.tail_cons]
            have hpre : (c :: h0) <+: (c :: t) := by
              refine List.cons_prefix_cons.mpr ⟨rfl, ?_⟩
              have := pySplitNl_headI_leading t
              rwa [ht] at this
            have hm4 : pat.isPrefixOf (c :: h0) = false := by
              cases hm5 : pat.isPrefixOf (c :: h0) with
              | false => rfl
              | true =>
                have : pat.isPrefixOf (c :: t) = true :=
                  List.isPrefixOf_iff_prefix.mpr
                    ((List.isPrefixOf_iff_prefix.mp hm5).trans hpre)
                exact absurd this (by rw [hm2]; simp)
            rw [pyReplace_cons_not_matched pat rep c h0 hpat hm4]

lemma pySplitNl_pyReplace (pat rep s : List Char) (hpat : pat ≠ [])
    (hpnl : ∀ ch ∈ pat, ch ≠ '\n') (hrnl : ∀ ch ∈ rep, ch ≠ '\n') :
    pySplitNl (pyReplace pat rep s) = (pySplitNl s).map (pyReplace pat rep) :=
  pySplitNl_pyReplace_aux pat rep hpat hpnl hrnl s.length s (le_refl _)

lemma pyReplace_nl_rep_tail (pat A B : List Char) (hpat : pat ≠ [])
    (hA : ∀ ch ∈ A, ch ≠ '\n') (hB : ∀ ch ∈ B, ch ≠ '\n') :
    ∀ k s suffix, s.length ≤ k → (∀ ch ∈ s, ch ≠ '\n') →
      (∀ ch ∈ suffix, ch ≠ '\n') →
      ∀ l ∈ (pySplitNl (pyReplace pat (A ++ '\n' :: B) s ++ suffix)).tail,
        B.isPrefixOf l = true := by
  intro k
  induction k with
  | zero =>
    intro s suffix hs _ hsuf l hl
    have : s = [] := List.length_eq_zero.mp (by omega)
    subst this
    rw [pyReplace_nil pat _ hpat, List.nil_append, pySplitNl_noNL suffix hsuf] at hl
    cases hl
  | succ k ih =>
    intro s suffix hs hnl hsuf l hl
    cases s with
    | nil =>
      rw [pyReplace_nil pat _ hpat, List.nil_append, pySplitNl_noNL suffix hsuf] at hl
      cases hl
    | cons c t =>
      by_cases hm : pat.isPrefixOf (c :: t) = true
      · rcases List.isPrefixOf_iff_prefix.mp hm with ⟨rest, hrest⟩
        rw [← hrest, pyReplace_head_match pat _ rest hpat] at hl
        have hassoc : (A ++ '\n' :: B) ++ pyReplace pat (A ++ '\n' :: B) rest ++ suffix =
            A ++ '\n' :: (B ++ (pyReplace pat (A ++ '\n' :: B) rest ++ suffix)) := by
          simp
        rw [hassoc, pySplitNl_append_nl, pySplitNl_noNL A hA] at hl
        have hl2 : l ∈ pySplitNl (B ++ (pyReplace pat (A ++ '\n' :: B) rest ++ suffix)) := hl
        rw [pySplitNl_append_left_noNL B _ hB] at hl2
        rcases List.mem_cons.mp hl2 with h1 | h1
        · subst h1
          exact List.isPrefixOf_iff_prefix.mpr (List.prefix_append B _)
        · have hrl : rest.length ≤ k := by
            have h1l : pat.length + rest.length = t.length + 1 := by
              have := congrArg List.length hrest
              simpa using this
            have h2l : 0 < pat.length := List.length_pos.mpr hpat
            simp only [List.length_cons] at hs
            omega
          have hrn : ∀ ch ∈ rest, ch ≠ '\n' := by
            intro ch hch
            refine hnl ch ?_
            rw [← hrest]
            exact List.mem_append.mpr (Or.inr hch)
          have htl : l ∈ (pySplitNl (pyReplace pat (A ++ '\n' :: B) rest ++ suffix)).tail := by
            cases hX : pySplitNl (pyReplace pat (A ++ '\n' :: B) rest ++ suffix) with
            | nil => exact absurd hX (pySplitNl_ne_nil _)
            | cons h0 r0 => rw [hX] at h1; exact h1
          exact ih rest suffix hrl hrn hsuf l htl
      · have hm2 : pat.isPrefixOf (c :: t) = false := by
          cases hm3 : pat.isPrefixOf (c :: t) with
          | false => rfl
          | true => exact absurd hm3 hm
        have hc : c ≠ '\n' := hnl c (List.mem_cons_self c t)
        rw [pyReplace_cons_not_matched pat _ c t hpat hm2, List.cons_append,
          pySplitNl_cons_left c _ hc] at hl
        exact ih t suffix (by simp only [List.length_cons] at hs; omega)
          (fun ch hch => hnl ch (List.mem_cons_of_mem c hch)) hsuf l hl

lemma getLastD_mem (l : List (List Char)) (a : List Char) (h : l ≠ []) :
    l.getLastD a ∈ l := by
  induction l generalizing a with
  | nil => exact absurd rfl h
  | cons x t ih =>
    rw [List.getLastD_cons]
    cases t with
    | nil => exact List.mem_singleton.mpr rfl
    | cons y r => exact List.mem_cons_of_mem x (ih x (by simp))

lemma dropWhile_head_false (p : Char → Bool) :
    ∀ (l : List Char) c t, l.dropWhile p = c :: t → p c = false := by
  intro l
  induction l with
  | nil => intro c t h; simp [List.dropWhile] at h
  | cons x xs ih =>
    intro c t h
    cases hp : p x with
    | true =>
      rw [List.dropWhile_cons_of_pos hp] at h
      exact ih c t h
    | false =>
      rw [List.dropWhile_cons_of_neg (by simp [hp])] at h
      cases h
      exact hp

lemma rstripAll_leading (s : List Char) : rstripAll s <+: s := by
  obtain ⟨w, hw⟩ := List.dropWhile_suffix (l := s.reverse) pyIsSpace
  refine ⟨w.reverse, ?_⟩
  unfold rstripAll
  have := congrArg List.reverse hw
  rwa [List.reverse_append, List.reverse_reverse] at this

lemma takeWhile_spaces_eq (s : List Char) :
    s.takeWhile (fun c => c = ' ') = spacesN (nSpacesOf s) := by
  unfold spacesN nSpacesOf
  refine List.eq_replicate_of_mem ?_
  intro b hb
  have := List.mem_takeWhile_imp hb
  simpa using this

lemma line_decomp (s : List Char) :
    s = spacesN (nSpacesOf s) ++ s.dropWhile (fun c => c = ' ') := by
  conv_lhs => rw [← List.takeWhile_append_dropWhile (p := fun c => c = ' ') (l := s)]
  rw [takeWhile_spaces_eq]

lemma pyRsplit1_decomp (s pre v : List Char) (h : pyRsplit1 s = some (pre, v)) :
    pre = spacesN (nSpacesOf s) ++ pre.drop (nSpacesOf s) ∧
    pre.drop (nSpacesOf s) ≠ [] ∧ ∀ ch ∈ pre, ch ∈ s := by
  unfold pyRsplit1 at h
  by_cases h1 : (((rstripAll s).reverse.takeWhile (fun c => !pyIsSpace c)).isEmpty) = true
  · rw [if_pos h1] at h
    cases h
  rw [if_neg h1] at h
  by_cases h2 : ((((rstripAll s).reverse.dropWhile (fun c => !pyIsSpace c)).dropWhile pyIsSpace).isEmpty) = true
  · rw [if_pos h2] at h
    cases h
  rw [if_neg h2] at h
  have hpe : pre = (((rstripAll s).reverse.dropWhile (fun c => !pyIsSpace c)).dropWhile pyIsSpace).reverse := by
    have := (Option.some.inj h)
    exact (congrArg Prod.fst this).symm
  have hr2ne : (((rstripAll s).reverse.dropWhile (fun c => !pyIsSpace c)).dropWhile pyIsSpace) ≠ [] := by
    intro he
    rw [he] at h2
    exact h2 rfl
  obtain ⟨c, t, hct⟩ : ∃ c t, (((rstripAll s).reverse.dropWhile (fun c => !pyIsSpace c)).dropWhile pyIsSpace) = c :: t := by
    cases hx : (((rstripAll s).reverse.dropWhile (fun c => !pyIsSpace c)).dropWhile pyIsSpace) with
    | nil => exact absurd hx hr2ne
    | cons c t => exact ⟨c, t, rfl⟩
  have hcns : pyIsSpace c = false := dropWhile_head_false pyIsSpace _ c t hct
  have hcpre : c ∈ pre := by
    rw [hpe, hct, List.reverse_cons]
    exact List.mem_append.mpr (Or.inr (List.mem_singleton.mpr rfl))
  have hprefix : pre <+: rstripAll s := by
    refine ⟨(((rstripAll s).reverse.dropWhile (fun c => !pyIsSpace c)).takeWhile pyIsSpace).reverse ++
      ((rstripAll s).reverse.takeWhile (fun c => !pyIsSpace c)).reverse, ?_⟩
    rw [hpe]
    have hs1 : (rstripAll s).reverse.takeWhile (fun c => !pyIsSpace c) ++
        (rstripAll s).reverse.dropWhile (fun c => !pyIsSpace c) = (rstripAll s).reverse :=
      List.takeWhile_append_dropWhile _ _
    have hs2 : ((rstripAll s).reverse.dropWhile (fun c => !pyIsSpace c)).takeWhile pyIsSpace ++
        ((rstripAll s).reverse.dropWhile (fun c => !pyIsSpace c)).dropWhile pyIsSpace =
        (rstripAll s).reverse.dropWhile (fun c => !pyIsSpace c) :=
      List.takeWhile_append_dropWhile _ _
    have := congrArg List.reverse hs1
    rw [List.reverse_append, List.reverse_reverse] at this
    conv_rhs => rw [← this]
    have h2r := congrArg List.reverse hs2
    rw [List.reverse_append] at h2r
    rw [← h2r]
    simp
  have hpres : pre <+: s := hprefix.trans (rstripAll_leading s)
  have hsub : ∀ ch ∈ pre, ch ∈ s := fun ch hch => hpres.subset hch
  have hntlt : nSpacesOf s < pre.length := by
    by_contra hle
    push_neg at hle
    have htake : pre = s.take pre.length := List.prefix_iff_eq_take.mp hpres
    have hsdec := line_decomp s
    have hlensp : (spacesN (nSpacesOf s)).length = nSpacesOf s := by
      simp [spacesN]
    have htk : s.take pre.length = List.replicate pre.length ' ' := by
      conv_lhs => rw [hsdec]
      rw [List.take_append_of_le_length (by rw [hlensp]; exact hle)]
      unfold spacesN
      rw [List.take_replicate]
      congr 1
      omega
    have : c = ' ' := List.eq_of_mem_replicate (by rw [htake, htk] at hcpre; exact hcpre)
    rw [this] at hcns
    exact absurd hcns (by decide)
  have htaken : pre.take (nSpacesOf s) = spacesN (nSpacesOf s) := by
    have htake : pre = s.take pre.length := List.prefix_iff_eq_take.mp hpres
    have hsdec := line_decomp s
    have hlensp : (spacesN (nSpacesOf s)).length = nSpacesOf s := by
      simp [spacesN]
    have hmin : min (nSpacesOf s) pre.length = nSpacesOf s := by omega
    have e1 : pre.take (nSpacesOf s) = s.take (nSpacesOf s) := by
      conv_lhs => rw [htake]
      rw [List.take_take, hmin]
    have h3 := congrArg (List.take (nSpacesOf s)) hsdec
    rw [List.take_append_of_le_length hlensp.ge] at h3
    rw [e1, h3]
    unfold spacesN
    rw [List.take_replicate]
    congr 1
    omega
  refine ⟨?_, ?_, hsub⟩
  · conv_lhs => rw [← List.take_append_drop (nSpacesOf s) pre]
    rw [htaken]
  · intro he
    have := List.drop_eq_nil_iff_le.mp he
    omega

/-- The shapes a physical body line of the emitted translation can
take: the fixed indent prefix, a terminator line (possibly itself
indented), an ELSE IF continuation line, or the final empty line. -/
def goodBody (spacing : Nat) (l : List Char) : Prop :=
  (spacesN spacing).isPrefixOf l = true ∨ (∃ a, l = a ++ "END;".toList) ∨
  pyIn "ELSE IF ".toList l = true ∨ l = []

lemma goodBody_skip (spacing n : Nat) (w : List Char) (h : spacing ≤ n) :
    goodBody spacing (spacesN n ++ w) :=
  Or.inl (spacesN_prefix_of_le spacing n w h)

lemma goodBody_ends (spacing : Nat) (x : List Char) :
    goodBody spacing (x ++ "END;".toList) :=
  Or.inr (Or.inl ⟨x, rfl⟩)

lemma goodBody_elseif (spacing n : Nat) (w : List Char) :
    goodBody spacing (spacesN (n + 2) ++ "ELSE IF ".toList ++ w) := by
  refine Or.inr (Or.inr (Or.inl ?_))
  refine (pyIn_iff _ _).mpr ⟨spacesN (n + 2), w, ?_⟩
  simp

lemma segs_endsFor_good (spacing : Nat) :
    ∀ (k : Nat) (y : List Char),
      (∀ l ∈ pySplitNl y, goodBody spacing l) →
      ∀ l ∈ pySplitNl (endsFor k ++ y), goodBody spacing l := by
  intro k
  induction k with
  | zero =>
    intro y hy l hl
    have h0 : endsFor 0 = [] := rfl
    rw [h0, List.nil_append] at hl
    exact hy l hl
  | succ k ih =>
    intro y hy l hl
    rw [endsFor_succ] at hl
    have hre : "END;\n".toList ++ endsFor k ++ y =
        "END;".toList ++ '\n' :: (endsFor k ++ y) := by
      simp
    rw [hre, pySplitNl_append_nl, pySplitNl_noNL "END;".toList (by decide)] at hl
    rcases List.mem_append.mp hl with h | h
    · rcases List.mem_singleton.mp h with rfl
      exact goodBody_ends spacing []
    · exact ih y hy l h

lemma skip_ends_segments_good (spacing k : Nat) (l2 : List Char)
    (hl2 : ∀ l ∈ pySplitNl l2, goodBody spacing l) :
    ∀ l ∈ pySplitNl (spacesN spacing ++ (endsFor k ++ l2)), goodBody spacing l := by
  intro l hl
  cases k with
  | zero =>
    have h0 : endsFor 0 = [] := rfl
    rw [h0, List.nil_append,
      pySplitNl_append_left_noNL (spacesN spacing) l2
        (fun ch hch => by rw [List.eq_of_mem_replicate hch]; decide)] at hl
    rcases List.mem_cons.mp hl with h | h
    · subst h
      exact Or.inl (List.isPrefixOf_iff_prefix.mpr (List.prefix_append _ _))
    · refine hl2 l ?_
      cases hseg : pySplitNl l2 with
      | nil => exact absurd hseg (pySplitNl_ne_nil l2)
      | cons h0 r0 =>
        rw [hseg] at h
        exact List.mem_cons_of_mem _ h
  | succ k =>
    rw [endsFor_succ] at hl
    have hre : spacesN spacing ++ ("END;\n".toList ++ endsFor k ++ l2) =
        (spacesN spacing ++ "END;".toList) ++ '\n' :: (endsFor k ++ l2) := by
      simp
    rw [hre, pySplitNl_append_nl,
      pySplitNl_noNL (spacesN spacing ++ "END;".toList)
        (by
          intro ch hch
          rcases List.mem_append.mp hch with h | h
          · rw [List.eq_of_mem_replicate h]; decide
          · revert h
            have : ∀ x ∈ "END;".toList, x ≠ '\n' := by decide
            exact this ch)] at hl
    rcases List.mem_append.mp hl with h | h
    · rcases List.mem_singleton.mp h with rfl
      exact goodBody_ends spacing _
    · exact segs_endsFor_good spacing k l2 hl2 l h

lemma noNL_spacesN (n : Nat) : ∀ ch ∈ spacesN n, ch ≠ '\n' := by
  intro ch hch
  rw [List.eq_of_mem_replicate hch]
  decide

lemma noNL_append (a b : List Char) (ha : ∀ ch ∈ a, ch ≠ '\n')
    (hb : ∀ ch ∈ b, ch ≠ '\n') : ∀ ch ∈ a ++ b, ch ≠ '\n' := by
  intro ch hch
  rcases List.mem_append.mp hch with h | h
  · exact ha ch h
  · exact hb ch h

lemma classTransform_segments_skip (treeId spacing n : Nat) (w : List Char)
    (hsp : spacing ≤ n)
    (hnl : ∀ ch ∈ w, ch ≠ '\n') :
    ∀ l ∈ pySplitNl (classTransform treeId (spacesN n ++ w)), goodBody spacing l := by
  intro l hl
  unfold classTransform at hl
  by_cases hcl : pyIn "class".toList (spacesN n ++ w) = true
  · rw [if_pos hcl] at hl
    have hdisj : ∀ ch ∈ spacesN n, ch ∉ "class:".toList := by
      intro ch hch
      rw [List.eq_of_mem_replicate hch]
      decide
    rw [pyReplace_left_disjoint "class:".toList _ (spacesN n) w (by decide) hdisj,
      List.append_assoc] at hl
    have hnl2 : ∀ ch ∈ pyReplace "class:".toList (pvName treeId ++ " =".toList) w ++ [';'],
        ch ≠ '\n' := by
      refine noNL_append _ _ ?_ ?_
      · intro ch hch
        rcases mem_pyReplace _ _ _ _ (by decide) hch with h1 | h1
        · exact hnl ch h1
        · exact noNL_pvName treeId ch h1
      · intro ch hch
        rcases List.mem_singleton.mp hch with rfl
        decide
    rw [pySplitNl_noNL _ (noNL_append _ _ (noNL_spacesN n) hnl2)] at hl
    rcases List.mem_singleton.mp hl with rfl
    exact goodBody_skip spacing n _ hsp
  · rw [if_neg hcl] at hl
    rw [pySplitNl_noNL _ (noNL_append _ _ (noNL_spacesN n) hnl)] at hl
    rcases List.mem_singleton.mp hl with rfl
    exact goodBody_skip spacing n _ hsp

lemma cond_even_segments (treeId spacing n : Nat) (preRest g : List Char)
    (hn1 : 1 ≤ n) (hsp : spacing ≤ n)
    (hpr : ∀ ch ∈ preRest, ch ≠ '\n') (hg : ∀ ch ∈ g, ch ≠ '\n') :
    ∀ l ∈ pySplitNl (classTransform treeId
        (pyReplace (spacesN n)
            (spacesN n ++ ("END;\n".toList ++ spacesN (n + 2) ++ "ELSE IF ".toList))
            (spacesN n ++ preRest) ++ ' ' :: g ++ " THEN DO;".toList)),
      goodBody spacing l := by
  set A1 : List Char := spacesN n ++ "END;".toList with hA1
  set B0 : List Char := spacesN (n + 2) ++ "ELSE IF ".toList with hB0
  have hspn : spacesN n ≠ [] := by
    simp [spacesN]
    omega
  have hrep : spacesN n ++ ("END;\n".toList ++ spacesN (n + 2) ++ "ELSE IF ".toList) =
      A1 ++ '\n' :: B0 := by
    rw [hA1, hB0]
    simp
  have hA1nl : ∀ ch ∈ A1, ch ≠ '\n' := by
    rw [hA1]
    exact noNL_append _ _ (noNL_spacesN n) (by decide)
  have hB0nl : ∀ ch ∈ B0, ch ≠ '\n' := by
    rw [hB0]
    exact noNL_append _ _ (noNL_spacesN (n + 2)) (by decide)
  have hsufnl : ∀ ch ∈ ' ' :: g ++ " THEN DO;".toList, ch ≠ '\n' := by
    intro ch hch
    rcases List.mem_cons.mp hch with h | h
    · rw [h]; decide
    · exact noNL_append g _ hg (by decide) ch h
  have hexp : pyReplace (spacesN n)
      (spacesN n ++ ("END;\n".toList ++ spacesN (n + 2) ++ "ELSE IF ".toList))
      (spacesN n ++ preRest) ++ ' ' :: g ++ " THEN DO;".toList =
      A1 ++ '\n' :: (B0 ++
        (pyReplace (spacesN n) (A1 ++ '\n' :: B0) preRest ++ ' ' :: g ++ " THEN DO;".toList)) := by
    rw [hrep, pyReplace_head_match (spacesN n) _ preRest hspn]
    simp
  have hT : ∀ x ∈ (pySplitNl
      (pyReplace (spacesN n) (A1 ++ '\n' :: B0) preRest ++ ' ' :: g ++ " THEN DO;".toList)).tail,
      ∃ w, x = B0 ++ w := by
    intro x hx
    have hx2 : x ∈ (pySplitNl (pyReplace (spacesN n) (A1 ++ '\n' :: B0) preRest ++
        (' ' :: g ++ " THEN DO;".toList))).tail := by
      rw [← List.append_assoc]
      exact hx
    have := pyReplace_nl_rep_tail (spacesN n) A1 B0 hspn hA1nl hB0nl preRest.length preRest
      (' ' :: g ++ " THEN DO;".toList) (le_refl _) hpr hsufnl x hx2
    rcases List.isPrefixOf_iff_prefix.mp this with ⟨w, hw⟩
    exact ⟨w, hw.symm⟩
  have hseg1 : pySplitNl (pyReplace (spacesN n)
      (spacesN n ++ ("END;\n".toList ++ spacesN (n + 2) ++ "ELSE IF ".toList))
      (spacesN n ++ preRest) ++ ' ' :: g ++ " THEN DO;".toList) =
      A1 :: (B0 ++ (pySplitNl
          (pyReplace (spacesN n) (A1 ++ '\n' :: B0) preRest ++ ' ' :: g ++ " THEN DO;".toList)).headI) ::
        (pySplitNl
          (pyReplace (spacesN n) (A1 ++ '\n' :: B0) preRest ++ ' ' :: g ++ " THEN DO;".toList)).tail := by
    rw [hexp, pySplitNl_append_nl, pySplitNl_noNL A1 hA1nl,
      pySplitNl_append_left_noNL B0 _ hB0nl]
    rfl
  intro l hl
  unfold classTransform at hl
  by_cases hcl : pyIn "class".toList (pyReplace (spacesN n)
      (spacesN n ++ ("END;\n".toList ++ spacesN (n + 2) ++ "ELSE IF ".toList))
      (spacesN n ++ preRest) ++ ' ' :: g ++ " THEN DO;".toList) = true
  · rw [if_pos hcl] at hl
    have hclneq : ("class:".toList : List Char) ≠ [] := by decide
    have hclnl : ∀ ch ∈ "class:".toList, ch ≠ '\n' := by decide
    have hmap := pySplitNl_pyReplace "class:".toList (pvName treeId ++ " =".toList)
      (pyReplace (spacesN n)
          (spacesN n ++ ("END;\n".toList ++ spacesN (n + 2) ++ "ELSE IF ".toList))
          (spacesN n ++ preRest) ++ ' ' :: g ++ " THEN DO;".toList)
      hclneq hclnl (noNL_pvName treeId)
    rw [pySplitNl_append_right_noNL _ [';'] (by decide), hmap, hseg1] at hl
    have hcA : 'c' ∉ A1 := by
      rw [hA1]
      intro h
      rcases List.mem_append.mp h with h1 | h1
      · exact absurd (List.eq_of_mem_replicate h1) (by decide)
      · revert h1
        decide
    have hfA : pyReplace "class:".toList (pvName treeId ++ " =".toList) A1 = A1 :=
      pyReplace_not_in _ _ _ hclneq (pyIn_head_not_mem 'c' _ A1 hcA)
    have hdisjB0 : ∀ ch ∈ B0, ch ∉ "class:".toList := by
      rw [hB0]
      intro ch hch
      rcases List.mem_append.mp hch with h1 | h1
      · rw [List.eq_of_mem_replicate h1]
        decide
      · revert h1
        have : ∀ x ∈ "ELSE IF ".toList, x ∉ "class:".toList := by decide
        exact this ch
    have hfB0 : ∀ x, pyReplace "class:".toList (pvName treeId ++ " =".toList) (B0 ++ x) =
        B0 ++ pyReplace "class:".toList (pvName treeId ++ " =".toList) x :=
      fun x => pyReplace_left_disjoint _ _ B0 x hclneq hdisjB0
    rw [List.map_cons, List.map_cons, hfA, hfB0] at hl
    rcases List.mem_append.mp hl with h | h
    · rw [List.dropLast_cons_of_ne_nil (by simp)] at h
      rcases List.mem_cons.mp h with h1 | h1
      · rw [h1, hA1]
        exact goodBody_ends spacing _
      · have h2 := List.dropLast_subset _ h1
        rcases List.mem_cons.mp h2 with h3 | h3
        · rw [h3, hB0]
          exact goodBody_elseif spacing n _
        · rcases List.mem_map.mp h3 with ⟨t, ht, hft⟩
          rcases hT t ht with ⟨w, hw⟩
          rw [← hft, hw, hfB0 w, hB0]
          exact goodBody_elseif spacing n _
    · rcases List.mem_singleton.mp h with rfl
      rw [List.getLastD_cons]
      have hlast := getLastD_mem ((B0 ++
          pyReplace "class:".toList (pvName treeId ++ " =".toList)
            (pySplitNl (pyReplace (spacesN n) (A1 ++ '\n' :: B0) preRest ++
              ' ' :: g ++ " THEN DO;".toList)).headI) ::
          List.map (pyReplace "class:".toList (pvName treeId ++ " =".toList))
            (pySplitNl (pyReplace (spacesN n) (A1 ++ '\n' :: B0) preRest ++
              ' ' :: g ++ " THEN DO;".toList)).tail) A1 (by simp)
      rcases List.mem_cons.mp hlast with h3 | h3
      · rw [h3, List.append_assoc, hB0]
        exact goodBody_elseif spacing n _
      · rcases List.mem_map.mp h3 with ⟨t, ht, hft⟩
        rcases hT t ht with ⟨w, hw⟩
        rw [← hft, hw, hfB0 w, List.append_assoc, hB0]
        exact goodBody_elseif spacing n _
  · rw [if_neg hcl, hseg1] at hl
    rcases List.mem_cons.mp hl with h | h
    · rw [h, hA1]
      exact goodBody_ends spacing _
    rcases List.mem_cons.mp h with h1 | h1
    · rw [h1, hB0]
      exact goodBody_elseif spacing n _
    · rcases hT l h1 with ⟨w, hw⟩
      rw [hw, hB0]
      exact goodBody_elseif spacing n _

lemma cond_odd_segments (treeId spacing n : Nat) (preRest g : List Char)
    (hn1 : 1 ≤ n) (hsp : spacing ≤ n)
    (hpr : ∀ ch ∈ preRest, ch ≠ '\n') (hg : ∀ ch ∈ g, ch ≠ '\n') :
    ∀ l ∈ pySplitNl (classTransform treeId
        (pyReplace (spacesN n) (spacesN n ++ "IF ".toList) (spacesN n ++ preRest) ++
          ' ' :: g ++ " THEN DO;".toList)),
      goodBody spacing l := by
  have hspn : spacesN n ≠ [] := by
    simp [spacesN]
    omega
  have hexp : pyReplace (spacesN n) (spacesN n ++ "IF ".toList) (spacesN n ++ preRest) ++
      ' ' :: g ++ " THEN DO;".toList =
      spacesN n ++ ("IF ".toList ++
        (pyReplace (spacesN n) (spacesN n ++ "IF ".toList) preRest ++
          ' ' :: g ++ " THEN DO;".toList)) := by
    rw [pyReplace_head_match (spacesN n) _ preRest hspn]
    simp
  rw [hexp]
  refine classTransform_segments_skip treeId spacing n _ hsp ?_
  refine noNL_append _ _ (by decide) ?_
  intro ch hch
  rcases List.mem_append.mp hch with h | h
  · rcases List.mem_append.mp h with h1 | h1
    · rcases mem_pyReplace _ _ _ _ hspn h1 with h2 | h2
      · exact hpr ch h2
      · exact noNL_append _ _ (noNL_spacesN n) (by decide) ch h2
    · rcases List.mem_cons.mp h1 with h2 | h2
      · rw [h2]; decide
      · exact hg ch h2
  · revert h
    have : ∀ x ∈ " THEN DO;".toList, x ≠ '\n' := by decide
    exact this ch

lemma chunk_good_empty (treeId spacing : Nat) (st : TState) (c : List Char)
    (hc : (processLine treeId st []).2.chunk = some c) :
    ∀ l ∈ pySplitNl (spacesN spacing ++ c), goodBody spacing l := by
  rw [processLine_chunk] at hc
  have hcmp : ¬ ((processLine treeId st []).2.cmp = true) := by
    rw [processLine_cmp]
    decide
  rw [if_neg hcmp] at hc
  have hnorm : normLine ([] : List Char) = [] := rfl
  rw [hnorm] at hc
  have hct : classTransform treeId [] = [] := rfl
  simp only [Option.map_some', hct] at hc
  have hc2 : endsFor (processLine treeId st []).2.pops ++ [] = c := Option.some.inj hc
  rw [← hc2]
  exact skip_ends_segments_good spacing _ []
    (fun l hl => by
      have : l = [] := by simpa [pySplitNl] using hl
      exact Or.inr (Or.inr (Or.inr this)))

lemma chunk_good (treeId spacing : Nat) (st : TState) (raw c : List Char)
    (hsp1 : 1 ≤ spacing)
    (hnlraw : ∀ ch ∈ raw, ch ≠ '\n')
    (hsp : spacing ≤ nSpacesOf (normLine raw))
    (hc : (processLine treeId st raw).2.chunk = some c) :
    ∀ l ∈ pySplitNl (spacesN spacing ++ c), goodBody spacing l := by
  have hnl0 : ∀ ch ∈ normLine raw, ch ≠ '\n' := by
    intro ch hch
    rcases mem_normLine raw ch hch with h | h
    · exact hnlraw ch h
    · rw [h]; decide
  rw [processLine_chunk] at hc
  by_cases hcmp : (processLine treeId st raw).2.cmp = true
  · rw [if_pos hcmp] at hc
    cases hrs : pyRsplit1 (normLine raw) with
    | none =>
      unfold condTransform at hc
      rw [hrs] at hc
      simp at hc
    | some pv =>
      cases hfg : pyFormatG pv.2 with
      | none =>
        unfold condTransform at hc
        rw [hrs] at hc
        dsimp only at hc
        rw [hfg] at hc
        simp at hc
      | some g =>
        unfold condTransform at hc
        rw [hrs] at hc
        dsimp only at hc
        rw [hfg] at hc
        simp only [Option.map_some'] at hc
        have hc2 := Option.some.inj hc
        obtain ⟨hdec, hdne, hsubpre⟩ :=
          pyRsplit1_decomp (normLine raw) pv.1 pv.2 (by rw [hrs])
        have hprnl : ∀ ch ∈ pv.1.drop (nSpacesOf (normLine raw)), ch ≠ '\n' := by
          intro ch hch
          exact hnl0 ch (hsubpre ch (List.drop_subset _ _ hch))
        have hgnl : ∀ ch ∈ g, ch ≠ '\n' := by
          obtain ⟨d, hd1, hd2⟩ : ∃ d, pyFloatParse pv.2 = some d ∧ formatGdec d = g := by
            unfold pyFormatG at hfg
            cases hp : pyFloatParse pv.2 with
            | none => rw [hp] at hfg; cases hfg
            | some d =>
              rw [hp] at hfg
              exact ⟨d, rfl, Option.some.inj hfg⟩
          intro ch hch
          rw [← hd2] at hch
          exact noNL_formatGdec d ch hch
        rw [← hc2]
        rw [processLine_front] at *
        set cnt := getCount (processLine treeId st raw).1.dict (nSpacesOf (normLine raw)) with hcnt
        by_cases hpar : cnt % 2 = 0
        · have hfa : get_front_add cnt (nSpacesOf (normLine raw)) =
              "END;\n".toList ++ spacesN (nSpacesOf (normLine raw) + 2) ++ "ELSE IF ".toList := by
            unfold get_front_add
            rw [if_pos hpar]
          rw [hfa]
          refine skip_ends_segments_good spacing _ _ ?_
          have hpre2 : pv.1 = spacesN (nSpacesOf (normLine raw)) ++
              pv.1.drop (nSpacesOf (normLine raw)) := hdec
          rw [hpre2]
          exact cond_even_segments treeId spacing (nSpacesOf (normLine raw))
            (pv.1.drop (nSpacesOf (normLine raw))) g (by omega) hsp hprnl hgnl
        · have hfa : get_front_add cnt (nSpacesOf (normLine raw)) = "IF ".toList := by
            unfold get_front_add
            rw [if_neg hpar]
          rw [hfa]
          refine skip_ends_segments_good spacing _ _ ?_
          have hpre2 : pv.1 = spacesN (nSpacesOf (normLine raw)) ++
              pv.1.drop (nSpacesOf (normLine raw)) := hdec
          rw [hpre2]
          exact cond_odd_segments treeId spacing (nSpacesOf (normLine raw))
            (pv.1.drop (nSpacesOf (normLine raw))) g (by omega) hsp hprnl hgnl
  · rw [if_neg hcmp] at hc
    simp only [Option.map_some'] at hc
    have hc2 := Option.some.inj hc
    rw [← hc2]
    refine skip_ends_segments_good spacing _ _ ?_
    have hdec := line_decomp (normLine raw)
    conv in classTransform treeId (normLine raw) => rw [hdec]
    refine classTransform_segments_skip treeId spacing (nSpacesOf (normLine raw)) _ hsp ?_
    intro ch hch
    exact hnl0 ch ((List.dropWhile_suffix _).subset hch)

lemma runLines_chunks_good (treeId spacing : Nat) :
    ∀ (raws : List (List Char)) (st : TState) (chunks : List (List Char)),
      1 ≤ spacing →
      (∀ raw ∈ raws, ∀ ch ∈ raw, ch ≠ '\n') →
      (∀ raw ∈ raws.dropLast, spacing ≤ nSpacesOf (normLine raw)) →
      raws.getLast? = some [] →
      (runLines treeId st raws).2 = some chunks →
      ∀ c ∈ chunks, ∀ l ∈ pySplitNl (spacesN spacing ++ c), goodBody spacing l := by
  intro raws
  induction raws with
  | nil =>
    intro st chunks _ _ _ hlast _ c hcmem
    cases hlast
  | cons raw rest ih =>
    intro st chunks hsp1 hnl hdepth hlast hrun c hcmem
    have hrun2 : (runLines treeId st (raw :: rest)).2 =
        (match (processLine treeId st raw).2.chunk,
            (runLines treeId (processLine treeId st raw).1 rest).2 with
        | some c0, some cs => some (c0 :: cs)
        | _, _ => none) := rfl
    rw [hrun2] at hrun
    cases hch : (processLine treeId st raw).2.chunk with
    | none => rw [hch] at hrun; cases hrun
    | some c0 =>
      cases hcs : (runLines treeId (processLine treeId st raw).1 rest).2 with
      | none => rw [hch, hcs] at hrun; cases hrun
      | some cs =>
        rw [hch, hcs] at hrun
        have hchunks : c0 :: cs = chunks := Option.some.inj hrun
        rw [← hchunks] at hcmem
        rcases List.mem_cons.mp hcmem with h | h
        · subst h
          cases rest with
          | nil =>
            have hraw : raw = [] := by
              have : (raw :: []).getLast? = some raw := rfl
              rw [this] at hlast
              exact Option.some.inj hlast
            subst hraw
            exact chunk_good_empty treeId spacing st c hch
          | cons r rest2 =>
            have hmem : raw ∈ (raw :: r :: rest2).dropLast := by
              rw [List.dropLast_cons_of_ne_nil (by simp)]
              exact List.mem_cons_self _ _
            exact chunk_good treeId spacing st raw c hsp1
              (hnl raw (List.mem_cons_self _ _)) (hdepth raw hmem) hch
        · cases rest with
          | nil =>
            have : cs = [] := by
              have h0 : (runLines treeId (processLine treeId st raw).1 []).2 = some [] := rfl
              rw [h0] at hcs
              exact (Option.some.inj hcs).symm
            rw [this] at h
            cases h
          | cons r rest2 =>
            refine ih (processLine treeId st raw).1 cs hsp1
              (fun x hx => hnl x (List.mem_cons_of_mem _ hx)) ?_ ?_ hcs c h
            · intro x hx
              refine hdepth x ?_
              rw [List.dropLast_cons_of_ne_nil (by simp)]
              exact List.mem_cons_of_mem _ hx
            · rw [← hlast]
              exact List.getLast?_cons_cons.symm

/-- Claim C6, amended: for renderer-shaped input (final split line empty,
every other line indented by at least spacing spaces), every physical
line of the emitted body either begins with the fixed indent prefix of
spacing spaces, or is a block terminator line ending in END; (secondary
terminators of a multi-level return appear at column zero), or is an
ELSE IF continuation line carried inside a role prefix, or is the final
empty line; it is not true that every body line begins with the fixed
indent prefix. -/
theorem body_line_shapes (treeId spacing : Nat) (sasTable text : List Char)
    (chunks : List (List Char))
    (hsp1 : 1 ≤ spacing)
    (hlast : (pySplitNl text).getLast? = some [])
    (hdepth : ∀ raw ∈ (pySplitNl text).dropLast, spacing ≤ nSpacesOf (normLine raw))
    (hrun : (runLines treeId initTS (pySplitNl text)).2 = some chunks) :
    translate_text_to_sas treeId sasTable text spacing =
      some (headerOf treeId sasTable ++ (joinChunks spacing chunks).dropLast ++ "RUN;".toList) ∧
    ∀ l ∈ pySplitNl ((joinChunks spacing chunks).dropLast),
      (spacesN spacing).isPrefixOf l = true ∨ (∃ a, l = a ++ "END;".toList) ∨
      pyIn "ELSE IF ".toList l = true ∨ l = [] := by
  have hchne : chunks ≠ [] := by
    have hlen := runLines_chunks_length treeId (pySplitNl text) initTS chunks hrun
    intro he
    rw [he] at hlen
    have := pySplitNl_ne_nil text
    cases hsplit : pySplitNl text with
    | nil => exact this hsplit
    | cons a b =>
      rw [hsplit] at hlen
      simp at hlen
  have hjoin_ne : joinChunks spacing chunks ≠ [] := by
    cases chunks with
    | nil => exact absurd rfl hchne
    | cons c0 cs =>
      rw [joinChunks_cons]
      simp
  constructor
  · have ht : translate_text_to_sas treeId sasTable text spacing =
        ((runLines treeId initTS (pySplitNl text)).2).map
          (fun cs => (headerOf treeId sasTable ++ joinChunks spacing cs).dropLast ++
            "RUN;".toList) := rfl
    rw [ht, hrun, Option.map_some', dropLast_append_ne _ _ hjoin_ne]
  · intro l hl
    rw [segments_joinChunks spacing chunks hchne] at hl
    rcases List.mem_flatMap.mp hl with ⟨c, hcmem, hlc⟩
    exact runLines_chunks_good treeId spacing (pySplitNl text) initTS chunks hsp1
      (fun raw hraw => mem_pySplitNl_noNL text raw hraw) hdepth hlast hrun c hcmem l hlc

set_option maxRecDepth 10000 in
theorem body_line_shapes_witness :
    (1 ≤ 2 ∧
      (pySplitNl "  a <= 1.5\n    class: 0\n".toList).getLast? = some [] ∧
      (∀ raw ∈ (pySplitNl "  a <= 1.5\n    class: 0\n".toList).dropLast,
        2 ≤ nSpacesOf (normLine raw)) ∧
      (runLines 0 initTS (pySplitNl "  a <= 1.5\n    class: 0\n".toList)).2 =
        some ["  IF a <= 1.5 THEN DO;".toList, "    PREDICTED_VALUE_1 = 0;".toList, []]) ∧
    (translate_text_to_sas 0 "T".toList "  a <= 1.5\n    class: 0\n".toList 2 =
      some (headerOf 0 "T".toList ++
        (joinChunks 2 ["  IF a <= 1.5 THEN DO;".toList,
          "    PREDICTED_VALUE_1 = 0;".toList, []]).dropLast ++ "RUN;".toList) ∧
    ∀ l ∈ pySplitNl ((joinChunks 2 ["  IF a <= 1.5 THEN DO;".toList,
        "    PREDICTED_VALUE_1 = 0;".toList, []]).dropLast),
      (spacesN 2).isPrefixOf l = true ∨ (∃ a, l = a ++ "END;".toList) ∨
      pyIn "ELSE IF ".toList l = true ∨ l = []) :=
  ⟨⟨by decide, by decide, by decide, by decide⟩,
    body_line_shapes 0 2 "T".toList "  a <= 1.5\n    class: 0\n".toList
      ["  IF a <= 1.5 THEN DO;".toList, "    PREDICTED_VALUE_1 = 0;".toList, []]
      (by decide) (by decide) (by decide) (by decide)⟩

/-! ### Claim C9: idempotence of the threshold formatting -/

lemma digitChar_toNat (d : Nat) (h : d ≤ 9) : (digitChar d).toNat = 48 + d := by
  interval_cases d <;> decide

lemma digitChar_isDigit (d : Nat) (h : d ≤ 9) : (digitChar d).isDigit = true := by
  interval_cases d <;> decide

lemma natVal_concat (l : List Char) (c : Char) :
    natVal (l ++ [c]) = natVal l * 10 + (c.toNat - 48) := by
  unfold natVal
  rw [List.foldl_append]
  rfl

lemma natVal_natDigits (n : Nat) : natVal (natDigits n) = n := by
  induction n using Nat.strong_induction_on with
  | _ n ih =>
    rw [natDigits_eq]
    by_cases h : n < 10
    · rw [if_pos h]
      show natVal ([] ++ [digitChar n]) = n
      rw [natVal_concat]
      have : natVal [] = 0 := rfl
      rw [this, digitChar_toNat n (by omega)]
      omega
    · rw [if_neg h]
      rw [natVal_concat, ih (n / 10) (Nat.div_lt_self (by omega) (by omega)),
        digitChar_toNat (n % 10) (by omega)]
      omega

lemma natVal_cons_zero (l : List Char) : natVal ('0' :: l) = natVal l := by
  unfold natVal
  show l.foldl _ (0 * 10 + ('0'.toNat - 48)) = l.foldl _ 0
  have h0 : (0 * 10 + ('0'.toNat - 48)) = 0 := by decide
  rw [h0]

lemma natVal_zeros_prefix (j : Nat) (l : List Char) :
    natVal (List.replicate j '0' ++ l) = natVal l := by
  induction j with
  | zero => rfl
  | succ j ih =>
    rw [List.replicate_succ, List.cons_append, natVal_cons_zero, ih]

lemma natVal_append_zeros (ds : List Char) (k : Nat) :
    natVal (ds ++ List.replicate k '0') = natVal ds * 10 ^ k := by
  induction k with
  | zero => simp
  | succ k ih =>
    have h1 : List.replicate (k + 1) '0' = List.replicate k '0' ++ ['0'] := by
      rw [← List.replicate_succ']
    rw [h1, ← List.append_assoc, natVal_concat, ih]
    have : ('0'.toNat - 48) = 0 := by decide
    rw [this]
    ring

lemma natDigits_ne_nil (n : Nat) : natDigits n ≠ [] := by
  rw [natDigits_eq]
  by_cases h : n < 10 <;> simp [h]

lemma natDigits_isDigit (n : Nat) : ∀ c ∈ natDigits n, c.isDigit = true := by
  intro c hc
  obtain ⟨d, hd, he⟩ := natDigits_mem_digit n c hc
  exact he ▸ digitChar_isDigit d hd

lemma natDigits_mul_pow10 (a : Nat) (ha : a ≠ 0) :
    ∀ k, natDigits (a * 10 ^ k) = natDigits a ++ List.replicate k '0' := by
  intro k
  induction k with
  | zero => simp
  | succ k ih =>
    have h1 : a * 10 ^ (k + 1) = (a * 10 ^ k) * 10 := by ring
    rw [h1, natDigits_eq]
    have h2 : ¬ (a * 10 ^ k * 10 < 10) := by
      have hpa : 0 < a := Nat.pos_of_ne_zero ha
      have hpp : 0 < 10 ^ k := pow_pos (by omega) k
      have : 1 ≤ a * 10 ^ k := Nat.mul_pos hpa hpp
      omega
    rw [if_neg h2]
    have h3 : a * 10 ^ k * 10 / 10 = a * 10 ^ k := by omega
    have h4 : a * 10 ^ k * 10 % 10 = 0 := by omega
    rw [h3, h4, ih]
    have h5 : digitChar 0 = '0' := by decide
    rw [h5, List.append_assoc, ← List.replicate_succ']

lemma stripZeros_not_dvd (m : Nat) (e : Int) (h : m % 10 ≠ 0) :
    stripZeros m e = (m, e) := by
  rw [stripZeros_eq, if_neg (by omega)]

lemma stripZeros_mul_pow10 (m : Nat) (e : Int) (hm : m ≠ 0) (hmod : m % 10 ≠ 0) :
    ∀ k : Nat, stripZeros (m * 10 ^ k) (e - (k : Int)) = (m, e) := by
  intro k
  induction k generalizing e with
  | zero =>
    simp only [pow_zero, Nat.mul_one, Nat.cast_zero, sub_zero]
    exact stripZeros_not_dvd m e hmod
  | succ k ih =>
    rw [stripZeros_eq]
    have h1 : m * 10 ^ (k + 1) ≠ 0 := Nat.mul_ne_zero hm (pow_ne_zero _ (by norm_num))
    have h2 : m * 10 ^ (k + 1) % 10 = 0 := by
      have : m * 10 ^ (k + 1) = (m * 10 ^ k) * 10 := by ring
      omega
    rw [if_pos ⟨h1, h2⟩]
    have h3 : m * 10 ^ (k + 1) / 10 = m * 10 ^ k := by
      have : m * 10 ^ (k + 1) = (m * 10 ^ k) * 10 := by ring
      omega
    rw [h3]
    have h4 : e - (((k : Nat) + 1 : Nat) : Int) + 1 = e - k := by push_cast; ring
    rw [h4]
    exact ih e

lemma stripZerosAux_fst_mod : ∀ (f m : Nat) (e : Int), m ≠ 0 → m ≤ f →
    (stripZerosAux f m e).1 % 10 ≠ 0 := by
  intro f
  induction f with
  | zero => intro m e hm hf; omega
  | succ f ih =>
    intro m e hm hf
    by_cases hc : m ≠ 0 ∧ m % 10 = 0
    · show (stripZerosAux (f + 1) m e).1 % 10 ≠ 0
      unfold stripZerosAux
      rw [if_pos hc]
      refine ih (m / 10) (e + 1) ?_ ?_
      · omega
      · omega
    · show (stripZerosAux (f + 1) m e).1 % 10 ≠ 0
      unfold stripZerosAux
      rw [if_neg hc]
      show m % 10 ≠ 0
      omega

lemma stripZeros_fst_mod (m : Nat) (e : Int) (hm : m ≠ 0) :
    (stripZeros m e).1 % 10 ≠ 0 :=
  stripZerosAux_fst_mod m m e hm (le_refl m)

lemma stripZerosAux_fst_le : ∀ (f m : Nat) (e : Int), (stripZerosAux f m e).1 ≤ m := by
  intro f
  induction f with
  | zero =>
    intro m e
    cases m <;> exact le_refl _
  | succ f ih =>
    intro m e
    by_cases hc : m ≠ 0 ∧ m % 10 = 0
    · show (stripZerosAux (f + 1) m e).1 ≤ m
      unfold stripZerosAux
      rw [if_pos hc]
      calc (stripZerosAux f (m / 10) (e + 1)).1 ≤ m / 10 := ih (m / 10) (e + 1)
        _ ≤ m := Nat.div_le_self m 10
    · show (stripZerosAux (f + 1) m e).1 ≤ m
      unfold stripZerosAux
      rw [if_neg hc]

lemma stripZeros_fst_le (m : Nat) (e : Int) : (stripZeros m e).1 ≤ m :=
  stripZerosAux_fst_le m m e

lemma roundHalfEven_le (m p : Nat) : roundHalfEven m p ≤ m / p + 1 := by
  simp only [roundHalfEven]
  split_ifs <;> omega

lemma sig6_fst_mod (m : Nat) (e : Int) (hm : m ≠ 0) : (sig6 m e).1 % 10 ≠ 0 := by
  simp only [sig6]
  by_cases hnd : (natDigits m).length ≤ 6
  · rw [if_pos hnd]
    exact stripZeros_fst_mod m e hm
  · rw [if_neg hnd]
    refine stripZeros_fst_mod _ _ ?_
    have h1 := natDigits_ge m hm
    have h2 : 10 ^ ((natDigits m).length - 6) ≤ 10 ^ ((natDigits m).length - 1) := by
      refine Nat.pow_le_pow_right (by omega) (by omega)
    have h3 : 0 < 10 ^ ((natDigits m).length - 6) := pow_pos (by omega) _
    have h4 := roundHalfEven_ge_div m (10 ^ ((natDigits m).length - 6))
    have h5 : 1 ≤ m / 10 ^ ((natDigits m).length - 6) := by
      rw [Nat.le_div_iff_mul_le h3]
      omega
    omega

lemma sig6_fst_lt (m : Nat) (e : Int) (hm : m ≠ 0) : (sig6 m e).1 < 10 ^ 6 := by
  simp only [sig6]
  by_cases hnd : (natDigits m).length ≤ 6
  · rw [if_pos hnd]
    have h1 := stripZeros_fst_le m e
    have h2 := natDigits_lt m
    have h3 : 10 ^ (natDigits m).length ≤ 10 ^ 6 := Nat.pow_le_pow_right (by omega) hnd
    omega
  · rw [if_neg hnd]
    have h3 : 0 < 10 ^ ((natDigits m).length - 6) := pow_pos (by omega) _
    have h4 := roundHalfEven_le m (10 ^ ((natDigits m).length - 6))
    have h5 : m / 10 ^ ((natDigits m).length - 6) < 10 ^ 6 := by
      rw [Nat.div_lt_iff_lt_mul h3]
      have h6 : 10 ^ 6 * 10 ^ ((natDigits m).length - 6) = 10 ^ (natDigits m).length := by
        rw [← pow_add]
        congr 1
        omega
      have h7 := natDigits_lt m
      omega
    by_cases he : roundHalfEven m (10 ^ ((natDigits m).length - 6)) = 10 ^ 6
    · rw [he]
      have h8 : (10 : Nat) ^ 6 = 1 * 10 ^ 6 := by ring
      rw [h8]
      have h9 := stripZeros_mul_pow10 1 (e + (((natDigits m).length : Nat) - 6) + 6) (by omega) (by omega) 6
      have h10 : (e + (((natDigits m).length : Nat) - 6) + 6 : Int) - (6 : Nat) =
          e + (((natDigits m).length : Nat) - 6) := by push_cast; ring
      rw [h10] at h9
      rw [h9]
      norm_num
    · have h11 := stripZeros_fst_le (roundHalfEven m (10 ^ ((natDigits m).length - 6)))
        (e + (((natDigits m).length : Nat) - 6))
      omega

lemma natDigits_len_le6 (m : Nat) (h : m < 10 ^ 6) : (natDigits m).length ≤ 6 := by
  by_contra hle
  push_neg at hle
  by_cases hm : m = 0
  · subst hm
    have : natDigits 0 = [digitChar 0] := by rw [natDigits_eq]; simp
    rw [this] at hle
    simp at hle
  · have h1 := natDigits_ge m hm
    have h2 : 10 ^ 6 ≤ 10 ^ ((natDigits m).length - 1) :=
      Nat.pow_le_pow_right (by omega) (by omega)
    omega

lemma tw_all (p : Char → Bool) (a : List Char) (h : ∀ x ∈ a, p x = true) :
    a.takeWhile p = a ∧ a.dropWhile p = [] := by
  induction a with
  | nil => exact ⟨rfl, rfl⟩
  | cons x xs ih =>
    have hx : p x = true := h x (List.mem_cons_self x xs)
    obtain ⟨h1, h2⟩ := ih (fun y hy => h y (List.mem_cons_of_mem x hy))
    exact ⟨by rw [List.takeWhile_cons_of_pos hx, h1],
      by rw [List.dropWhile_cons_of_pos hx, h2]⟩

lemma tw_append_stop (p : Char → Bool) (a : List Char) (c : Char) (b : List Char)
    (ha : ∀ x ∈ a, p x = true) (hc : p c = false) :
    (a ++ c :: b).takeWhile p = a ∧ (a ++ c :: b).dropWhile p = c :: b := by
  induction a with
  | nil =>
    exact ⟨List.takeWhile_cons_of_neg (by simp [hc]),
      List.dropWhile_cons_of_neg (by simp [hc])⟩
  | cons x xs ih =>
    have hx : p x = true := ha x (List.mem_cons_self x xs)
    obtain ⟨h1, h2⟩ := ih (fun y hy => ha y (List.mem_cons_of_mem x hy))
    constructor
    · rw [List.cons_append, List.takeWhile_cons_of_pos hx, h1]
    · rw [List.cons_append, List.dropWhile_cons_of_pos hx, h2]

/-- The body of pyFloatParse after the sign has been split off. -/
def pyFloatCore (sgn : Bool) (t : List Char) : Option PyDec :=
  let intD := t.takeWhile Char.isDigit
  let r1 := t.dropWhile Char.isDigit
  let (fracD, r2) :=
    match r1 with
    | '.' :: u => (u.takeWhile Char.isDigit, u.dropWhile Char.isDigit)
    | _ => ([], r1)
  if intD.isEmpty && fracD.isEmpty then none
  else
    let mant := natVal (intD ++ fracD)
    let eBase : Int := -(fracD.length : Int)
    match r2 with
    | [] => some ⟨sgn, mant, eBase⟩
    | e :: u =>
      if e = 'e' || e = 'E' then
        let (esgn, u2) :=
          match u with
          | '+' :: w => (false, w)
          | '-' :: w => (true, w)
          | _ => (false, u)
        let eD := u2.takeWhile Char.isDigit
        if eD.isEmpty || !(u2.dropWhile Char.isDigit).isEmpty then none
        else
          let ev : Int := if esgn then -(natVal eD : Int) else (natVal eD : Int)
          some ⟨sgn, mant, eBase + ev⟩
      else none

lemma pyFloatParse_neg (t : List Char) : pyFloatParse ('-' :: t) = pyFloatCore true t := rfl

lemma pyFloatParse_nonsign (c : Char) (t : List Char) (h0 : c ≠ '+') (h1 : c ≠ '-') :
    pyFloatParse (c :: t) = pyFloatCore false (c :: t) := by
  unfold pyFloatParse pyFloatCore
  have hm : (match c :: t with
      | '+' :: t => (false, t)
      | '-' :: t => (true, t)
      | _ => (false, c :: t)) = ((false, c :: t) : Bool × List Char) := by
    split
    · next x heq =>
      rw [List.cons.injEq] at heq
      exact absurd heq.1 h0
    · next x heq =>
      rw [List.cons.injEq] at heq
      exact absurd heq.1 h1
    · rfl
  rw [hm]

lemma pyFloatCore_int (sgn : Bool) (intD : List Char)
    (hi : ∀ c ∈ intD, c.isDigit = true) (hne : intD ≠ []) :
    pyFloatCore sgn intD = some ⟨sgn, natVal intD, 0⟩ := by
  unfold pyFloatCore
  obtain ⟨htw, hdw⟩ := tw_all Char.isDigit intD hi
  rw [htw, hdw]
  have hie : intD.isEmpty = false := by simp [List.isEmpty_iff, hne]
  simp [hie]

lemma pyFloatCore_frac (sgn : Bool) (intD fracD : List Char)
    (hi : ∀ c ∈ intD, c.isDigit = true) (hf : ∀ c ∈ fracD, c.isDigit = true)
    (hine : intD ≠ []) :
    pyFloatCore sgn (intD ++ '.' :: fracD) =
      some ⟨sgn, natVal (intD ++ fracD), -(fracD.length : Int)⟩ := by
  unfold pyFloatCore
  obtain ⟨htw, hdw⟩ := tw_append_stop Char.isDigit intD '.' fracD hi (by decide)
  rw [htw, hdw]
  obtain ⟨htw2, hdw2⟩ := tw_all Char.isDigit fracD hf
  have hie : intD.isEmpty = false := by simp [List.isEmpty_iff, hine]
  simp [hie, htw2, hdw2]

lemma pyFloatCore_sci_frac_neg (sgn : Bool) (intD fracD eD : List Char)
    (hi : ∀ c ∈ intD, c.isDigit = true) (hf : ∀ c ∈ fracD, c.isDigit = true)
    (he : ∀ c ∈ eD, c.isDigit = true)
    (hine : intD ≠ []) (heD : eD ≠ []) :
    pyFloatCore sgn (intD ++ '.' :: (fracD ++ 'e' :: '-' :: eD)) =
      some ⟨sgn, natVal (intD ++ fracD), -(fracD.length : Int) + -(natVal eD : Int)⟩ := by
  obtain ⟨htw3, hdw3⟩ := tw_all Char.isDigit eD he
  have hie : intD.isEmpty = false := by simp [List.isEmpty_iff, hine]
  have heDe : eD.isEmpty = false := by simp [List.isEmpty_iff, heD]
  unfold pyFloatCore
  obtain ⟨htw, hdw⟩ := tw_append_stop Char.isDigit intD '.'
    (fracD ++ 'e' :: '-' :: eD) hi (by decide)
  obtain ⟨htw2, hdw2⟩ := tw_append_stop Char.isDigit fracD 'e' ('-' :: eD) hf (by decide)
  rw [htw, hdw]
  simp [htw2, hdw2, htw3, hdw3, hie, heDe]

lemma pyFloatCore_sci_frac_pos (sgn : Bool) (intD fracD eD : List Char)
    (hi : ∀ c ∈ intD, c.isDigit = true) (hf : ∀ c ∈ fracD, c.isDigit = true)
    (he : ∀ c ∈ eD, c.isDigit = true)
    (hine : intD ≠ []) (heD : eD ≠ []) :
    pyFloatCore sgn (intD ++ '.' :: (fracD ++ 'e' :: '+' :: eD)) =
      some ⟨sgn, natVal (intD ++ fracD), -(fracD.length : Int) + (natVal eD : Int)⟩ := by
  obtain ⟨htw3, hdw3⟩ := tw_all Char.isDigit eD he
  have hie : intD.isEmpty = false := by simp [List.isEmpty_iff, hine]
  have heDe : eD.isEmpty = false := by simp [List.isEmpty_iff, heD]
  unfold pyFloatCore
  obtain ⟨htw, hdw⟩ := tw_append_stop Char.isDigit intD '.'
    (fracD ++ 'e' :: '+' :: eD) hi (by decide)
  obtain ⟨htw2, hdw2⟩ := tw_append_stop Char.isDigit fracD 'e' ('+' :: eD) hf (by decide)
  rw [htw, hdw]
  simp [htw2, hdw2, htw3, hdw3, hie, heDe]

lemma pyFloatCore_sci_nofrac_neg (sgn : Bool) (intD eD : List Char)
    (hi : ∀ c ∈ intD, c.isDigit = true) (he : ∀ c ∈ eD, c.isDigit = true)
    (hine : intD ≠ []) (heD : eD ≠ []) :
    pyFloatCore sgn (intD ++ 'e' :: '-' :: eD) =
      some ⟨sgn, natVal intD, -(natVal eD : Int)⟩ := by
  obtain ⟨htw3, hdw3⟩ := tw_all Char.isDigit eD he
  have hie : intD.isEmpty = false := by simp [List.isEmpty_iff, hine]
  have heDe : eD.isEmpty = false := by simp [List.isEmpty_iff, heD]
  unfold pyFloatCore
  obtain ⟨htw, hdw⟩ := tw_append_stop Char.isDigit intD 'e' ('-' :: eD) hi (by decide)
  rw [htw, hdw]
  simp [htw3, hdw3, hie, heDe]

lemma pyFloatCore_sci_nofrac_pos (sgn : Bool) (intD eD : List Char)
    (hi : ∀ c ∈ intD, c.isDigit = true) (he : ∀ c ∈ eD, c.isDigit = true)
    (hine : intD ≠ []) (heD : eD ≠ []) :
    pyFloatCore sgn (intD ++ 'e' :: '+' :: eD) =
      some ⟨sgn, natVal intD, (natVal eD : Int)⟩ := by
  obtain ⟨htw3, hdw3⟩ := tw_all Char.isDigit eD he
  have hie : intD.isEmpty = false := by simp [List.isEmpty_iff, hine]
  have heDe : eD.isEmpty = false := by simp [List.isEmpty_iff, heD]
  unfold pyFloatCore
  obtain ⟨htw, hdw⟩ := tw_append_stop Char.isDigit intD 'e' ('+' :: eD) hi (by decide)
  rw [htw, hdw]
  simp [htw3, hdw3, hie, heDe]

lemma headI_append_ne (a b : List Char) (h : a ≠ []) : (a ++ b).headI = a.headI := by
  cases a with
  | nil => exact absurd rfl h
  | cons x t => rfl

lemma parse_with_sign (sgn : Bool) (body : List Char) (hb : body ≠ [])
    (hd : body.headI.isDigit = true) :
    pyFloatParse ((if sgn then ['-'] else []) ++ body) = pyFloatCore sgn body := by
  cases sgn with
  | true =>
    show pyFloatParse ('-' :: body) = pyFloatCore true body
    exact pyFloatParse_neg body
  | false =>
    show pyFloatParse ([] ++ body) = pyFloatCore false body
    rw [List.nil_append]
    cases body with
    | nil => exact absurd rfl hb
    | cons c t =>
      have hcd : c.isDigit = true := hd
      refine pyFloatParse_nonsign c t ?_ ?_
      · intro he
        rw [he] at hcd
        exact absurd hcd (by decide)
      · intro he
        rw [he] at hcd
        exact absurd hcd (by decide)

lemma formatGdec_nonzero (d : PyDec) (hm : d.mant ≠ 0) :
    formatGdec d = (if d.sign then ['-'] else []) ++
      (if -4 ≤ ((natDigits (sig6 d.mant d.exp).1).length : Int) - 1 + (sig6 d.mant d.exp).2 ∧
          ((natDigits (sig6 d.mant d.exp).1).length : Int) - 1 + (sig6 d.mant d.exp).2 < 6
        then renderFixed (natDigits (sig6 d.mant d.exp).1) (sig6 d.mant d.exp).2
        else renderSci (natDigits (sig6 d.mant d.exp).1)
          (((natDigits (sig6 d.mant d.exp).1).length : Int) - 1 + (sig6 d.mant d.exp).2)) := by
  simp only [formatGdec]
  rw [if_neg hm]
  split_ifs with h <;> rfl

lemma formatGdec_congr_sig (d1 d2 : PyDec) (hs : d1.sign = d2.sign)
    (h1 : d1.mant ≠ 0) (h2 : d2.mant ≠ 0)
    (hsig : sig6 d1.mant d1.exp = sig6 d2.mant d2.exp) :
    formatGdec d1 = formatGdec d2 := by
  simp only [formatGdec]
  rw [if_neg h1, if_neg h2, hs, hsig]

lemma sig6_def (a : Nat) (b : Int) :
    sig6 a b = if (natDigits a).length ≤ 6 then stripZeros a b
      else stripZeros (roundHalfEven a (10 ^ ((natDigits a).length - 6)))
        (b + ((natDigits a).length - 6)) := rfl

lemma sig6_self (m : Nat) (e : Int) (hm : m ≠ 0) :
    sig6 (sig6 m e).1 (sig6 m e).2 = sig6 m e := by
  have hmod := sig6_fst_mod m e hm
  have hlt := sig6_fst_lt m e hm
  have hlen6 := natDigits_len_le6 _ hlt
  rw [sig6_def (sig6 m e).1 (sig6 m e).2, if_pos hlen6,
    stripZeros_not_dvd _ _ hmod]

lemma roundtrip_fixed_nonneg (d : PyDec) (hm : d.mant ≠ 0)
    (h2 : 0 ≤ (sig6 d.mant d.exp).2)
    (hX6 : ((natDigits (sig6 d.mant d.exp).1).length : Int) - 1 + (sig6 d.mant d.exp).2 < 6) :
    ∃ d2 : PyDec, pyFloatCore d.sign
        (renderFixed (natDigits (sig6 d.mant d.exp).1) (sig6 d.mant d.exp).2) = some d2 ∧
      d2.sign = d.sign ∧ d2.mant ≠ 0 ∧ sig6 d2.mant d2.exp = sig6 d.mant d.exp := by
  have hp1 : (sig6 d.mant d.exp).1 ≠ 0 := sig6_fst_ne _ _ hm
  have hmod : (sig6 d.mant d.exp).1 % 10 ≠ 0 := sig6_fst_mod _ _ hm
  have hdig := natDigits_isDigit (sig6 d.mant d.exp).1
  have hnv := natVal_natDigits (sig6 d.mant d.exp).1
  have hfix : renderFixed (natDigits (sig6 d.mant d.exp).1) (sig6 d.mant d.exp).2 =
      natDigits (sig6 d.mant d.exp).1 ++ List.replicate (sig6 d.mant d.exp).2.toNat '0' := by
    unfold renderFixed
    rw [if_pos h2]
  have hd2 : ∀ c ∈ natDigits (sig6 d.mant d.exp).1 ++
      List.replicate (sig6 d.mant d.exp).2.toNat '0', c.isDigit = true := by
    intro c hc
    rcases List.mem_append.mp hc with h | h
    · exact hdig c h
    · rw [List.eq_of_mem_replicate h]
      decide
  have hne : natDigits (sig6 d.mant d.exp).1 ++
      List.replicate (sig6 d.mant d.exp).2.toNat '0' ≠ [] := by
    intro he
    exact natDigits_ne_nil _ (List.append_eq_nil.mp he).1
  refine ⟨⟨d.sign, (sig6 d.mant d.exp).1 * 10 ^ (sig6 d.mant d.exp).2.toNat, 0⟩,
    ?_, rfl, ?_, ?_⟩
  · rw [hfix, pyFloatCore_int d.sign _ hd2 hne, natVal_append_zeros, hnv]
  · exact Nat.mul_ne_zero hp1 (pow_ne_zero _ (by norm_num))
  · show sig6 ((sig6 d.mant d.exp).1 * 10 ^ (sig6 d.mant d.exp).2.toNat) 0 =
      sig6 d.mant d.exp
    have hnd : natDigits ((sig6 d.mant d.exp).1 * 10 ^ (sig6 d.mant d.exp).2.toNat) =
        natDigits (sig6 d.mant d.exp).1 ++ List.replicate (sig6 d.mant d.exp).2.toNat '0' :=
      natDigits_mul_pow10 _ hp1 _
    rw [sig6_def, hnd]
    have hk : (((sig6 d.mant d.exp).2.toNat : Nat) : Int) = (sig6 d.mant d.exp).2 :=
      Int.toNat_of_nonneg h2
    have hlen : (natDigits (sig6 d.mant d.exp).1 ++
        List.replicate (sig6 d.mant d.exp).2.toNat '0').length =
        (natDigits (sig6 d.mant d.exp).1).length + (sig6 d.mant d.exp).2.toNat := by
      simp
    rw [hlen]
    have hle6 : (natDigits (sig6 d.mant d.exp).1).length + (sig6 d.mant d.exp).2.toNat ≤ 6 := by
      have h1 := natDigits_len_pos (sig6 d.mant d.exp).1
      omega
    rw [if_pos hle6]
    have h9 := stripZeros_mul_pow10 (sig6 d.mant d.exp).1
      (((sig6 d.mant d.exp).2.toNat : Nat) : Int) hp1 hmod (sig6 d.mant d.exp).2.toNat
    rw [sub_self] at h9
    rw [h9]
    exact Prod.ext rfl hk

lemma roundtrip_fixed_neg (d : PyDec) (hm : d.mant ≠ 0)
    (h2 : (sig6 d.mant d.exp).2 < 0) :
    ∃ d2 : PyDec, pyFloatCore d.sign
        (renderFixed (natDigits (sig6 d.mant d.exp).1) (sig6 d.mant d.exp).2) = some d2 ∧
      d2.sign = d.sign ∧ d2.mant ≠ 0 ∧ sig6 d2.mant d2.exp = sig6 d.mant d.exp := by
  have hp1 : (sig6 d.mant d.exp).1 ≠ 0 := sig6_fst_ne _ _ hm
  have hdig := natDigits_isDigit (sig6 d.mant d.exp).1
  have hnv := natVal_natDigits (sig6 d.mant d.exp).1
  have hself := sig6_self d.mant d.exp hm
  have hkpos : 1 ≤ (-(sig6 d.mant d.exp).2).toNat := by omega
  have hkexp : -(((-(sig6 d.mant d.exp).2).toNat : Nat) : Int) = (sig6 d.mant d.exp).2 := by
    omega
  refine ⟨⟨d.sign, (sig6 d.mant d.exp).1, (sig6 d.mant d.exp).2⟩, ?_, rfl, hp1, hself⟩
  simp only [renderFixed]
  rw [if_neg (by omega)]
  by_cases hk : (-(sig6 d.mant d.exp).2).toNat < (natDigits (sig6 d.mant d.exp).1).length
  · rw [if_pos hk]
    have htk : natDigits (sig6 d.mant d.exp).1 =
        (natDigits (sig6 d.mant d.exp).1).take
          ((natDigits (sig6 d.mant d.exp).1).length - (-(sig6 d.mant d.exp).2).toNat) ++
        (natDigits (sig6 d.mant d.exp).1).drop
          ((natDigits (sig6 d.mant d.exp).1).length - (-(sig6 d.mant d.exp).2).toNat) :=
      (List.take_append_drop _ _).symm
    have hine : (natDigits (sig6 d.mant d.exp).1).take
        ((natDigits (sig6 d.mant d.exp).1).length - (-(sig6 d.mant d.exp).2).toNat) ≠ [] := by
      intro he
      have := congrArg List.length he
      rw [List.length_take] at this
      simp at this
      omega
    rw [pyFloatCore_frac d.sign _ _
      (fun c hc => hdig c (List.take_subset _ _ hc))
      (fun c hc => hdig c (List.drop_subset _ _ hc)) hine]
    rw [← htk, hnv]
    have hdl : ((natDigits (sig6 d.mant d.exp).1).drop
        ((natDigits (sig6 d.mant d.exp).1).length - (-(sig6 d.mant d.exp).2).toNat)).length =
        (-(sig6 d.mant d.exp).2).toNat := by
      rw [List.length_drop]
      omega
    rw [hdl, hkexp]
  · rw [if_neg hk]
    have hshape : ('0' : Char) :: '.' ::
        List.replicate ((-(sig6 d.mant d.exp).2).toNat -
          (natDigits (sig6 d.mant d.exp).1).length) '0' ++ natDigits (sig6 d.mant d.exp).1 =
        ['0'] ++ '.' :: (List.replicate ((-(sig6 d.mant d.exp).2).toNat -
          (natDigits (sig6 d.mant d.exp).1).length) '0' ++ natDigits (sig6 d.mant d.exp).1) := by
      simp
    rw [hshape, pyFloatCore_frac d.sign _ _
      (by intro c hc; rcases List.mem_singleton.mp hc with rfl; decide)
      (by
        intro c hc
        rcases List.mem_append.mp hc with h | h
        · rw [List.eq_of_mem_replicate h]; decide
        · exact hdig c h)
      (by simp)]
    have hmv : natVal (['0'] ++ (List.replicate ((-(sig6 d.mant d.exp).2).toNat -
        (natDigits (sig6 d.mant d.exp).1).length) '0' ++ natDigits (sig6 d.mant d.exp).1)) =
        (sig6 d.mant d.exp).1 := by
      show natVal ('0' :: (List.replicate _ '0' ++ natDigits (sig6 d.mant d.exp).1)) = _
      rw [natVal_cons_zero, natVal_zeros_prefix, hnv]
    rw [hmv]
    have hfl : ((List.replicate ((-(sig6 d.mant d.exp).2).toNat -
        (natDigits (sig6 d.mant d.exp).1).length) '0' ++
        natDigits (sig6 d.mant d.exp).1)).length = (-(sig6 d.mant d.exp).2).toNat := by
      rw [List.length_append, List.length_replicate]
      omega
    rw [hfl, hkexp]

lemma eDigits2_val (X : Int) :
    natVal (if (natDigits X.natAbs).length < 2 then '0' :: natDigits X.natAbs
      else natDigits X.natAbs) = X.natAbs := by
  by_cases h : (natDigits X.natAbs).length < 2
  · rw [if_pos h, natVal_cons_zero, natVal_natDigits]
  · rw [if_neg h, natVal_natDigits]

lemma eDigits2_digits (X : Int) :
    ∀ c ∈ (if (natDigits X.natAbs).length < 2 then '0' :: natDigits X.natAbs
      else natDigits X.natAbs), c.isDigit = true := by
  intro c hc
  by_cases h : (natDigits X.natAbs).length < 2
  · rw [if_pos h] at hc
    rcases List.mem_cons.mp hc with h1 | h1
    · rw [h1]; decide
    · exact natDigits_isDigit _ c h1
  · rw [if_neg h] at hc
    exact natDigits_isDigit _ c hc

lemma eDigits2_ne (X : Int) :
    (if (natDigits X.natAbs).length < 2 then '0' :: natDigits X.natAbs
      else natDigits X.natAbs) ≠ [] := by
  by_cases h : (natDigits X.natAbs).length < 2
  · rw [if_pos h]; simp
  · rw [if_neg h]; exact natDigits_ne_nil _

lemma roundtrip_sci (d : PyDec) (hm : d.mant ≠ 0) :
    ∃ d2 : PyDec, pyFloatCore d.sign
        (renderSci (natDigits (sig6 d.mant d.exp).1)
          (((natDigits (sig6 d.mant d.exp).1).length : Int) - 1 + (sig6 d.mant d.exp).2)) =
        some d2 ∧
      d2.sign = d.sign ∧ d2.mant ≠ 0 ∧ sig6 d2.mant d2.exp = sig6 d.mant d.exp := by
  have hp1 : (sig6 d.mant d.exp).1 ≠ 0 := sig6_fst_ne _ _ hm
  have hdig := natDigits_isDigit (sig6 d.mant d.exp).1
  have hnv := natVal_natDigits (sig6 d.mant d.exp).1
  have hself := sig6_self d.mant d.exp hm
  obtain ⟨d0, rest, hds⟩ : ∃ d0 rest, natDigits (sig6 d.mant d.exp).1 = d0 :: rest := by
    cases h : natDigits (sig6 d.mant d.exp).1 with
    | nil => exact absurd h (natDigits_ne_nil _)
    | cons x t => exact ⟨x, t, rfl⟩
  refine ⟨⟨d.sign, (sig6 d.mant d.exp).1, (sig6 d.mant d.exp).2⟩, ?_, rfl, hp1, hself⟩
  rw [hds]
  simp only [renderSci]
  set X : Int := (((d0 :: rest).length : Nat) : Int) - 1 + (sig6 d.mant d.exp).2 with hX
  have hvds : natVal (d0 :: rest) = (sig6 d.mant d.exp).1 := by rw [← hds, hnv]
  have hddig : ∀ c ∈ d0 :: rest, c.isDigit = true := by rw [← hds]; exact hdig
  cases rest with
  | nil =>
    have hXp : X = (sig6 d.mant d.exp).2 := by rw [hX]; simp
    simp only [List.isEmpty_nil, if_true]
    by_cases hXn : X < 0
    · rw [if_pos hXn,
        pyFloatCore_sci_nofrac_neg d.sign [d0] _ hddig (eDigits2_digits X)
          (by simp) (eDigits2_ne X), eDigits2_val X]
      have he : -((X.natAbs : Nat) : Int) = (sig6 d.mant d.exp).2 := by omega
      rw [he, hvds]
    · rw [if_neg hXn,
        pyFloatCore_sci_nofrac_pos d.sign [d0] _ hddig (eDigits2_digits X)
          (by simp) (eDigits2_ne X), eDigits2_val X]
      have he : ((X.natAbs : Nat) : Int) = (sig6 d.mant d.exp).2 := by omega
      rw [he, hvds]
  | cons r1 rest2 =>
    simp only [List.isEmpty_cons, Bool.false_eq_true, if_false]
    have hshape : ∀ z : List Char, (d0 :: '.' :: r1 :: rest2) ++ z =
        [d0] ++ '.' :: ((r1 :: rest2) ++ z) := by
      intro z
      simp
    by_cases hXn : X < 0
    · rw [if_pos hXn, hshape,
        pyFloatCore_sci_frac_neg d.sign [d0] (r1 :: rest2) _
          (fun c hc => hddig c (by
            rw [List.mem_singleton.mp hc]
            exact List.mem_cons_self _ _))
          (fun c hc => hddig c (List.mem_cons_of_mem d0 hc))
          (eDigits2_digits X) (by simp) (eDigits2_ne X), eDigits2_val X]
      have hmv : natVal ([d0] ++ r1 :: rest2) = (sig6 d.mant d.exp).1 := hvds
      rw [hmv]
      have he : -(((r1 :: rest2).length : Nat) : Int) + -((X.natAbs : Nat) : Int) =
          (sig6 d.mant d.exp).2 := by
        rw [hX] at hXn ⊢
        simp only [List.length_cons] at hXn ⊢
        omega
      rw [he]
    · rw [if_neg hXn, hshape,
        pyFloatCore_sci_frac_pos d.sign [d0] (r1 :: rest2) _
          (fun c hc => hddig c (by
            rw [List.mem_singleton.mp hc]
            exact List.mem_cons_self _ _))
          (fun c hc => hddig c (List.mem_cons_of_mem d0 hc))
          (eDigits2_digits X) (by simp) (eDigits2_ne X), eDigits2_val X]
      have hmv : natVal ([d0] ++ r1 :: rest2) = (sig6 d.mant d.exp).1 := hvds
      rw [hmv]
      have he : -(((r1 :: rest2).length : Nat) : Int) + ((X.natAbs : Nat) : Int) =
          (sig6 d.mant d.exp).2 := by
        rw [hX] at hXn ⊢
        simp only [List.length_cons] at hXn ⊢
        omega
      rw [he]

lemma headI_mem (l : List Char) (h : l ≠ []) : l.headI ∈ l := by
  cases l with
  | nil => exact absurd rfl h
  | cons x t => exact List.mem_cons_self x t

lemma renderFixed_head_digit (ds : List Char) (e1 : Int) (hne : ds ≠ [])
    (hd : ∀ c ∈ ds, c.isDigit = true) :
    renderFixed ds e1 ≠ [] ∧ (renderFixed ds e1).headI.isDigit = true := by
  simp only [renderFixed]
  split_ifs with h1 h2
  · refine ⟨by simp [hne], ?_⟩
    rw [headI_append_ne ds _ hne]
    exact hd _ (headI_mem ds hne)
  · have htne : ds.take (ds.length - (-e1).toNat) ≠ [] := by
      intro he
      have := congrArg List.length he
      rw [List.length_take] at this
      simp at this
      omega
    refine ⟨by simp [htne], ?_⟩
    rw [headI_append_ne _ _ htne]
    exact hd _ (List.take_subset _ _ (headI_mem _ htne))
  · refine ⟨by simp, ?_⟩
    rw [headI_append_ne _ _ (by simp)]
    have hh : (('0' : Char) :: '.' ::
        List.replicate ((-e1).toNat - ds.length) '0').headI = '0' := rfl
    rw [hh]
    decide

lemma renderSci_head_digit (ds : List Char) (X : Int) (hne : ds ≠ [])
    (hd : ∀ c ∈ ds, c.isDigit = true) :
    renderSci ds X ≠ [] ∧ (renderSci ds X).headI.isDigit = true := by
  simp only [renderSci]
  cases ds with
  | nil => exact absurd rfl hne
  | cons d0 rest =>
    dsimp only
    have hd0 : d0.isDigit = true := hd d0 (List.mem_cons_self _ _)
    by_cases hre : rest.isEmpty
    · rw [if_pos hre]
      exact ⟨by simp, hd0⟩
    · rw [if_neg hre]
      exact ⟨by simp, hd0⟩

lemma formatG_roundtrip (d : PyDec) : pyFormatG (formatGdec d) = some (formatGdec d) := by
  by_cases hm : d.mant = 0
  · have hfd : formatGdec d = (if d.sign then ['-'] else []) ++ ['0'] := by
      simp only [formatGdec]
      rw [if_pos hm]
    cases hs : d.sign with
    | true =>
      rw [hfd, hs]
      show pyFormatG (['-'] ++ ['0']) = some (['-'] ++ ['0'])
      decide
    | false =>
      rw [hfd, hs]
      show pyFormatG ([] ++ ['0']) = some ([] ++ ['0'])
      decide
  · have hfd := formatGdec_nonzero d hm
    have hdsne : natDigits (sig6 d.mant d.exp).1 ≠ [] := natDigits_ne_nil _
    have hdsdig := natDigits_isDigit (sig6 d.mant d.exp).1
    by_cases hX : -4 ≤ ((natDigits (sig6 d.mant d.exp).1).length : Int) - 1 +
          (sig6 d.mant d.exp).2 ∧
        ((natDigits (sig6 d.mant d.exp).1).length : Int) - 1 + (sig6 d.mant d.exp).2 < 6
    · rw [if_pos hX] at hfd
      obtain ⟨hbne, hbdig⟩ := renderFixed_head_digit (natDigits (sig6 d.mant d.exp).1)
        (sig6 d.mant d.exp).2 hdsne hdsdig
      obtain ⟨d2, hcore, hsg, hm2, hsig⟩ :
          ∃ d2 : PyDec, pyFloatCore d.sign
              (renderFixed (natDigits (sig6 d.mant d.exp).1) (sig6 d.mant d.exp).2) =
              some d2 ∧
            d2.sign = d.sign ∧ d2.mant ≠ 0 ∧ sig6 d2.mant d2.exp = sig6 d.mant d.exp := by
        by_cases h2 : 0 ≤ (sig6 d.mant d.exp).2
        · exact roundtrip_fixed_nonneg d hm h2 hX.2
        · exact roundtrip_fixed_neg d hm (by omega)
      unfold pyFormatG
      rw [hfd, parse_with_sign d.sign _ hbne hbdig, hcore, Option.map_some', ← hfd]
      exact congrArg some (formatGdec_congr_sig d2 d hsg hm2 hm hsig)
    · rw [if_neg hX] at hfd
      obtain ⟨hbne, hbdig⟩ := renderSci_head_digit (natDigits (sig6 d.mant d.exp).1)
        (((natDigits (sig6 d.mant d.exp).1).length : Int) - 1 + (sig6 d.mant d.exp).2)
        hdsne hdsdig
      obtain ⟨d2, hcore, hsg, hm2, hsig⟩ := roundtrip_sci d hm
      unfold pyFormatG
      rw [hfd, parse_with_sign d.sign _ hbne hbdig, hcore, Option.map_some', ← hfd]
      exact congrArg some (formatGdec_congr_sig d2 d hsg hm2 hm hsig)

/-- Claim C9: threshold formatting is idempotent.  Whenever the
numeric-threshold pipeline (float parse of the exact decimal literal
followed by general formatting at precision six) accepts a string and
emits t, running the same pipeline on t succeeds and emits t again. -/
theorem threshold_format_idempotent (s t : List Char) (h : pyFormatG s = some t) :
    pyFormatG t = some t := by
  unfold pyFormatG at h
  cases hp : pyFloatParse s with
  | none => rw [hp] at h; cases h
  | some d =>
    rw [hp, Option.map_some'] at h
    have ht : t = formatGdec d := (Option.some.inj h).symm
    rw [ht]
    exact formatG_roundtrip d

theorem threshold_format_idempotent_witness :
    pyFormatG "123.4560".toList = some "123.456".toList ∧
    pyFormatG "123.456".toList = some "123.456".toList :=
  ⟨by decide,
    threshold_format_idempotent "123.4560".toList "123.456".toList (by decide)⟩
